import Mathlib

/-
Verification of the process-and-resource manager in `project1.py`.

The embedding mirrors the Python source: process ids, resource ids, priorities
and unit counts are Python ints (modelled as `Int`); the three tables are the
fixed-length lists `PCB` (16 slots), `RCB` (4 resources) and `RL` (3 ready
lists).  `defaultdict(int)` resource maps are modelled as insertion-ordered
association lists (as Python dicts are), `deque`s as plain lists with the head
at the front.  Operations that return `-1` on error and `None` on success are
modelled as `Option`-valued functions (`none` = error, and the caller keeps the
unchanged state, matching the source where every validation happens before any
mutation).  Python list indexing `xs[i]` with `-len ≤ i < 0` wraps around;
`pyIdx` reproduces that.  Out-of-range indices raise in Python; the embedding
totalises them with `List.getD` / no-op `List.set`, which is only ever
exercised outside the states reachable by the program.
-/

namespace PRM

/-- Process Control Block, mirroring class `ProcessControlBlock`:
`priority` (-1 = free slot), `state` (-1 invalid, 0 blocked, 1 ready),
`parent` pid, `children` (a set in Python; modelled as a duplicate-free list),
`resources` (a `defaultdict(int)`; modelled as an insertion-ordered
association list from resource id to held units). -/
structure ProcessControlBlock where
  priority : Int
  state : Int
  parent : Int
  children : List Int
  resources : List (Int × Int)
deriving DecidableEq, Repr

/-- `ProcessControlBlock()` with all-default arguments: a free slot. -/
def freePCB : ProcessControlBlock := ⟨-1, -1, -1, [], []⟩

/-- Resource Control Block, mirroring class `ResourceControlBlock`:
`inventory` (total units, fixed), `state` (units still available),
`waitlist` (deque of (pid, units requested) pairs, head at front). -/
structure ResourceControlBlock where
  inventory : Int
  state : Int
  waitlist : List (Int × Int)
deriving DecidableEq, Repr

/-- `ResourceControlBlock(0)` used as an out-of-range access default. -/
def emptyRCB : ResourceControlBlock := ⟨0, 0, []⟩

/-- The manager state, mirroring class `OSManager`: the 16-slot process table,
the 4-entry resource table, and the 3 ready lists (index = priority).  The
`new_set_of_commands_flag` field of the source is pure output formatting and
carries no managed state, so it is not modelled. -/
structure OSManager where
  PCB : List ProcessControlBlock
  RCB : List ResourceControlBlock
  RL : List (List Int)
deriving DecidableEq, Repr

/-- Python list indexing on a list of length `n`: negative indices wrap. -/
def pyIdx (n : Nat) (i : Int) : Nat :=
  (if i < 0 then (n : Int) + i else i).toNat

def pcbGet (s : OSManager) (i : Int) : ProcessControlBlock :=
  s.PCB.getD (pyIdx 16 i) freePCB

def pcbSet (s : OSManager) (i : Int) (b : ProcessControlBlock) : OSManager :=
  { s with PCB := s.PCB.set (pyIdx 16 i) b }

def pcbModify (s : OSManager) (i : Int)
    (f : ProcessControlBlock → ProcessControlBlock) : OSManager :=
  pcbSet s i (f (pcbGet s i))

def rcbGet (s : OSManager) (i : Int) : ResourceControlBlock :=
  s.RCB.getD (pyIdx 4 i) emptyRCB

def rcbSet (s : OSManager) (i : Int) (r : ResourceControlBlock) : OSManager :=
  { s with RCB := s.RCB.set (pyIdx 4 i) r }

def rcbModify (s : OSManager) (i : Int)
    (f : ResourceControlBlock → ResourceControlBlock) : OSManager :=
  rcbSet s i (f (rcbGet s i))

def rlGet (s : OSManager) (i : Int) : List Int :=
  s.RL.getD (pyIdx 3 i) []

def rlSet (s : OSManager) (i : Int) (l : List Int) : OSManager :=
  { s with RL := s.RL.set (pyIdx 3 i) l }

/-- Set a ready list by its (nonnegative) position. -/
def rlSetN (s : OSManager) (i : Nat) (l : List Int) : OSManager :=
  { s with RL := s.RL.set i l }

/-- `ResourceControlBlock.get_front_waiting`: head of the waitlist, or the
sentinel `(-1, -1)` when the waitlist is empty. -/
def getFrontWaiting (r : ResourceControlBlock) : Int × Int :=
  match r.waitlist with
  | [] => (-1, -1)
  | e :: _ => e

/-- Units of resource `k` recorded for a process block: `resources[k]` if the
key is present, else 0 (the source guards the dict lookup with a membership
test, so no defaultdict insertion happens on reads). -/
def resLookup (l : List (Int × Int)) (k : Int) : Int :=
  ((l.find? (fun e => e.1 == k)).map (·.2)).getD 0

def heldOf (s : OSManager) (p : Int) (k : Int) : Int :=
  resLookup (pcbGet s p).resources k

/-- `defaultdict(int)` update `resources[k] += amt`: update the entry in place
if the key is present, otherwise append a fresh entry (Python dicts keep
insertion order).  `rem_resources` is `resAdd l k (-amt)`. -/
def resAdd (l : List (Int × Int)) (k amt : Int) : List (Int × Int) :=
  match l with
  | [] => [(k, amt)]
  | e :: rest => if e.1 = k then (e.1, e.2 + amt) :: rest else e :: resAdd rest k amt

/-- The scan `for i in range(len(self.RL)-1, -1, -1): if len(self.RL[i]) != 0`
shared by `scheduler`, `timeout`, `create`, `request`, `release`, `destroy`:
returns the index and contents of the highest-index non-empty ready list. -/
def topNonemptyAux : List (List Int) → Option (Nat × List Int)
  | [] => none
  | l :: rest =>
    match topNonemptyAux rest with
    | some (j, q) => some (j + 1, q)
    | none => if l.isEmpty then none else some (0, l)

/-- The currently-running process: head of the highest-priority non-empty
ready list, or the `-1` dummy when every ready list is empty. -/
def currentlyRunning (s : OSManager) : Int :=
  match topNonemptyAux s.RL with
  | some (_, p :: _) => p
  | _ => -1

/-- The shared loop of `request`/`release`: the currently running process
together with the units of resource `k` it already holds (`0` when no ready
list is non-empty, since the loop body then never runs). -/
def runningAndHeld (s : OSManager) (k : Int) : Int × Int :=
  match topNonemptyAux s.RL with
  | some (_, p :: _) => (p, heldOf s p k)
  | _ => (-1, 0)

/-- `OSManager.init`: resets every slot of the fixed-size tables to the
starting configuration.  The source loops over the (constant) lengths of the
three lists and overwrites every entry, so the result does not depend on the
prior state. -/
def initState : OSManager where
  PCB := ⟨0, 1, -1, [], []⟩ :: List.replicate 15 freePCB
  RCB := [⟨1, 1, []⟩, ⟨1, 1, []⟩, ⟨2, 2, []⟩, ⟨3, 3, []⟩]
  RL := [[0], [], []]

def init (_ : OSManager) : OSManager := initState

/-- `OSManager.timeout`: rotate the highest-priority non-empty ready list
(append its head to its tail, then pop the head). -/
def timeout (s : OSManager) : OSManager :=
  match topNonemptyAux s.RL with
  | some (i, h :: t) => rlSetN s i (t ++ [h])
  | _ => s

/-- The `for i in range(len(self.PCB))` search of `create`: index of the
first block whose priority is negative (i.e. the lowest free slot). -/
def findFree : List ProcessControlBlock → Option Nat
  | [] => none
  | b :: rest => if b.priority < 0 then some 0 else (findFree rest).map (· + 1)

/-- `OSManager.create`: validate the priority, find the lowest free PCB slot,
install the new process there, register it as a child of the currently
running process, and append it to the ready list of its priority. -/
def create (s : OSManager) (priorityGiven : Int) : Option OSManager :=
  if priorityGiven < 0 ∨ 3 ≤ priorityGiven then none
  else
    let cr := currentlyRunning s
    match findFree s.PCB with
    | none => none
    | some i =>
      let s1 := pcbSet s (i : Int) ⟨priorityGiven, 1, cr, [], []⟩
      let s2 := pcbModify s1 cr (fun b =>
        { b with children := if (i : Int) ∈ b.children then b.children
                             else b.children ++ [(i : Int)] })
      some (rlSet s2 priorityGiven (rlGet s2 priorityGiven ++ [(i : Int)]))

/-- `OSManager.request`: the five validation checks in source order, then
either an immediate grant (units available) or a block (set state to blocked,
remove from the ready list, append to the resource's waitlist). -/
def request (s : OSManager) (resourceIndex numUnits : Int) : Option OSManager :=
  if ¬ (resourceIndex = 0 ∨ resourceIndex = 1 ∨ resourceIndex = 2 ∨ resourceIndex = 3)
  then none
  else if numUnits < 0 then none
  else
    let rh := runningAndHeld s resourceIndex
    if (rcbGet s resourceIndex).inventory < numUnits + rh.2 then none
    else if rh.1 = 0 then none
    else if numUnits = 0 then none
    else if numUnits ≤ (rcbGet s resourceIndex).state then
      let s1 := rcbModify s resourceIndex (fun r => { r with state := r.state - numUnits })
      some (pcbModify s1 rh.1 (fun b =>
        { b with resources := resAdd b.resources resourceIndex numUnits }))
    else
      let s1 := pcbModify s rh.1 (fun b => { b with state := 0 })
      let s2 := rlSet s1 (pcbGet s1 rh.1).priority
        ((rlGet s1 (pcbGet s1 rh.1).priority).erase rh.1)
      some (rcbModify s2 resourceIndex (fun r =>
        { r with waitlist := r.waitlist ++ [(rh.1, numUnits)] }))

/-- One bounded unfolding of the `while` loop of
`OSManager._grant_possible_waiting_requests`.  Each executed iteration pops
one waitlist entry, so fuel `(waitlist).length` runs the loop to completion. -/
def grantAux (resourceIndex : Int) : Nat → OSManager → OSManager
  | 0, s => s
  | fuel + 1, s =>
    let front := getFrontWaiting (rcbGet s resourceIndex)
    if front = (-1, -1) then s
    else if (rcbGet s resourceIndex).state ≤ 0 then s
    else if front.2 ≤ (rcbGet s resourceIndex).state then
      let s1 := rcbModify s resourceIndex (fun r => { r with state := r.state - front.2 })
      let s2 := pcbModify s1 front.1 (fun b =>
        { b with resources := resAdd b.resources resourceIndex front.2 })
      let s3 := pcbModify s2 front.1 (fun b => { b with state := 1 })
      let s4 := rcbModify s3 resourceIndex (fun r => { r with waitlist := r.waitlist.tail })
      grantAux resourceIndex fuel
        (rlSet s4 (pcbGet s4 front.1).priority
          (rlGet s4 (pcbGet s4 front.1).priority ++ [front.1]))
    else s

/-- `OSManager._grant_possible_waiting_requests`: repeatedly grant the head of
the waitlist while it exists and fits in the available units; stop at the
first head that cannot be satisfied (strict FIFO, no skip-ahead). -/
def grantPossibleWaitingRequests (s : OSManager) (resourceIndex : Int) : OSManager :=
  grantAux resourceIndex (rcbGet s resourceIndex).waitlist.length s

/-- `OSManager.release`: the four validation checks in source order, then
return the units and run the wait-grant scan. -/
def release (s : OSManager) (resourceIndex numUnits : Int) : Option OSManager :=
  if ¬ (resourceIndex = 0 ∨ resourceIndex = 1 ∨ resourceIndex = 2 ∨ resourceIndex = 3)
  then none
  else if numUnits < 0 then none
  else
    let rh := runningAndHeld s resourceIndex
    if rh.2 < numUnits then none
    else if numUnits = 0 then none
    else
      let s1 := pcbModify s rh.1 (fun b =>
        { b with resources := resAdd b.resources resourceIndex (-numUnits) })
      let s2 := rcbModify s1 resourceIndex (fun r => { r with state := r.state + numUnits })
      some (grantPossibleWaitingRequests s2 resourceIndex)

/-- `ResourceControlBlock.try_and_remove_from_waiting`: drop the first
waitlist entry whose pid matches, or report no hit. -/
def removeFirstPid : List (Int × Int) → Int → Option (List (Int × Int))
  | [], _ => none
  | e :: rest, p =>
    if e.1 = p then some rest else (removeFirstPid rest p).map (e :: ·)

/-- The `for i in range(4)` loop of `destroy` step 3: try each resource's
waitlist in order and stop at the first hit. -/
def removeFromWaitlistsGo (p : Int) : List Int → OSManager → OSManager
  | [], s => s
  | i :: rest, s =>
    match removeFirstPid (rcbGet s i).waitlist p with
    | some wl => rcbModify s i (fun r => { r with waitlist := wl })
    | none => removeFromWaitlistsGo p rest s

def removeFromWaitlists (s : OSManager) (p : Int) : OSManager :=
  removeFromWaitlistsGo p [0, 1, 2, 3] s

/-- The non-recursive tail of one `destroy` call, after the children have
been destroyed: unlink from the parent's children set, leave the ready list
(if ready) or the waitlist holding the pid (if blocked), return all held
units running the wait-grant scan after each, and free the slot. -/
def finalizeDestroy (s : OSManager) (childId : Int) : OSManager :=
  let s2 := pcbModify s (pcbGet s childId).parent (fun b =>
    { b with children := b.children.erase childId })
  let s3 :=
    if (pcbGet s2 childId).state = 1 then
      rlSet s2 (pcbGet s2 childId).priority ((rlGet s2 (pcbGet s2 childId).priority).erase childId)
    else
      removeFromWaitlists s2 childId
  let s4 := (pcbGet s3 childId).resources.foldl
    (fun acc e =>
      grantPossibleWaitingRequests
        (rcbModify acc e.1 (fun r => { r with state := r.state + e.2 })) e.1) s3
  pcbSet s4 childId freePCB

/-- The recursive body of `OSManager.destroy` (the `initial_call=False`
path): destroy the snapshot of the children first, then finalize.  The
Python recursion is re-expressed with fuel; in every state the program
reaches, the process tree has fewer than 16 levels, so the fuel of the
top-level call (16) is never exhausted. -/
def destroyRec : Nat → OSManager → Int → OSManager
  | 0, s, _ => s
  | fuel + 1, s, childId =>
    finalizeDestroy ((pcbGet s childId).children.foldl (fun acc k => destroyRec fuel acc k) s)
      childId

/-- `OSManager.destroy` with `initial_call=True`: the target must be the
currently running process or one of its direct children, and must not be
process 0; then destroy the subtree. -/
def destroy (s : OSManager) (childId : Int) : Option OSManager :=
  let cr := currentlyRunning s
  if childId ≠ cr ∧ childId ∉ (pcbGet s cr).children then none
  else if childId = 0 then none
  else some (destroyRec 16 s childId)

/-- The sixteen process ids. -/
def r16 : List Int := [0, 1, 2, 3, 4, 5, 6, 7, 8, 9, 10, 11, 12, 13, 14, 15]

/-- The four resource ids. -/
def r4 : List Int := [0, 1, 2, 3]

/-- The three priority levels. -/
def r3 : List Int := [0, 1, 2]

/-- A process slot is occupied (represents a live process) iff its priority
is not the free sentinel. -/
def occupied (s : OSManager) (i : Int) : Prop := 0 ≤ (pcbGet s i).priority

instance occupiedDec (s : OSManager) (i : Int) : Decidable (occupied s i) :=
  inferInstanceAs (Decidable (0 ≤ (pcbGet s i).priority))

/-- Pids waiting on resource `k`. -/
def wlPids (s : OSManager) (k : Int) : List Int :=
  (rcbGet s k).waitlist.map Prod.fst

/-- Pids waiting on any resource. -/
def allWaitPids (s : OSManager) : List Int :=
  wlPids s 0 ++ wlPids s 1 ++ wlPids s 2 ++ wlPids s 3

/-- All ready-list entries. -/
def rlAll (s : OSManager) : List Int := rlGet s 0 ++ rlGet s 1 ++ rlGet s 2

/-- Total units of resource `k` held across all process slots. -/
def heldSum (s : OSManager) (k : Int) : Int :=
  (r16.map (fun i => heldOf s i k)).sum

/-- Process `i` is ready only if it sits in the ready list of its priority. -/
def rdy (s : OSManager) (i : Int) : Prop :=
  occupied s i → (pcbGet s i).state = 1 → i ∈ rlGet s (pcbGet s i).priority

instance rdyDec (s : OSManager) (i : Int) : Decidable (rdy s i) :=
  inferInstanceAs (Decidable (_ → _ → _))

/-- Structural well-formedness of a manager state.  Everything here is
preserved by every operation (including by a fuel-truncated `destroyRec`),
and holds in every reachable state. -/
structure Inv0 (s : OSManager) : Prop where
  lenPCB : s.PCB.length = 16
  lenRCB : s.RCB.length = 4
  lenRL : s.RL.length = 3
  root_prio : (pcbGet s 0).priority = 0
  root_state : (pcbGet s 0).state = 1
  root_res : (pcbGet s 0).resources = []
  root_rl : (0 : Int) ∈ rlGet s 0
  free_default : ∀ i ∈ r16, (pcbGet s i).priority < 0 → pcbGet s i = freePCB
  occ_prio : ∀ i ∈ r16, occupied s i → (pcbGet s i).priority ≤ 2
  occ_state : ∀ i ∈ r16, occupied s i →
    (pcbGet s i).state = 0 ∨ (pcbGet s i).state = 1
  res_entry : ∀ i ∈ r16, ∀ e ∈ (pcbGet s i).resources, e.1 ∈ r4 ∧ 0 ≤ e.2
  res_nodup : ∀ i ∈ r16, ((pcbGet s i).resources.map Prod.fst).Nodup
  child_mem : ∀ i ∈ r16, ∀ j ∈ (pcbGet s i).children,
    (1 ≤ j ∧ j ≤ 15) ∧ occupied s j ∧ (pcbGet s j).parent = i
  child_nodup : ∀ i ∈ r16, (pcbGet s i).children.Nodup
  rl_mem : ∀ p ∈ r3, ∀ j ∈ rlGet s p,
    (0 ≤ j ∧ j ≤ 15) ∧ occupied s j ∧ (pcbGet s j).state = 1 ∧ (pcbGet s j).priority = p
  rl_nodup : ∀ p ∈ r3, (rlGet s p).Nodup
  wl_entry : ∀ k ∈ r4, ∀ e ∈ (rcbGet s k).waitlist,
    (1 ≤ e.1 ∧ e.1 ≤ 15) ∧ occupied s e.1 ∧ (pcbGet s e.1).state = 0 ∧ 1 ≤ e.2
  wl_nodup : (allWaitPids s).Nodup
  avail_nonneg : ∀ k ∈ r4, 0 ≤ (rcbGet s k).state
  inv_fixed : (rcbGet s 0).inventory = 1 ∧ (rcbGet s 1).inventory = 1 ∧
    (rcbGet s 2).inventory = 2 ∧ (rcbGet s 3).inventory = 3

/-- The full state invariant: structure, the ready-process/ready-list
correspondence, and per-resource unit conservation. -/
structure Inv (s : OSManager) extends Inv0 s : Prop where
  ready_in_rl : ∀ i ∈ r16, rdy s i
  conserve : ∀ k ∈ r4, (rcbGet s k).state + heldSum s k = (rcbGet s k).inventory

/-- One step up the process tree; the root is absorbing. -/
def parentStep (s : OSManager) (i : Int) : Int :=
  if i = 0 then 0 else (pcbGet s i).parent

/-- Tree-shape invariant on the parent/children links, used to show that the
destroy recursion always has enough fuel: parents of live non-root processes
are live and own them as children, and every live process reaches the root
in at most 15 parent steps. -/
structure TreeInv (s : OSManager) : Prop where
  par_valid : ∀ i ∈ r16, i ≠ 0 → occupied s i →
    (0 ≤ (pcbGet s i).parent ∧ (pcbGet s i).parent ≤ 15) ∧
    occupied s (pcbGet s i).parent ∧ i ∈ (pcbGet s (pcbGet s i).parent).children
  rooted : ∀ i ∈ r16, occupied s i → (parentStep s)^[15] i = 0

/-- Descendants of `c` (including `c` itself) along `children` links. -/
inductive Desc (s : OSManager) (c : Int) : Int → Prop
  | refl : Desc s c c
  | step {j k} : Desc s c j → k ∈ (pcbGet s j).children → Desc s c k

/-- States reachable from initialization by any sequence of successful
operations (a failed operation returns `-1` and leaves the state unchanged,
so it contributes no new states). -/
inductive Reachable : OSManager → Prop
  | init : Reachable initState
  | step_timeout {s} : Reachable s → Reachable (timeout s)
  | step_create {s s' p} : Reachable s → create s p = some s' → Reachable s'
  | step_request {s s' k u} : Reachable s → request s k u = some s' → Reachable s'
  | step_release {s s' k u} : Reachable s → release s k u = some s' → Reachable s'
  | step_destroy {s s' c} : Reachable s → destroy s c = some s' → Reachable s'

/-! A short concrete run used to exhibit a reachable state whose resource-2
wait queue is non-empty: process 1 (priority 1) takes both units of
resource 2, process 2 (priority 1) is created, scheduled by a timeout, and
blocks requesting one more unit of resource 2. -/

def s1w : OSManager := (create initState 1).getD initState

def s2w : OSManager := (request s1w 2 2).getD initState

def s3w : OSManager := (create s2w 1).getD initState

def s4w : OSManager := timeout s3w

/-- A reachable state in which process 2 sits blocked in resource 2's wait
queue. -/
def blockedState : OSManager := (request s4w 2 1).getD initState

end PRM

namespace PRM

/-! ### Basic list and indexing lemmas -/

theorem getD_set_self {α} {l : List α} {n : Nat} (a d : α) (h : n < l.length) :
    (l.set n a).getD n d = a := by
  simp [List.getD_eq_getElem?_getD, List.getElem?_set_self h]

theorem getD_set_ne {α} {l : List α} {m n : Nat} (a d : α) (h : m ≠ n) :
    (l.set m a).getD n d = l.getD n d := by
  simp [List.getD_eq_getElem?_getD, List.getElem?_set_ne h]

theorem set_getD_self {α} {l : List α} {n : Nat} (d : α) :
    l.set n (l.getD n d) = l := by
  rcases Nat.lt_or_ge n l.length with h | h
  · apply List.ext_getElem?
    intro m
    rw [List.getElem?_set]
    split
    · next heq =>
      subst heq
      simp [List.getD_eq_getElem?_getD, h, List.getElem?_eq_getElem h]
    · rfl
  · exact List.set_eq_of_length_le h

theorem pyIdx_of_nonneg {n : Nat} {i : Int} (h : 0 ≤ i) : pyIdx n i = i.toNat := by
  simp [pyIdx, not_lt.2 h]

theorem pyIdx_lt {n : Nat} {i : Int} (h0 : 0 ≤ i) (h : i < (n : Int)) : pyIdx n i < n := by
  rw [pyIdx_of_nonneg h0]; omega

theorem pyIdx_ne {n : Nat} {i j : Int} (h0 : 0 ≤ i) (h0' : 0 ≤ j) (hne : i ≠ j) :
    pyIdx n i ≠ pyIdx n j := by
  rw [pyIdx_of_nonneg h0, pyIdx_of_nonneg h0']; omega

theorem mem_r16_iff {i : Int} : i ∈ r16 ↔ 0 ≤ i ∧ i ≤ 15 := by
  simp [r16]; omega

theorem mem_r4_iff {k : Int} : k ∈ r4 ↔ 0 ≤ k ∧ k ≤ 3 := by
  simp [r4]; omega

theorem mem_r3_iff {p : Int} : p ∈ r3 ↔ 0 ≤ p ∧ p ≤ 2 := by
  simp [r3]; omega

theorem r16_nodup : r16.Nodup := by decide

/-! ### Accessor frame lemmas: each table is touched only by its own setter -/

@[simp] theorem pcbSet_RCB (s : OSManager) (i : Int) (b : ProcessControlBlock) :
    (pcbSet s i b).RCB = s.RCB := rfl

@[simp] theorem pcbSet_RL (s : OSManager) (i : Int) (b : ProcessControlBlock) :
    (pcbSet s i b).RL = s.RL := rfl

@[simp] theorem rcbSet_PCB (s : OSManager) (i : Int) (r : ResourceControlBlock) :
    (rcbSet s i r).PCB = s.PCB := rfl

@[simp] theorem rcbSet_RL (s : OSManager) (i : Int) (r : ResourceControlBlock) :
    (rcbSet s i r).RL = s.RL := rfl

@[simp] theorem rlSet_PCB (s : OSManager) (i : Int) (l : List Int) :
    (rlSet s i l).PCB = s.PCB := rfl

@[simp] theorem rlSet_RCB (s : OSManager) (i : Int) (l : List Int) :
    (rlSet s i l).RCB = s.RCB := rfl

@[simp] theorem rlSetN_PCB (s : OSManager) (i : Nat) (l : List Int) :
    (rlSetN s i l).PCB = s.PCB := rfl

@[simp] theorem rlSetN_RCB (s : OSManager) (i : Nat) (l : List Int) :
    (rlSetN s i l).RCB = s.RCB := rfl

@[simp] theorem rcbGet_pcbSet (s : OSManager) (i : Int) (b : ProcessControlBlock) (k : Int) :
    rcbGet (pcbSet s i b) k = rcbGet s k := rfl

@[simp] theorem rcbGet_rlSet (s : OSManager) (i : Int) (l : List Int) (k : Int) :
    rcbGet (rlSet s i l) k = rcbGet s k := rfl

@[simp] theorem rcbGet_rlSetN (s : OSManager) (i : Nat) (l : List Int) (k : Int) :
    rcbGet (rlSetN s i l) k = rcbGet s k := rfl

@[simp] theorem pcbGet_rcbSet (s : OSManager) (i : Int) (r : ResourceControlBlock) (j : Int) :
    pcbGet (rcbSet s i r) j = pcbGet s j := rfl

@[simp] theorem pcbGet_rlSet (s : OSManager) (i : Int) (l : List Int) (j : Int) :
    pcbGet (rlSet s i l) j = pcbGet s j := rfl

@[simp] theorem pcbGet_rlSetN (s : OSManager) (i : Nat) (l : List Int) (j : Int) :
    pcbGet (rlSetN s i l) j = pcbGet s j := rfl

@[simp] theorem rlGet_pcbSet (s : OSManager) (i : Int) (b : ProcessControlBlock) (p : Int) :
    rlGet (pcbSet s i b) p = rlGet s p := rfl

@[simp] theorem rlGet_rcbSet (s : OSManager) (i : Int) (r : ResourceControlBlock) (p : Int) :
    rlGet (rcbSet s i r) p = rlGet s p := rfl

@[simp] theorem heldOf_rcbSet (s : OSManager) (i : Int) (r : ResourceControlBlock) (p k : Int) :
    heldOf (rcbSet s i r) p k = heldOf s p k := rfl

@[simp] theorem heldOf_rlSet (s : OSManager) (i : Int) (l : List Int) (p k : Int) :
    heldOf (rlSet s i l) p k = heldOf s p k := rfl

@[simp] theorem currentlyRunning_pcbSet (s : OSManager) (i : Int) (b : ProcessControlBlock) :
    currentlyRunning (pcbSet s i b) = currentlyRunning s := rfl

@[simp] theorem currentlyRunning_rcbSet (s : OSManager) (i : Int) (r : ResourceControlBlock) :
    currentlyRunning (rcbSet s i r) = currentlyRunning s := rfl

@[simp] theorem lenPCB_pcbSet (s : OSManager) (i : Int) (b : ProcessControlBlock) :
    (pcbSet s i b).PCB.length = s.PCB.length := List.length_set ..

@[simp] theorem lenRCB_rcbSet (s : OSManager) (i : Int) (r : ResourceControlBlock) :
    (rcbSet s i r).RCB.length = s.RCB.length := List.length_set ..

@[simp] theorem lenRL_rlSet (s : OSManager) (i : Int) (l : List Int) :
    (rlSet s i l).RL.length = s.RL.length := List.length_set ..

@[simp] theorem lenRL_rlSetN (s : OSManager) (i : Nat) (l : List Int) :
    (rlSetN s i l).RL.length = s.RL.length := List.length_set ..

theorem pcbGet_pcbSet_self {s : OSManager} (h16 : s.PCB.length = 16) {i : Int}
    (h0 : 0 ≤ i) (hi : i < 16) (b : ProcessControlBlock) :
    pcbGet (pcbSet s i b) i = b := by
  unfold pcbGet pcbSet
  exact getD_set_self _ _ (by rw [h16]; exact pyIdx_lt h0 (by exact_mod_cast hi))

theorem pcbGet_pcbSet_ne {s : OSManager} {i j : Int}
    (h : pyIdx 16 i ≠ pyIdx 16 j) (b : ProcessControlBlock) :
    pcbGet (pcbSet s i b) j = pcbGet s j := by
  unfold pcbGet pcbSet
  exact getD_set_ne _ _ h

theorem rcbGet_rcbSet_self {s : OSManager} (h4 : s.RCB.length = 4) {k : Int}
    (h0 : 0 ≤ k) (hk : k < 4) (r : ResourceControlBlock) :
    rcbGet (rcbSet s k r) k = r := by
  unfold rcbGet rcbSet
  exact getD_set_self _ _ (by rw [h4]; exact pyIdx_lt h0 (by exact_mod_cast hk))

theorem rcbGet_rcbSet_ne {s : OSManager} {k k' : Int}
    (h : pyIdx 4 k ≠ pyIdx 4 k') (r : ResourceControlBlock) :
    rcbGet (rcbSet s k r) k' = rcbGet s k' := by
  unfold rcbGet rcbSet
  exact getD_set_ne _ _ h

theorem rlGet_rlSet_self {s : OSManager} (h3 : s.RL.length = 3) {p : Int}
    (h0 : 0 ≤ p) (hp : p < 3) (l : List Int) :
    rlGet (rlSet s p l) p = l := by
  unfold rlGet rlSet
  exact getD_set_self _ _ (by rw [h3]; exact pyIdx_lt h0 (by exact_mod_cast hp))

theorem rlGet_rlSet_ne {s : OSManager} {p q : Int}
    (h : pyIdx 3 p ≠ pyIdx 3 q) (l : List Int) :
    rlGet (rlSet s p l) q = rlGet s q := by
  unfold rlGet rlSet
  exact getD_set_ne _ _ h


/-! ### Association-list (defaultdict) lemmas -/

theorem resLookup_cons_self {e : Int × Int} {rest : List (Int × Int)} {k : Int}
    (h : e.1 = k) : resLookup (e :: rest) k = e.2 := by
  simp [resLookup, List.find?_cons_of_pos, h]

theorem resLookup_cons_ne {e : Int × Int} {rest : List (Int × Int)} {k : Int}
    (h : ¬ e.1 = k) : resLookup (e :: rest) k = resLookup rest k := by
  simp only [resLookup, List.find?]
  have : (e.1 == k) = false := by simpa using h
  rw [this]

theorem resLookup_resAdd_self (l : List (Int × Int)) (k u : Int) :
    resLookup (resAdd l k u) k = resLookup l k + u := by
  induction l with
  | nil => simp [resAdd, resLookup]
  | cons e rest ih =>
    by_cases h : e.1 = k
    · rw [resAdd, if_pos h, resLookup_cons_self (show (e.1, e.2 + u).1 = k from h),
        resLookup_cons_self h]
    · rw [resAdd, if_neg h, resLookup_cons_ne h, resLookup_cons_ne h, ih]

theorem resLookup_resAdd_ne (l : List (Int × Int)) {k k' : Int} (u : Int)
    (h : k' ≠ k) : resLookup (resAdd l k u) k' = resLookup l k' := by
  induction l with
  | nil =>
    rw [resAdd, resLookup_cons_ne (by simpa using fun hh : k = k' => h hh.symm)]
  | cons e rest ih =>
    by_cases he : e.1 = k
    · rw [resAdd, if_pos he, resLookup_cons_ne (by rw [he]; exact fun hh => h hh.symm),
        resLookup_cons_ne (by rw [he]; exact fun hh => h hh.symm)]
    · by_cases he' : e.1 = k'
      · rw [resAdd, if_neg he, resLookup_cons_self he', resLookup_cons_self he']
      · rw [resAdd, if_neg he, resLookup_cons_ne he', resLookup_cons_ne he', ih]

theorem resAdd_keys_mem {l : List (Int × Int)} {k : Int} (u : Int)
    (h : k ∈ l.map Prod.fst) : (resAdd l k u).map Prod.fst = l.map Prod.fst := by
  induction l with
  | nil => simp at h
  | cons e rest ih =>
    by_cases he : e.1 = k
    · rw [resAdd, if_pos he]; rfl
    · rw [resAdd, if_neg he]
      simp only [List.map_cons]
      rw [ih]
      simp only [List.map_cons, List.mem_cons] at h
      exact h.resolve_left (fun hh => he hh.symm)

theorem resAdd_keys_not_mem {l : List (Int × Int)} {k : Int} (u : Int)
    (h : k ∉ l.map Prod.fst) : (resAdd l k u).map Prod.fst = l.map Prod.fst ++ [k] := by
  induction l with
  | nil => rfl
  | cons e rest ih =>
    simp only [List.map_cons, List.mem_cons] at h
    push_neg at h
    rw [resAdd, if_neg (fun hh => h.1 hh.symm)]
    simp only [List.map_cons, List.cons_append, List.cons.injEq, true_and]
    exact ih h.2

theorem resAdd_keys_nodup {l : List (Int × Int)} {k : Int} (u : Int)
    (h : (l.map Prod.fst).Nodup) : ((resAdd l k u).map Prod.fst).Nodup := by
  by_cases hm : k ∈ l.map Prod.fst
  · rw [resAdd_keys_mem u hm]; exact h
  · rw [resAdd_keys_not_mem u hm]
    refine List.Nodup.append h (List.nodup_singleton k) ?_
    intro a ha hb
    simp only [List.mem_singleton] at hb
    exact hm (hb ▸ ha)

theorem resAdd_entries {l : List (Int × Int)} {k u : Int} {P : Int × Int → Prop}
    (hl : ∀ e ∈ l, P e) (hk : P (k, resLookup l k + u)) :
    ∀ e ∈ resAdd l k u, P e := by
  induction l with
  | nil =>
    intro e he
    rw [resAdd] at he
    simp only [List.mem_singleton] at he
    subst he
    simpa [resLookup] using hk
  | cons a rest ih =>
    intro e he
    by_cases ha : a.1 = k
    · rw [resAdd, if_pos ha] at he
      rcases List.mem_cons.1 he with rfl | hrest
      · rw [resLookup_cons_self ha] at hk
        exact ha ▸ hk
      · exact hl _ (List.mem_cons_of_mem _ hrest)
    · rw [resAdd, if_neg ha] at he
      rcases List.mem_cons.1 he with rfl | hrest
      · exact hl _ (List.mem_cons_self _ _)
      · refine ih (fun x hx => hl x (List.mem_cons_of_mem _ hx)) ?_ _ hrest
        rwa [resLookup_cons_ne ha] at hk

/-- Sum of the values of all entries with key `k`, for a key-Nodup list,
is the lookup value. -/
theorem sum_filter_eq_resLookup {l : List (Int × Int)} {k : Int}
    (h : (l.map Prod.fst).Nodup) :
    ((l.filter (fun e => e.1 == k)).map Prod.snd).sum = resLookup l k := by
  induction l with
  | nil => simp [resLookup]
  | cons e rest ih =>
    simp only [List.map_cons, List.nodup_cons] at h
    by_cases he : e.1 = k
    · rw [resLookup_cons_self he]
      have hrest : rest.filter (fun e => e.1 == k) = [] := by
        rw [List.filter_eq_nil_iff]
        intro a ha hk2
        simp only [beq_iff_eq] at hk2
        refine h.1 ?_
        rw [he, ← hk2]
        exact List.mem_map_of_mem Prod.fst ha
      rw [List.filter_cons_of_pos (by simpa using he), hrest]
      simp
    · rw [resLookup_cons_ne he, List.filter_cons_of_neg (by simpa using he)]
      exact ih h.2

/-! ### Sum-over-slots lemmas -/

theorem sum_map_update {l : List Int} (hl : l.Nodup) {f g : Int → Int} {p u : Int}
    (hp : p ∈ l) (hne : ∀ i ∈ l, i ≠ p → g i = f i) (hv : g p = f p + u) :
    (l.map g).sum = (l.map f).sum + u := by
  induction l with
  | nil => simp at hp
  | cons a rest ih =>
    simp only [List.nodup_cons] at hl
    rcases List.mem_cons.1 hp with rfl | hrest
    · have : ∀ i ∈ rest, g i = f i := fun i hi =>
        hne i (List.mem_cons_of_mem _ hi) (fun hip => hl.1 (hip ▸ hi))
      simp only [List.map_cons, List.sum_cons, hv, List.map_congr_left this]
      ring
    · have ha : g a = f a := hne a (List.mem_cons_self _ _)
        (fun hap => hl.1 (hap ▸ hrest))
      simp only [List.map_cons, List.sum_cons, ha,
        ih hl.2 hrest (fun i hi => hne i (List.mem_cons_of_mem _ hi))]
      ring

theorem sum_map_eq {l : List Int} {f g : Int → Int} (h : ∀ i ∈ l, g i = f i) :
    (l.map g).sum = (l.map f).sum := by
  rw [List.map_congr_left h]


/-! ### heldOf / heldSum lemmas -/

theorem heldOf_pcbSet_self {s : OSManager} (h16 : s.PCB.length = 16) {i : Int}
    (h0 : 0 ≤ i) (hi : i < 16) (b : ProcessControlBlock) (k : Int) :
    heldOf (pcbSet s i b) i k = resLookup b.resources k := by
  unfold heldOf
  rw [pcbGet_pcbSet_self h16 h0 hi]

theorem heldOf_pcbSet_ne {s : OSManager} {i j : Int}
    (h : pyIdx 16 i ≠ pyIdx 16 j) (b : ProcessControlBlock) (k : Int) :
    heldOf (pcbSet s i b) j k = heldOf s j k := by
  unfold heldOf
  rw [pcbGet_pcbSet_ne h]

theorem heldSum_pcbSet {s : OSManager} (h16 : s.PCB.length = 16) {i : Int}
    (h0 : 0 ≤ i) (hi : i ≤ 15) (b : ProcessControlBlock) (k : Int) :
    heldSum (pcbSet s i b) k = heldSum s k + (resLookup b.resources k - heldOf s i k) := by
  unfold heldSum
  refine sum_map_update r16_nodup (mem_r16_iff.2 ⟨h0, hi⟩) ?_ ?_
  · intro j hj hji
    exact heldOf_pcbSet_ne (pyIdx_ne h0 (mem_r16_iff.1 hj).1 (fun hh => hji hh.symm)) b k
  · rw [heldOf_pcbSet_self h16 h0 (by omega) b k]
    ring

theorem heldSum_pcbSet_same_res {s : OSManager} (h16 : s.PCB.length = 16) {i : Int}
    (h0 : 0 ≤ i) (hi : i ≤ 15) {b : ProcessControlBlock}
    (hres : b.resources = (pcbGet s i).resources) (k : Int) :
    heldSum (pcbSet s i b) k = heldSum s k := by
  rw [heldSum_pcbSet h16 h0 hi b k, hres]
  unfold heldOf
  ring

@[simp] theorem heldSum_rcbSet (s : OSManager) (i : Int) (r : ResourceControlBlock) (k : Int) :
    heldSum (rcbSet s i r) k = heldSum s k := rfl

@[simp] theorem heldSum_rlSet (s : OSManager) (i : Int) (l : List Int) (k : Int) :
    heldSum (rlSet s i l) k = heldSum s k := rfl

@[simp] theorem heldSum_rlSetN (s : OSManager) (i : Nat) (l : List Int) (k : Int) :
    heldSum (rlSetN s i l) k = heldSum s k := rfl

theorem heldOf_nonneg {s : OSManager} (hI : Inv0 s) {i : Int} (hi : i ∈ r16) (k : Int) :
    0 ≤ heldOf s i k := by
  unfold heldOf resLookup
  cases hf : (pcbGet s i).resources.find? (fun e => e.1 == k) with
  | none => simp
  | some e =>
    exact (hI.res_entry i hi e (List.mem_of_find?_eq_some hf)).2

theorem heldSum_nonneg {s : OSManager} (hI : Inv0 s) (k : Int) : 0 ≤ heldSum s k := by
  unfold heldSum
  refine List.sum_nonneg ?_
  intro x hx
  rcases List.mem_map.1 hx with ⟨i, hi, rfl⟩
  exact heldOf_nonneg hI hi k

/-! ### Spec of the ready-list scan -/

theorem topNonemptyAux_none {L : List (List Int)} (h : topNonemptyAux L = none) :
    ∀ l ∈ L, l = [] := by
  induction L with
  | nil => intro l hl; simp at hl
  | cons a rest ih =>
    intro l hl
    rw [topNonemptyAux] at h
    rcases htr : topNonemptyAux rest with _ | ⟨j, q⟩
    · rw [htr] at h
      simp only at h
      split at h
      · next ha =>
        rcases List.mem_cons.1 hl with rfl | hm
        · exact List.isEmpty_iff.1 ha
        · exact ih htr l hm
      · simp at h
    · rw [htr] at h
      simp at h

theorem topNonemptyAux_some {L : List (List Int)} {j : Nat} {q : List Int}
    (h : topNonemptyAux L = some (j, q)) :
    j < L.length ∧ L.getD j [] = q ∧ q ≠ [] ∧
      ∀ m, j < m → m < L.length → L.getD m [] = [] := by
  induction L generalizing j q with
  | nil => simp [topNonemptyAux] at h
  | cons a rest ih =>
    rw [topNonemptyAux] at h
    rcases htr : topNonemptyAux rest with _ | ⟨j', q'⟩
    · rw [htr] at h
      simp only at h
      split at h
      · exact absurd h (by simp)
      · next ha =>
        simp only [Option.some.injEq, Prod.mk.injEq] at h
        obtain ⟨rfl, rfl⟩ := h
        refine ⟨by simp, rfl, by simpa [List.isEmpty_iff] using ha, ?_⟩
        intro m hm hml
        obtain ⟨m', rfl⟩ : ∃ m', m = m' + 1 := ⟨m - 1, by omega⟩
        rw [List.getD_cons_succ, List.getD_eq_getElem?_getD]
        cases hx : rest[m']? with
        | none => rfl
        | some w =>
          simp only [Option.getD_some]
          exact topNonemptyAux_none htr _ (List.getElem?_mem hx)
    · rw [htr] at h
      simp only [Option.some.injEq, Prod.mk.injEq] at h
      obtain ⟨rfl, rfl⟩ := h
      obtain ⟨h1, h2, h3, h4⟩ := ih htr
      refine ⟨by simpa using h1, by simpa using h2, h3, ?_⟩
      intro m hm hml
      obtain ⟨m', rfl⟩ : ∃ m', m = m' + 1 := ⟨m - 1, by omega⟩
      rw [List.getD_cons_succ]
      exact h4 m' (by omega) (by simpa using hml)


/-! ### Properties of `currentlyRunning` under the invariant -/

theorem rl0_ne_nil {s : OSManager} (hI : Inv0 s) : rlGet s 0 ≠ [] := by
  intro h
  have := hI.root_rl
  rw [h] at this
  simp at this

theorem tna_of_inv {s : OSManager} (hI : Inv0 s) :
    ∃ j t, topNonemptyAux s.RL = some (j, currentlyRunning s :: t) := by
  rcases htr : topNonemptyAux s.RL with _ | ⟨j, q⟩
  · exfalso
    refine rl0_ne_nil hI ?_
    unfold rlGet
    rw [List.getD_eq_getElem?_getD]
    cases hx : s.RL[pyIdx 3 0]? with
    | none => rfl
    | some w => exact topNonemptyAux_none htr _ (List.getElem?_mem hx)
  · rcases q with _ | ⟨h, t⟩
    · exact absurd (topNonemptyAux_some htr).2.2.1 (by simp)
    · refine ⟨j, t, ?_⟩
      have hcr : currentlyRunning s = h := by
        simp only [currentlyRunning, htr]
      rw [hcr]

theorem cr_spec {s : OSManager} (hI : Inv0 s) :
    ∃ p : Int, p ∈ r3 ∧ (∃ t, rlGet s p = currentlyRunning s :: t) ∧
      ∀ q ∈ r3, p < q → rlGet s q = [] := by
  obtain ⟨j, t, htr⟩ := tna_of_inv hI
  obtain ⟨hlen, hget, _, hemp⟩ := topNonemptyAux_some htr
  rw [hI.lenRL] at hlen
  refine ⟨(j : Int), mem_r3_iff.2 (by omega), ⟨t, ?_⟩, ?_⟩
  · unfold rlGet
    rw [pyIdx_of_nonneg (by omega), Int.toNat_natCast, hget]
  · intro q hq hjq
    obtain ⟨h0, h2⟩ := mem_r3_iff.1 hq
    unfold rlGet
    rw [pyIdx_of_nonneg h0]
    refine hemp q.toNat (by omega) (by rw [hI.lenRL]; omega)

theorem runningAndHeld_eq {s : OSManager} (hI : Inv0 s) (k : Int) :
    runningAndHeld s k = (currentlyRunning s, heldOf s (currentlyRunning s) k) := by
  obtain ⟨j, t, htr⟩ := tna_of_inv hI
  unfold runningAndHeld
  rw [htr]

theorem cr_props {s : OSManager} (hI : Inv0 s) :
    (0 ≤ currentlyRunning s ∧ currentlyRunning s ≤ 15) ∧
    occupied s (currentlyRunning s) ∧
    (pcbGet s (currentlyRunning s)).state = 1 ∧
    (pcbGet s (currentlyRunning s)).priority ∈ r3 ∧
    (∃ t, rlGet s ((pcbGet s (currentlyRunning s)).priority) =
      currentlyRunning s :: t) := by
  obtain ⟨p, hp3, ⟨t, hpt⟩, _⟩ := cr_spec hI
  have hmem : currentlyRunning s ∈ rlGet s p := by rw [hpt]; exact List.mem_cons_self _ _
  obtain ⟨hb, hocc, hst, hprio⟩ := hI.rl_mem p hp3 _ hmem
  exact ⟨hb, hocc, hst, by rw [hprio]; exact hp3, ⟨t, by rw [hprio]; exact hpt⟩⟩

/-! ### Spec of `findFree` -/

theorem findFree_none {l : List ProcessControlBlock} (h : findFree l = none) :
    ∀ b ∈ l, 0 ≤ b.priority := by
  induction l with
  | nil => intro b hb; simp at hb
  | cons a rest ih =>
    rw [findFree] at h
    split at h
    · simp at h
    · next ha =>
      intro b hb
      rcases List.mem_cons.1 hb with rfl | hm
      · omega
      · exact ih (by
          cases hf : findFree rest with
          | none => rfl
          | some i => rw [hf] at h; simp at h) b hm

theorem findFree_some {l : List ProcessControlBlock} {i : Nat} (h : findFree l = some i) :
    i < l.length ∧ (l.getD i freePCB).priority < 0 ∧
      ∀ j < i, 0 ≤ (l.getD j freePCB).priority := by
  induction l generalizing i with
  | nil => simp [findFree] at h
  | cons a rest ih =>
    rw [findFree] at h
    split at h
    · next ha =>
      simp only [Option.some.injEq] at h
      subst h
      exact ⟨by simp, by simpa using ha, by omega⟩
    · next ha =>
      cases hf : findFree rest with
      | none => rw [hf] at h; simp at h
      | some i' =>
        rw [hf] at h
        simp only [Option.map_some', Option.some.injEq] at h
        subst h
        obtain ⟨h1, h2, h3⟩ := ih hf
        refine ⟨by simpa using h1, by simpa using h2, ?_⟩
        intro j hj
        cases j with
        | zero => simpa using ha
        | succ j' =>
          rw [List.getD_cons_succ]
          exact h3 j' (by omega)

/-! ### Spec of `removeFirstPid` and the waitlist removal loop -/

theorem removeFirstPid_none {wl : List (Int × Int)} {p : Int}
    (h : removeFirstPid wl p = none) : ∀ e ∈ wl, e.1 ≠ p := by
  induction wl with
  | nil => intro e he; simp at he
  | cons a rest ih =>
    rw [removeFirstPid] at h
    split at h
    · simp at h
    · next ha =>
      intro e he
      rcases List.mem_cons.1 he with rfl | hm
      · exact ha
      · exact ih (by
          cases hf : removeFirstPid rest p with
          | none => rfl
          | some w => rw [hf] at h; simp at h) e hm

theorem removeFirstPid_of_not_mem {wl : List (Int × Int)} {p : Int}
    (h : ∀ e ∈ wl, e.1 ≠ p) : removeFirstPid wl p = none := by
  induction wl with
  | nil => rfl
  | cons a rest ih =>
    rw [removeFirstPid, if_neg (h a (List.mem_cons_self _ _)),
      ih (fun e he => h e (List.mem_cons_of_mem _ he))]
    rfl

theorem removeFirstPid_sublist {wl wl' : List (Int × Int)} {p : Int}
    (h : removeFirstPid wl p = some wl') : wl'.Sublist wl := by
  induction wl generalizing wl' with
  | nil => simp [removeFirstPid] at h
  | cons a rest ih =>
    rw [removeFirstPid] at h
    split at h
    · simp only [Option.some.injEq] at h
      subst h
      exact (List.sublist_cons_self a rest)
    · cases hf : removeFirstPid rest p with
      | none => rw [hf] at h; simp at h
      | some w =>
        rw [hf] at h
        simp only [Option.map_some', Option.some.injEq] at h
        subst h
        exact List.Sublist.cons₂ a (ih hf)

theorem removeFirstPid_not_mem {wl wl' : List (Int × Int)} {p : Int}
    (hnd : (wl.map Prod.fst).Nodup) (h : removeFirstPid wl p = some wl') :
    p ∉ wl'.map Prod.fst := by
  induction wl generalizing wl' with
  | nil => simp [removeFirstPid] at h
  | cons a rest ih =>
    simp only [List.map_cons, List.nodup_cons] at hnd
    rw [removeFirstPid] at h
    split at h
    · next ha =>
      simp only [Option.some.injEq] at h
      subst h
      intro hm
      exact hnd.1 (by rwa [ha])
    · next ha =>
      cases hf : removeFirstPid rest p with
      | none => rw [hf] at h; simp at h
      | some w =>
        rw [hf] at h
        simp only [Option.map_some', Option.some.injEq] at h
        subst h
        simp only [List.map_cons, List.mem_cons]
        rintro (hpa | hm)
        · exact ha hpa.symm
        · exact ih hnd.2 hf hm

/-! ### Generic fold preservation -/

theorem foldl_preserve {α β : Type} {P : α → Prop} {f : α → β → α} {l : List β}
    (h : ∀ a b, b ∈ l → P a → P (f a b)) : ∀ a, P a → P (l.foldl f a) := by
  induction l with
  | nil => intro a ha; exact ha
  | cons x rest ih =>
    intro a ha
    exact ih (fun a' b hb => h a' b (List.mem_cons_of_mem _ hb)) _
      (h a x (List.mem_cons_self _ _) ha)

/-! ### The initial state satisfies the invariants -/

theorem inv_initState : Inv initState := by
  refine ⟨⟨?_, ?_, ?_, ?_, ?_, ?_, ?_, ?_, ?_, ?_, ?_, ?_, ?_, ?_, ?_, ?_, ?_, ?_, ?_, ?_⟩,
    ?_, ?_⟩ <;> decide

theorem treeInv_initState : TreeInv initState := by
  refine ⟨?_, ?_⟩ <;> decide


/-! ### More accessor lemmas -/

theorem rlGet_rlSetN_self {s : OSManager} (h3 : s.RL.length = 3) {n : Nat}
    (hn : n < 3) (l : List Int) : rlGet (rlSetN s n l) ((n : Int)) = l := by
  unfold rlGet rlSetN
  simp only
  rw [pyIdx_of_nonneg (by omega), Int.toNat_natCast]
  exact getD_set_self _ _ (by omega)

theorem rlGet_rlSetN_ne {s : OSManager} {n : Nat} {p : Int}
    (h : pyIdx 3 p ≠ n) (l : List Int) : rlGet (rlSetN s n l) p = rlGet s p := by
  unfold rlGet rlSetN
  exact getD_set_ne _ _ (fun hh => h hh.symm)

theorem pcbGet_pcbModify_self {s : OSManager} (h16 : s.PCB.length = 16) {i : Int}
    (h0 : 0 ≤ i) (hi : i < 16) (f : ProcessControlBlock → ProcessControlBlock) :
    pcbGet (pcbModify s i f) i = f (pcbGet s i) := by
  unfold pcbModify
  exact pcbGet_pcbSet_self h16 h0 hi _

theorem pcbGet_pcbModify_ne {s : OSManager} {i j : Int}
    (h : pyIdx 16 i ≠ pyIdx 16 j) (f : ProcessControlBlock → ProcessControlBlock) :
    pcbGet (pcbModify s i f) j = pcbGet s j := by
  unfold pcbModify
  exact pcbGet_pcbSet_ne h _

theorem rcbGet_rcbModify_self {s : OSManager} (h4 : s.RCB.length = 4) {k : Int}
    (h0 : 0 ≤ k) (hk : k < 4) (f : ResourceControlBlock → ResourceControlBlock) :
    rcbGet (rcbModify s k f) k = f (rcbGet s k) := by
  unfold rcbModify
  exact rcbGet_rcbSet_self h4 h0 hk _

theorem rcbGet_rcbModify_ne {s : OSManager} {k k' : Int}
    (h : pyIdx 4 k ≠ pyIdx 4 k') (f : ResourceControlBlock → ResourceControlBlock) :
    rcbGet (rcbModify s k f) k' = rcbGet s k' := by
  unfold rcbModify
  exact rcbGet_rcbSet_ne h _

/-! ### Invariance under ready-list permutation, and `timeout` -/

theorem inv_of_perm_rl {s s' : OSManager} (hI : Inv s) (hPCB : s'.PCB = s.PCB)
    (hRCB : s'.RCB = s.RCB) (hlen : s'.RL.length = s.RL.length)
    (hperm : ∀ p ∈ r3, (rlGet s' p).Perm (rlGet s p)) : Inv s' := by
  have hpg : ∀ i, pcbGet s' i = pcbGet s i := fun i => by unfold pcbGet; rw [hPCB]
  have hrg : ∀ k, rcbGet s' k = rcbGet s k := fun k => by unfold rcbGet; rw [hRCB]
  have hhold : ∀ i k, heldOf s' i k = heldOf s i k := fun i k => by
    unfold heldOf; rw [hpg]
  have hocc : ∀ i, occupied s' i ↔ occupied s i := fun i => by unfold occupied; rw [hpg]
  have hsum : ∀ k, heldSum s' k = heldSum s k := fun k => by
    unfold heldSum; exact sum_map_eq (fun i _ => hhold i k)
  refine ⟨⟨?_, ?_, ?_, ?_, ?_, ?_, ?_, ?_, ?_, ?_, ?_, ?_, ?_, ?_, ?_, ?_, ?_, ?_, ?_, ?_⟩,
    ?_, ?_⟩
  · rw [hPCB]; exact hI.lenPCB
  · rw [hRCB]; exact hI.lenRCB
  · rw [hlen]; exact hI.lenRL
  · rw [hpg]; exact hI.root_prio
  · rw [hpg]; exact hI.root_state
  · rw [hpg]; exact hI.root_res
  · exact ((hperm 0 (by decide)).mem_iff).2 hI.root_rl
  · intro i hi hfree; rw [hpg] at hfree ⊢; exact hI.free_default i hi hfree
  · intro i hi ho; rw [hpg]; exact hI.occ_prio i hi ((hocc i).1 ho)
  · intro i hi ho; rw [hpg]; exact hI.occ_state i hi ((hocc i).1 ho)
  · intro i hi e he; rw [hpg] at he; exact hI.res_entry i hi e he
  · intro i hi; rw [hpg]; exact hI.res_nodup i hi
  · intro i hi j hj
    rw [hpg] at hj
    obtain ⟨hb, ho, hp⟩ := hI.child_mem i hi j hj
    exact ⟨hb, (hocc j).2 ho, by rw [hpg]; exact hp⟩
  · intro i hi; rw [hpg]; exact hI.child_nodup i hi
  · intro p hp j hj
    have := hI.rl_mem p hp j ((hperm p hp).mem_iff.1 hj)
    exact ⟨this.1, (hocc j).2 this.2.1, by rw [hpg]; exact this.2.2.1,
      by rw [hpg]; exact this.2.2.2⟩
  · intro p hp; exact ((hperm p hp).symm.nodup (hI.rl_nodup p hp))
  · intro k hk e he
    rw [hrg] at he
    obtain ⟨hb, ho, hs, hu⟩ := hI.wl_entry k hk e he
    exact ⟨hb, (hocc e.1).2 ho, by rw [hpg]; exact hs, hu⟩
  · have : allWaitPids s' = allWaitPids s := by
      unfold allWaitPids wlPids; rw [hrg, hrg, hrg, hrg]
    rw [this]; exact hI.wl_nodup
  · intro k hk; rw [hrg]; exact hI.avail_nonneg k hk
  · rw [hrg, hrg, hrg, hrg]; exact hI.inv_fixed
  · intro i hi
    intro ho hs
    rw [hpg] at hs
    have hmem := hI.ready_in_rl i hi ((hocc i).1 ho) hs
    rw [hpg]
    have hp3 : (pcbGet s i).priority ∈ r3 := by
      rw [mem_r3_iff]
      have := hI.occ_prio i hi ((hocc i).1 ho)
      have h0 := (hocc i).1 ho
      unfold occupied at h0
      omega
    exact ((hperm _ hp3).mem_iff).2 hmem
  · intro k hk; rw [hrg, hsum]; exact hI.conserve k hk

theorem timeout_eq {s : OSManager} (hI : Inv0 s) :
    ∃ j t, topNonemptyAux s.RL = some (j, currentlyRunning s :: t) ∧
      timeout s = rlSetN s j (t ++ [currentlyRunning s]) := by
  obtain ⟨j, t, htr⟩ := tna_of_inv hI
  exact ⟨j, t, htr, by unfold timeout; rw [htr]⟩

theorem timeout_inv {s : OSManager} (hI : Inv s) : Inv (timeout s) := by
  obtain ⟨j, t, htr, heq⟩ := timeout_eq hI.toInv0
  obtain ⟨hlen, hget, _, _⟩ := topNonemptyAux_some htr
  rw [hI.lenRL] at hlen
  rw [heq]
  refine inv_of_perm_rl hI rfl rfl (List.length_set ..) ?_
  intro p hp
  by_cases hpj : pyIdx 3 p = j
  · have hp0 : 0 ≤ p := (mem_r3_iff.1 hp).1
    have hpv : p = (j : Int) := by
      rw [pyIdx_of_nonneg hp0] at hpj
      omega
    subst hpv
    rw [rlGet_rlSetN_self hI.lenRL hlen]
    have hrl : rlGet s (j : Int) = currentlyRunning s :: t := by
      unfold rlGet
      rw [pyIdx_of_nonneg (by omega), Int.toNat_natCast, hget]
    rw [hrl]
    exact List.perm_append_singleton _ _
  · rw [rlGet_rlSetN_ne hpj]


theorem pyIdx_eq_iff {n : Nat} {i j : Int} (h0 : 0 ≤ i) (h0' : 0 ≤ j) :
    pyIdx n i = pyIdx n j ↔ i = j := by
  rw [pyIdx_of_nonneg h0, pyIdx_of_nonneg h0']
  omega

theorem pcbGet_congr {s : OSManager} {i j : Int} (h : pyIdx 16 i = pyIdx 16 j) :
    pcbGet s i = pcbGet s j := by
  unfold pcbGet
  rw [h]


@[simp] theorem lenPCB_pcbModify (s : OSManager) (i : Int)
    (f : ProcessControlBlock → ProcessControlBlock) :
    (pcbModify s i f).PCB.length = s.PCB.length := by
  unfold pcbModify pcbSet
  exact List.length_set ..

@[simp] theorem lenRCB_rcbModify (s : OSManager) (i : Int)
    (f : ResourceControlBlock → ResourceControlBlock) :
    (rcbModify s i f).RCB.length = s.RCB.length := by
  unfold rcbModify rcbSet
  exact List.length_set ..

theorem heldSum_pcbModify_keep {s : OSManager} (h16 : s.PCB.length = 16) {i : Int}
    (h0 : 0 ≤ i) (hi : i ≤ 15) {f : ProcessControlBlock → ProcessControlBlock}
    (hres : ∀ b, (f b).resources = b.resources) (k : Int) :
    heldSum (pcbModify s i f) k = heldSum s k := by
  unfold pcbModify
  rw [heldSum_pcbSet h16 h0 hi, hres]
  unfold heldOf
  ring

/-! ### `create` preserves the invariant -/

theorem create_cases {s : OSManager} {p : Int} {s' : OSManager} (hI : Inv0 s)
    (h : create s p = some s') :
    (0 ≤ p ∧ p < 3) ∧ ∃ i : Nat, i < 16 ∧ findFree s.PCB = some i ∧
      pcbGet s ((i : Int)) = freePCB ∧ (i : Int) ≠ 0 ∧
      (i : Int) ≠ currentlyRunning s ∧
      pcbGet s' ((i : Int)) = ⟨p, 1, currentlyRunning s, [], []⟩ ∧
      pcbGet s' (currentlyRunning s) = { pcbGet s (currentlyRunning s) with
        children := (pcbGet s (currentlyRunning s)).children ++ [(i : Int)] } ∧
      (∀ j : Int, 0 ≤ j → j ≠ (i : Int) → j ≠ currentlyRunning s →
        pcbGet s' j = pcbGet s j) ∧
      (∀ k, rcbGet s' k = rcbGet s k) ∧
      rlGet s' p = rlGet s p ++ [(i : Int)] ∧
      (∀ q, pyIdx 3 q ≠ pyIdx 3 p → rlGet s' q = rlGet s q) ∧
      s'.PCB.length = 16 ∧ s'.RCB.length = 4 ∧ s'.RL.length = 3 ∧
      (∀ k, heldSum s' k = heldSum s k) := by
  unfold create at h
  split at h
  · simp at h
  next hc =>
  push_neg at hc
  obtain ⟨hp0, hp3⟩ := hc
  split at h
  · simp at h
  next i hff =>
  simp only [Option.some.injEq] at h
  obtain ⟨hilen, hifree, _⟩ := findFree_some hff
  rw [hI.lenPCB] at hilen
  have hι0 : (0 : Int) ≤ (i : Int) := by omega
  have hι15 : (i : Int) ≤ 15 := by omega
  have hιget : pcbGet s ((i : Int)) = s.PCB.getD i freePCB := by
    unfold pcbGet
    rw [pyIdx_of_nonneg hι0, Int.toNat_natCast]
  have hιfree : (pcbGet s ((i : Int))).priority < 0 := by rw [hιget]; exact hifree
  have hιdefault : pcbGet s ((i : Int)) = freePCB :=
    hI.free_default _ (mem_r16_iff.2 ⟨hι0, hι15⟩) hιfree
  have hι0ne : (i : Int) ≠ 0 := by
    intro hh
    rw [hh, hI.root_prio] at hιfree
    omega
  obtain ⟨⟨hcr0, hcr15⟩, hcrocc, hcrst, hcrprio, tcr, hcrrl⟩ := cr_props hI
  have hcrι : (i : Int) ≠ currentlyRunning s := by
    intro hh
    unfold occupied at hcrocc
    rw [← hh] at hcrocc
    omega
  have hιnotchild : (i : Int) ∉ (pcbGet s (currentlyRunning s)).children := by
    intro hh
    have := (hI.child_mem _ (mem_r16_iff.2 ⟨hcr0, hcr15⟩) _ hh).2.1
    unfold occupied at this
    rw [hιdefault] at this
    exact absurd this (by decide)
  have h1len : (pcbSet s ((i : Int))
      ⟨p, 1, currentlyRunning s, [], []⟩).PCB.length = 16 := by
    rw [lenPCB_pcbSet, hI.lenPCB]
  subst h
  simp only []
  refine ⟨⟨hp0, by omega⟩, i, hilen, hff, hιdefault, hι0ne, hcrι, ?_, ?_, ?_, ?_, ?_, ?_,
    ?_, ?_, ?_, ?_⟩
  · rw [pcbGet_rlSet, pcbGet_pcbModify_ne (pyIdx_ne hcr0 hι0 (fun hh => hcrι hh.symm)),
      pcbGet_pcbSet_self hI.lenPCB hι0 (by omega)]
  · rw [pcbGet_rlSet, pcbGet_pcbModify_self h1len hcr0 (by omega),
      pcbGet_pcbSet_ne (pyIdx_ne hι0 hcr0 hcrι), if_neg hιnotchild]
  · intro j hj0 hjι hjcr
    rw [pcbGet_rlSet, pcbGet_pcbModify_ne (pyIdx_ne hcr0 hj0 (fun hh => hjcr hh.symm)),
      pcbGet_pcbSet_ne (pyIdx_ne hι0 hj0 (fun hh => hjι hh.symm))]
  · intro k
    rfl
  · rw [rlGet_rlSet_self (by exact hI.lenRL) hp0 (by exact_mod_cast hp3)]
    rfl
  · intro q hq
    rw [rlGet_rlSet_ne (fun hh => hq hh.symm)]
    rfl
  · simp [hI.lenPCB]
  · exact hI.lenRCB
  · rw [lenRL_rlSet]
    exact hI.lenRL
  · intro k
    have hstep := heldSum_pcbModify_keep
      (s := pcbSet s ((i : Int)) ⟨p, 1, currentlyRunning s, [], []⟩) h1len hcr0 hcr15
      (f := fun b => { b with children := if ((i : Int)) ∈ b.children then b.children
                                          else b.children ++ [((i : Int))] })
      (fun b => rfl) k
    rw [heldSum_rlSet, hstep, heldSum_pcbSet hI.lenPCB hι0 hι15]
    have hz : heldOf s ((i : Int)) k = 0 := by
      unfold heldOf
      rw [hιdefault]
      rfl
    rw [hz]
    show heldSum s k + (resLookup [] k - 0) = heldSum s k
    simp [resLookup]


theorem create_inv {s : OSManager} {p : Int} {s' : OSManager}
    (hI : Inv s) (h : create s p = some s') : Inv s' := by
  obtain ⟨⟨hp0, hp3⟩, i, hilen, hff, hιdefault, hι0ne, hcrι, F1, F2, F3, F4, F5, F6,
    L1, L2, L3, F8⟩ := create_cases hI.toInv0 h
  have hι0 : (0 : Int) ≤ (i : Int) := by omega
  have hι15 : (i : Int) ≤ 15 := by omega
  obtain ⟨⟨hcr0, hcr15⟩, hcrocc, hcrst, hcrprio, tcr, hcrrl⟩ := cr_props hI.toInv0
  have hp3' : p ∈ r3 := mem_r3_iff.2 ⟨hp0, by omega⟩
  have hιnotchild : (i : Int) ∉ (pcbGet s (currentlyRunning s)).children := by
    intro hh
    have := (hI.child_mem _ (mem_r16_iff.2 ⟨hcr0, hcr15⟩) _ hh).2.1
    unfold occupied at this
    rw [hιdefault] at this
    exact absurd this (by decide)
  have hP : ∀ j : Int, 0 ≤ j → j ≠ (i : Int) →
      (pcbGet s' j).priority = (pcbGet s j).priority ∧
      (pcbGet s' j).state = (pcbGet s j).state ∧
      (pcbGet s' j).parent = (pcbGet s j).parent ∧
      (pcbGet s' j).resources = (pcbGet s j).resources := by
    intro j hj0 hjι
    by_cases hjcr : j = currentlyRunning s
    · subst hjcr
      rw [F2]
      exact ⟨rfl, rfl, rfl, rfl⟩
    · rw [F3 j hj0 hjι hjcr]
      exact ⟨rfl, rfl, rfl, rfl⟩
  have hoccι : occupied s' ((i : Int)) := by
    unfold occupied
    rw [F1]
    exact hp0
  have hocc_mono : ∀ j : Int, 0 ≤ j → occupied s j → occupied s' j := by
    intro j hj0 ho
    by_cases hjι : j = (i : Int)
    · rw [hjι]; exact hoccι
    · unfold occupied at ho ⊢
      rw [(hP j hj0 hjι).1]
      exact ho
  have hocc_back : ∀ j : Int, 0 ≤ j → j ≠ (i : Int) → occupied s' j → occupied s j := by
    intro j hj0 hjι ho
    unfold occupied at ho ⊢
    rw [(hP j hj0 hjι).1] at ho
    exact ho
  have hnotocc : ∀ j : Int, occupied s j → j ≠ (i : Int) := by
    intro j ho hh
    rw [hh] at ho
    unfold occupied at ho
    rw [hιdefault] at ho
    exact absurd ho (by decide)
  constructor
  constructor
  · exact L1
  · exact L2
  · exact L3
  · rw [(hP 0 le_rfl (fun hh => hι0ne hh.symm)).1]; exact hI.root_prio
  · rw [(hP 0 le_rfl (fun hh => hι0ne hh.symm)).2.1]; exact hI.root_state
  · rw [(hP 0 le_rfl (fun hh => hι0ne hh.symm)).2.2.2]; exact hI.root_res
  · by_cases h0p : pyIdx 3 0 = pyIdx 3 p
    · have h0p' : (0 : Int) = p := (pyIdx_eq_iff le_rfl hp0).1 h0p
      rw [← h0p'] at F5
      rw [F5]
      exact List.mem_append_left _ hI.root_rl
    · rw [F6 0 h0p]; exact hI.root_rl
  · intro j hj hfree
    obtain ⟨hj0, hj15⟩ := mem_r16_iff.1 hj
    by_cases hjι : j = (i : Int)
    · subst hjι
      simp only [F1] at hfree
      omega
    · by_cases hjcr : j = currentlyRunning s
      · subst hjcr
        simp only [F2] at hfree
        unfold occupied at hcrocc
        omega
      · rw [F3 j hj0 hjι hjcr] at hfree ⊢
        exact hI.free_default j hj hfree
  · intro j hj ho
    obtain ⟨hj0, hj15⟩ := mem_r16_iff.1 hj
    by_cases hjι : j = (i : Int)
    · subst hjι
      simp only [F1]
      omega
    · rw [(hP j hj0 hjι).1]
      exact hI.occ_prio j hj (hocc_back j hj0 hjι ho)
  · intro j hj ho
    obtain ⟨hj0, hj15⟩ := mem_r16_iff.1 hj
    by_cases hjι : j = (i : Int)
    · subst hjι
      simp only [F1]
      trivial
    · rw [(hP j hj0 hjι).2.1]
      exact hI.occ_state j hj (hocc_back j hj0 hjι ho)
  · intro j hj e he
    obtain ⟨hj0, hj15⟩ := mem_r16_iff.1 hj
    by_cases hjι : j = (i : Int)
    · subst hjι
      simp only [F1] at he
      simp at he
    · rw [(hP j hj0 hjι).2.2.2] at he
      exact hI.res_entry j hj e he
  · intro j hj
    obtain ⟨hj0, hj15⟩ := mem_r16_iff.1 hj
    by_cases hjι : j = (i : Int)
    · subst hjι
      simp only [F1]
      simp
    · rw [(hP j hj0 hjι).2.2.2]
      exact hI.res_nodup j hj
  · intro i' hi' j hj
    obtain ⟨hi0, hi15⟩ := mem_r16_iff.1 hi'
    by_cases hicr : i' = currentlyRunning s
    · subst hicr
      simp only [F2, List.mem_append, List.mem_singleton] at hj
      rcases hj with hj | rfl
      · obtain ⟨hb, ho, hpar⟩ := hI.child_mem _ hi' j hj
        refine ⟨hb, hocc_mono j (by omega) ho, ?_⟩
        rw [(hP j (by omega) (hnotocc j ho)).2.2.1]
        exact hpar
      · refine ⟨⟨by omega, hι15⟩, hoccι, ?_⟩
        rw [F1]
    · by_cases hiι : i' = (i : Int)
      · subst hiι
        simp only [F1] at hj
        simp at hj
      · rw [F3 i' hi0 hiι hicr] at hj
        obtain ⟨hb, ho, hpar⟩ := hI.child_mem i' hi' j hj
        refine ⟨hb, hocc_mono j (by omega) ho, ?_⟩
        rw [(hP j (by omega) (hnotocc j ho)).2.2.1]
        exact hpar
  · intro i' hi'
    obtain ⟨hi0, hi15⟩ := mem_r16_iff.1 hi'
    by_cases hicr : i' = currentlyRunning s
    · subst hicr
      simp only [F2]
      refine List.Nodup.append
        (hI.child_nodup _ (mem_r16_iff.2 ⟨hcr0, hcr15⟩))
        (List.nodup_singleton _) ?_
      intro a ha hb
      simp only [List.mem_singleton] at hb
      subst hb
      exact hιnotchild ha
    · by_cases hiι : i' = (i : Int)
      · subst hiι
        simp only [F1]
        simp
      · rw [F3 i' hi0 hiι hicr]
        exact hI.child_nodup i' hi'
  · intro q hq j hj
    obtain ⟨hq0, hq2⟩ := mem_r3_iff.1 hq
    by_cases hqp : pyIdx 3 q = pyIdx 3 p
    · have hqp' : q = p := (pyIdx_eq_iff hq0 hp0).1 hqp
      subst hqp'
      rw [F5] at hj
      simp only [List.mem_append, List.mem_singleton] at hj
      rcases hj with hj | rfl
      · obtain ⟨hb, ho, hst, hpr⟩ := hI.rl_mem q hq j hj
        refine ⟨hb, hocc_mono j (by omega) ho, ?_, ?_⟩
        · rw [(hP j (by omega) (hnotocc j ho)).2.1]; exact hst
        · rw [(hP j (by omega) (hnotocc j ho)).1]; exact hpr
      · refine ⟨⟨hι0, hι15⟩, hoccι, ?_, ?_⟩
        · rw [F1]
        · rw [F1]
    · rw [F6 q hqp] at hj
      obtain ⟨hb, ho, hst, hpr⟩ := hI.rl_mem q hq j hj
      refine ⟨hb, hocc_mono j (by omega) ho, ?_, ?_⟩
      · rw [(hP j (by omega) (hnotocc j ho)).2.1]; exact hst
      · rw [(hP j (by omega) (hnotocc j ho)).1]; exact hpr
  · intro q hq
    obtain ⟨hq0, hq2⟩ := mem_r3_iff.1 hq
    by_cases hqp : pyIdx 3 q = pyIdx 3 p
    · have hqp' : q = p := (pyIdx_eq_iff hq0 hp0).1 hqp
      subst hqp'
      rw [F5]
      refine List.Nodup.append (hI.rl_nodup q hq) (List.nodup_singleton _) ?_
      intro a ha hb
      simp only [List.mem_singleton] at hb
      subst hb
      exact absurd (hI.rl_mem q hq _ ha).2.1 (fun ho => (hnotocc _ ho) rfl)
    · rw [F6 q hqp]
      exact hI.rl_nodup q hq
  · intro k hk e he
    rw [F4] at he
    obtain ⟨hb, ho, hst, hu⟩ := hI.wl_entry k hk e he
    refine ⟨hb, hocc_mono e.1 (by omega) ho, ?_, hu⟩
    rw [(hP e.1 (by omega) (hnotocc e.1 ho)).2.1]
    exact hst
  · have : allWaitPids s' = allWaitPids s := by
      unfold allWaitPids wlPids
      rw [F4, F4, F4, F4]
    rw [this]
    exact hI.wl_nodup
  · intro k hk
    rw [F4]
    exact hI.avail_nonneg k hk
  · rw [F4, F4, F4, F4]
    exact hI.inv_fixed
  · intro j hj ho hst
    obtain ⟨hj0, hj15⟩ := mem_r16_iff.1 hj
    by_cases hjι : j = (i : Int)
    · subst hjι
      have hprι : (pcbGet s' ((i : Int))).priority = p := by rw [F1]
      rw [hprι, F5]
      exact List.mem_append_right _ (List.mem_singleton_self _)
    · have hos : occupied s j := hocc_back j hj0 hjι ho
      have hsts : (pcbGet s j).state = 1 := by
        rw [(hP j hj0 hjι).2.1] at hst
        exact hst
      have hmem := hI.ready_in_rl j hj hos hsts
      rw [(hP j hj0 hjι).1]
      by_cases hqp : pyIdx 3 ((pcbGet s j).priority) = pyIdx 3 p
      · have heq : (pcbGet s j).priority = p := (pyIdx_eq_iff hos hp0).1 hqp
        rw [heq, F5]
        rw [heq] at hmem
        exact List.mem_append_left _ hmem
      · rw [F6 _ hqp]
        exact hmem
  · intro k hk
    rw [F4, F8]
    exact hI.conserve k hk


theorem heldSum_pcbModify_resAdd {s : OSManager} (h16 : s.PCB.length = 16) {i : Int}
    (h0 : 0 ≤ i) (hi : i ≤ 15) (rI u k : Int) :
    heldSum (pcbModify s i (fun b => { b with resources := resAdd b.resources rI u })) k
      = heldSum s k + (if k = rI then u else 0) := by
  unfold pcbModify
  rw [heldSum_pcbSet h16 h0 hi]
  by_cases hk : k = rI
  · subst hk
    rw [if_pos rfl]
    show heldSum s k + (resLookup (resAdd (pcbGet s i).resources k u) k - heldOf s i k)
      = heldSum s k + u
    rw [resLookup_resAdd_self]
    unfold heldOf
    ring
  · rw [if_neg hk]
    show heldSum s k + (resLookup (resAdd (pcbGet s i).resources rI u) k - heldOf s i k)
      = heldSum s k + 0
    rw [resLookup_resAdd_ne _ _ hk]
    unfold heldOf
    ring


/-! ### Waitlist component helpers -/

theorem wlPids_sublist_all {s : OSManager} {k : Int} (hk : k ∈ r4) :
    (wlPids s k).Sublist (allWaitPids s) := by
  unfold allWaitPids
  rcases (by simp [r4] at hk; exact hk : k = 0 ∨ k = 1 ∨ k = 2 ∨ k = 3)
    with rfl | rfl | rfl | rfl
  · exact ((List.sublist_append_left _ _).trans (List.sublist_append_left _ _)).trans
      (List.sublist_append_left _ _)
  · exact (((List.sublist_append_right _ _).trans (List.sublist_append_left _ _)).trans
      (List.sublist_append_left _ _))
  · exact ((List.sublist_append_right _ _).trans (List.sublist_append_left _ _))
  · exact List.sublist_append_right _ _

theorem wl_component_nodup {s : OSManager} (hnd : (allWaitPids s).Nodup) {k : Int}
    (hk : k ∈ r4) : (wlPids s k).Nodup :=
  (wlPids_sublist_all hk).nodup hnd


/-! ### Frame lemmas for the Modify combinators -/

@[simp] theorem rcbModify_PCB (s : OSManager) (i : Int)
    (f : ResourceControlBlock → ResourceControlBlock) : (rcbModify s i f).PCB = s.PCB := rfl

@[simp] theorem rcbModify_RL (s : OSManager) (i : Int)
    (f : ResourceControlBlock → ResourceControlBlock) : (rcbModify s i f).RL = s.RL := rfl

@[simp] theorem pcbModify_RCB (s : OSManager) (i : Int)
    (f : ProcessControlBlock → ProcessControlBlock) : (pcbModify s i f).RCB = s.RCB := rfl

@[simp] theorem pcbModify_RL (s : OSManager) (i : Int)
    (f : ProcessControlBlock → ProcessControlBlock) : (pcbModify s i f).RL = s.RL := rfl

@[simp] theorem pcbGet_rcbModify (s : OSManager) (i : Int)
    (f : ResourceControlBlock → ResourceControlBlock) (j : Int) :
    pcbGet (rcbModify s i f) j = pcbGet s j := rfl

@[simp] theorem rcbGet_pcbModify (s : OSManager) (i : Int)
    (f : ProcessControlBlock → ProcessControlBlock) (k : Int) :
    rcbGet (pcbModify s i f) k = rcbGet s k := rfl

@[simp] theorem rlGet_rcbModify (s : OSManager) (i : Int)
    (f : ResourceControlBlock → ResourceControlBlock) (q : Int) :
    rlGet (rcbModify s i f) q = rlGet s q := rfl

@[simp] theorem rlGet_pcbModify (s : OSManager) (i : Int)
    (f : ProcessControlBlock → ProcessControlBlock) (q : Int) :
    rlGet (pcbModify s i f) q = rlGet s q := rfl

@[simp] theorem heldSum_rcbModify (s : OSManager) (i : Int)
    (f : ResourceControlBlock → ResourceControlBlock) (k : Int) :
    heldSum (rcbModify s i f) k = heldSum s k := rfl

@[simp] theorem lenRL_rcbModify (s : OSManager) (i : Int)
    (f : ResourceControlBlock → ResourceControlBlock) :
    (rcbModify s i f).RL.length = s.RL.length := rfl

@[simp] theorem lenRL_pcbModify (s : OSManager) (i : Int)
    (f : ProcessControlBlock → ProcessControlBlock) :
    (pcbModify s i f).RL.length = s.RL.length := rfl

@[simp] theorem lenPCB_rcbModify (s : OSManager) (i : Int)
    (f : ResourceControlBlock → ResourceControlBlock) :
    (rcbModify s i f).PCB.length = s.PCB.length := rfl

@[simp] theorem lenRCB_pcbModify (s : OSManager) (i : Int)
    (f : ProcessControlBlock → ProcessControlBlock) :
    (pcbModify s i f).RCB.length = s.RCB.length := rfl

@[simp] theorem lenPCB_rlSet (s : OSManager) (i : Int) (l : List Int) :
    (rlSet s i l).PCB.length = s.PCB.length := rfl

@[simp] theorem lenRCB_rlSet (s : OSManager) (i : Int) (l : List Int) :
    (rlSet s i l).RCB.length = s.RCB.length := rfl

theorem allWaitPids_sublist {s t : OSManager}
    (h0 : (rcbGet t 0).waitlist.Sublist (rcbGet s 0).waitlist)
    (h1 : (rcbGet t 1).waitlist.Sublist (rcbGet s 1).waitlist)
    (h2 : (rcbGet t 2).waitlist.Sublist (rcbGet s 2).waitlist)
    (h3 : (rcbGet t 3).waitlist.Sublist (rcbGet s 3).waitlist) :
    (allWaitPids t).Sublist (allWaitPids s) := by
  unfold allWaitPids wlPids
  exact (((h0.map _).append ((h1.map _))).append ((h2.map _))).append ((h3.map _))

theorem allWait_disj {s : OSManager} (hnd : (allWaitPids s).Nodup) :
    ∀ k ∈ r4, ∀ k' ∈ r4, k ≠ k' → ∀ a ∈ wlPids s k, a ∉ wlPids s k' := by
  unfold allWaitPids at hnd
  rw [List.nodup_append, List.nodup_append, List.nodup_append] at hnd
  obtain ⟨⟨⟨n0, n1, d01⟩, n2, d012⟩, n3, d0123⟩ := hnd
  have d02 : ∀ a ∈ wlPids s 0, a ∉ wlPids s 2 := fun a ha => d012 (List.mem_append_left _ ha)
  have d12 : ∀ a ∈ wlPids s 1, a ∉ wlPids s 2 := fun a ha => d012 (List.mem_append_right _ ha)
  have d03 : ∀ a ∈ wlPids s 0, a ∉ wlPids s 3 := fun a ha =>
    d0123 (List.mem_append_left _ (List.mem_append_left _ ha))
  have d13 : ∀ a ∈ wlPids s 1, a ∉ wlPids s 3 := fun a ha =>
    d0123 (List.mem_append_left _ (List.mem_append_right _ ha))
  have d23 : ∀ a ∈ wlPids s 2, a ∉ wlPids s 3 := fun a ha =>
    d0123 (List.mem_append_right _ ha)
  intro k hk k' hk' hne a ha ha'
  rcases (by simp [r4] at hk; exact hk : k = 0 ∨ k = 1 ∨ k = 2 ∨ k = 3)
    with rfl | rfl | rfl | rfl <;>
    rcases (by simp [r4] at hk'; exact hk' : k' = 0 ∨ k' = 1 ∨ k' = 2 ∨ k' = 3)
      with rfl | rfl | rfl | rfl <;>
    first
      | exact hne rfl
      | exact d01 ha ha'
      | exact d02 a ha ha'
      | exact d03 a ha ha'
      | exact d12 a ha ha'
      | exact d13 a ha ha'
      | exact d23 a ha ha'
      | exact d01 ha' ha
      | exact d02 a ha' ha
      | exact d03 a ha' ha
      | exact d12 a ha' ha
      | exact d23 a ha' ha
      | exact d13 a ha' ha


/-! ### One granting step of the wait-grant scan -/

theorem grant_step_facts {s : OSManager} (hI : Inv0 s) {rI : Int} (hrI : rI ∈ r4)
    {p u : Int} {wrest : List (Int × Int)}
    (hwl : (rcbGet s rI).waitlist = (p, u) :: wrest)
    (hgrant : u ≤ (rcbGet s rI).state) {t : OSManager}
    (ht : t =
      (let A := rcbModify s rI (fun r => { r with state := r.state - u });
       let B := pcbModify A p (fun b => { b with resources := resAdd b.resources rI u });
       let C := pcbModify B p (fun b => { b with state := 1 });
       let D := rcbModify C rI (fun r => { r with waitlist := r.waitlist.tail });
       rlSet D ((pcbGet D p).priority) (rlGet D ((pcbGet D p).priority) ++ [p]))) :
    Inv0 t ∧
    (∀ i ∈ r16, rdy s i → rdy t i) ∧
    (∀ k ∈ r4, (rcbGet t k).state + heldSum t k = (rcbGet s k).state + heldSum s k) ∧
    (∀ k ∈ r4, (rcbGet t k).inventory = (rcbGet s k).inventory) ∧
    (rcbGet t rI).waitlist = wrest ∧
    (∀ k ∈ r4, k ≠ rI → rcbGet t k = rcbGet s k) ∧
    (∀ i ∈ r16, i ≠ p → pcbGet t i = pcbGet s i) ∧
    (∀ i : Int, (pcbGet t i).children = (pcbGet s i).children ∧
      (pcbGet t i).parent = (pcbGet s i).parent ∧
      (pcbGet t i).priority = (pcbGet s i).priority) ∧
    (∀ j : Int, j ∉ rlAll s → j ≠ p → j ∉ rlAll t) := by
  obtain ⟨hr0, hr3⟩ := mem_r4_iff.1 hrI
  have hhead : ((p, u) : Int × Int) ∈ (rcbGet s rI).waitlist := by
    rw [hwl]; exact List.mem_cons_self _ _
  obtain ⟨⟨hp1, hp15⟩, hpocc, hpst, hu1⟩ := hI.wl_entry rI hrI _ hhead
  simp only [] at hp1 hp15 hpocc hpst hu1
  have hp0 : (0 : Int) ≤ p := by omega
  have hpmem : p ∈ r16 := mem_r16_iff.2 ⟨hp0, hp15⟩
  have hpprio0 : 0 ≤ (pcbGet s p).priority := hpocc
  have hpprio2 : (pcbGet s p).priority ≤ 2 := hI.occ_prio p hpmem hpocc
  simp only [] at ht
  -- accessor facts about t
  have hlenB16 : (pcbModify (rcbModify s rI (fun r => { r with state := r.state - u })) p
      (fun b => { b with resources := resAdd b.resources rI u })).PCB.length = 16 := by
    simp [hI.lenPCB]
  have hTp : pcbGet t p
      = ⟨(pcbGet s p).priority, 1, (pcbGet s p).parent, (pcbGet s p).children,
         resAdd (pcbGet s p).resources rI u⟩ := by
    rw [ht]
    simp only [pcbGet_rlSet, pcbGet_rcbModify]
    rw [pcbGet_pcbModify_self hlenB16 hp0 (by omega),
      pcbGet_pcbModify_self (by simp [hI.lenPCB]) hp0 (by omega)]
    rfl
  have hTne : ∀ i : Int, pyIdx 16 i ≠ pyIdx 16 p → pcbGet t i = pcbGet s i := by
    intro i hi
    rw [ht]
    simp only [pcbGet_rlSet, pcbGet_rcbModify]
    rw [pcbGet_pcbModify_ne (fun hh => hi hh.symm),
      pcbGet_pcbModify_ne (fun hh => hi hh.symm)]
    rfl
  have hrcbI : rcbGet t rI
      = ⟨(rcbGet s rI).inventory, (rcbGet s rI).state - u, wrest⟩ := by
    rw [ht]
    simp only [rcbGet_rlSet]
    rw [rcbGet_rcbModify_self (by simp [hI.lenRCB]) hr0 (by omega)]
    have ha1 : rcbGet (pcbModify (pcbModify (rcbModify s rI
        (fun r => { r with state := r.state - u })) p
        (fun b => { b with resources := resAdd b.resources rI u })) p
        (fun b => { b with state := 1 })) rI
        = ⟨(rcbGet s rI).inventory, (rcbGet s rI).state - u, (rcbGet s rI).waitlist⟩ := by
      simp only [rcbGet_pcbModify]
      rw [rcbGet_rcbModify_self hI.lenRCB hr0 (by omega)]
    rw [ha1]
    simp only []
    rw [hwl]
    rfl
  have hrcbNe : ∀ k : Int, pyIdx 4 k ≠ pyIdx 4 rI → rcbGet t k = rcbGet s k := by
    intro k hk
    rw [ht]
    simp only [rcbGet_rlSet]
    rw [rcbGet_rcbModify_ne (fun hh => hk hh.symm)]
    simp only [rcbGet_pcbModify]
    rw [rcbGet_rcbModify_ne (fun hh => hk hh.symm)]
  have hqprio : (pcbGet (rcbModify (pcbModify (pcbModify (rcbModify s rI
      (fun r => { r with state := r.state - u })) p
      (fun b => { b with resources := resAdd b.resources rI u })) p
      (fun b => { b with state := 1 })) rI
      (fun r => { r with waitlist := r.waitlist.tail })) p).priority
      = (pcbGet s p).priority := by
    simp only [pcbGet_rcbModify]
    rw [pcbGet_pcbModify_self hlenB16 hp0 (by omega),
      pcbGet_pcbModify_self (by simp [hI.lenPCB]) hp0 (by omega)]
    rfl
  have hTrl_self : rlGet t ((pcbGet s p).priority)
      = rlGet s ((pcbGet s p).priority) ++ [p] := by
    rw [ht, hqprio, rlGet_rlSet_self (by simp [hI.lenRL]) hpprio0 (by omega)]
    rfl
  have hTrl_ne : ∀ q : Int, pyIdx 3 q ≠ pyIdx 3 ((pcbGet s p).priority) →
      rlGet t q = rlGet s q := by
    intro q hq
    rw [ht, hqprio, rlGet_rlSet_ne (fun hh => hq hh.symm)]
    rfl
  have F_fields : ∀ i : Int, (pcbGet t i).children = (pcbGet s i).children ∧
      (pcbGet t i).parent = (pcbGet s i).parent ∧
      (pcbGet t i).priority = (pcbGet s i).priority := by
    intro i
    by_cases hip : pyIdx 16 i = pyIdx 16 p
    · rw [(pcbGet_congr hip : pcbGet t i = pcbGet t p), hTp,
        (pcbGet_congr hip : pcbGet s i = pcbGet s p)]
      exact ⟨rfl, rfl, rfl⟩
    · rw [hTne i hip]
      exact ⟨rfl, rfl, rfl⟩
  have hocc_iff : ∀ i : Int, occupied t i ↔ occupied s i := by
    intro i
    unfold occupied
    rw [(F_fields i).2.2]
  have F_heldSum : ∀ k : Int, heldSum t k = heldSum s k + (if k = rI then u else 0) := by
    intro k
    have e1 : heldSum t k = heldSum (pcbModify (pcbModify (rcbModify s rI
        (fun r => { r with state := r.state - u })) p
        (fun b => { b with resources := resAdd b.resources rI u })) p
        (fun b => { b with state := 1 })) k := by
      rw [ht]
      rfl
    have e2 : heldSum (pcbModify (pcbModify (rcbModify s rI
        (fun r => { r with state := r.state - u })) p
        (fun b => { b with resources := resAdd b.resources rI u })) p
        (fun b => { b with state := 1 })) k
        = heldSum (pcbModify (rcbModify s rI
            (fun r => { r with state := r.state - u })) p
            (fun b => { b with resources := resAdd b.resources rI u })) k :=
      heldSum_pcbModify_keep (f := fun b => { b with state := 1 }) hlenB16 hp0 hp15
        (fun b => rfl) k
    have e3 := heldSum_pcbModify_resAdd
      (s := rcbModify s rI (fun r => { r with state := r.state - u }))
      (by simp [hI.lenPCB]) hp0 hp15 rI u k
    rw [e1, e2, e3, heldSum_rcbModify]
  have hpnotrl : ∀ q ∈ r3, p ∉ rlGet s q := by
    intro q hq hmem
    have := (hI.rl_mem q hq p hmem).2.2.1
    omega
  have hwlnodup : ((rcbGet s rI).waitlist.map Prod.fst).Nodup :=
    wl_component_nodup hI.wl_nodup hrI
  have hwrestne : ∀ e ∈ wrest, e.1 ≠ p := by
    intro e he hep
    rw [hwl] at hwlnodup
    simp only [List.map_cons, List.nodup_cons] at hwlnodup
    exact hwlnodup.1 (hep ▸ List.mem_map_of_mem Prod.fst he)
  have F_rcb4 : ∀ k ∈ r4, k ≠ rI → rcbGet t k = rcbGet s k := by
    intro k hk hkne
    obtain ⟨hk0, hk3⟩ := mem_r4_iff.1 hk
    exact hrcbNe k (pyIdx_ne hk0 hr0 hkne)
  have F_pcb16 : ∀ i ∈ r16, i ≠ p → pcbGet t i = pcbGet s i := by
    intro i hi hip
    obtain ⟨hi0, hi15⟩ := mem_r16_iff.1 hi
    exact hTne i (pyIdx_ne hi0 hp0 hip)
  have F_inv : ∀ k ∈ r4, (rcbGet t k).inventory = (rcbGet s k).inventory := by
    intro k hk
    by_cases hkI : k = rI
    · subst hkI
      rw [hrcbI]
    · rw [F_rcb4 k hk hkI]
  have hwl_sub : ∀ k ∈ r4, (rcbGet t k).waitlist.Sublist (rcbGet s k).waitlist := by
    intro k hk
    by_cases hkI : k = rI
    · subst hkI
      rw [hrcbI, hwl]
      exact List.sublist_cons_self _ _
    · rw [F_rcb4 k hk hkI]
  refine ⟨⟨?_, ?_, ?_, ?_, ?_, ?_, ?_, ?_, ?_, ?_, ?_, ?_, ?_, ?_, ?_, ?_, ?_, ?_, ?_, ?_⟩,
    ?_, ?_, F_inv, by rw [hrcbI], F_rcb4, F_pcb16, F_fields, ?_⟩
  · rw [ht]; simp [hI.lenPCB]
  · rw [ht]; simp [hI.lenRCB]
  · rw [ht]; simp [hI.lenRL]
  · rw [(F_fields 0).2.2]; exact hI.root_prio
  · have h0p : (0 : Int) ≠ p := by omega
    rw [F_pcb16 0 (by decide) h0p]; exact hI.root_state
  · have h0p : (0 : Int) ≠ p := by omega
    rw [F_pcb16 0 (by decide) h0p]; exact hI.root_res
  · by_cases h0q : pyIdx 3 0 = pyIdx 3 ((pcbGet s p).priority)
    · have : (0 : Int) = (pcbGet s p).priority := (pyIdx_eq_iff le_rfl hpprio0).1 h0q
      rw [← this] at hTrl_self
      rw [hTrl_self]
      exact List.mem_append_left _ hI.root_rl
    · rw [hTrl_ne 0 h0q]; exact hI.root_rl
  · intro i hi hfree
    obtain ⟨hi0, hi15⟩ := mem_r16_iff.1 hi
    by_cases hip : i = p
    · subst hip
      simp only [hTp] at hfree
      omega
    · rw [F_pcb16 i hi hip] at hfree ⊢
      exact hI.free_default i hi hfree
  · intro i hi ho
    rw [(F_fields i).2.2]
    exact hI.occ_prio i hi ((hocc_iff i).1 ho)
  · intro i hi ho
    by_cases hip : i = p
    · subst hip
      simp only [hTp]
      trivial
    · rw [F_pcb16 i hi hip]
      exact hI.occ_state i hi ((hocc_iff i).1 ho)
  · intro i hi e he
    by_cases hip : i = p
    · subst hip
      simp only [hTp] at he
      refine resAdd_entries (hI.res_entry i hpmem) ⟨hrI, ?_⟩ e he
      have : 0 ≤ resLookup (pcbGet s i).resources rI := heldOf_nonneg hI hpmem rI
      simp only []
      omega
    · rw [F_pcb16 i hi hip] at he
      exact hI.res_entry i hi e he
  · intro i hi
    by_cases hip : i = p
    · subst hip
      simp only [hTp]
      exact resAdd_keys_nodup u (hI.res_nodup i hpmem)
    · rw [F_pcb16 i hi hip]
      exact hI.res_nodup i hi
  · intro i hi j hj
    rw [(F_fields i).1] at hj
    obtain ⟨hb, ho, hpar⟩ := hI.child_mem i hi j hj
    exact ⟨hb, (hocc_iff j).2 ho, by rw [(F_fields j).2.1]; exact hpar⟩
  · intro i hi
    rw [(F_fields i).1]
    exact hI.child_nodup i hi
  · intro q hq j hj
    obtain ⟨hq0, hq2⟩ := mem_r3_iff.1 hq
    by_cases hqp : pyIdx 3 q = pyIdx 3 ((pcbGet s p).priority)
    · have hqv : q = (pcbGet s p).priority := (pyIdx_eq_iff hq0 hpprio0).1 hqp
      subst hqv
      rw [hTrl_self] at hj
      simp only [List.mem_append, List.mem_singleton] at hj
      rcases hj with hj | rfl
      · obtain ⟨hb, ho, hst, hpr⟩ := hI.rl_mem _ hq j hj
        have hjp : j ≠ p := by
          intro hh
          rw [hh] at hst
          omega
        refine ⟨hb, (hocc_iff j).2 ho, ?_, ?_⟩
        · rw [F_pcb16 j (mem_r16_iff.2 ⟨hb.1, hb.2⟩) hjp]; exact hst
        · rw [(F_fields j).2.2]; exact hpr
      · refine ⟨⟨hp0, hp15⟩, (hocc_iff j).2 hpocc, ?_, ?_⟩
        · simp only [hTp]
        · rw [(F_fields j).2.2]
    · rw [hTrl_ne q hqp] at hj
      obtain ⟨hb, ho, hst, hpr⟩ := hI.rl_mem q hq j hj
      have hjp : j ≠ p := by
        intro hh
        rw [hh] at hst
        omega
      refine ⟨hb, (hocc_iff j).2 ho, ?_, ?_⟩
      · rw [F_pcb16 j (mem_r16_iff.2 ⟨hb.1, hb.2⟩) hjp]; exact hst
      · rw [(F_fields j).2.2]; exact hpr
  · intro q hq
    obtain ⟨hq0, hq2⟩ := mem_r3_iff.1 hq
    by_cases hqp : pyIdx 3 q = pyIdx 3 ((pcbGet s p).priority)
    · have hqv : q = (pcbGet s p).priority := (pyIdx_eq_iff hq0 hpprio0).1 hqp
      subst hqv
      rw [hTrl_self]
      refine List.Nodup.append (hI.rl_nodup _ hq) (List.nodup_singleton _) ?_
      intro a ha hb
      simp only [List.mem_singleton] at hb
      subst hb
      exact hpnotrl _ hq ha
    · rw [hTrl_ne q hqp]
      exact hI.rl_nodup q hq
  · intro k hk e he
    by_cases hkI : k = rI
    · subst hkI
      rw [hrcbI] at he
      have hemem : e ∈ (rcbGet s k).waitlist := by
        rw [hwl]; exact List.mem_cons_of_mem _ he
      obtain ⟨hb, ho, hst, hu⟩ := hI.wl_entry k hk e hemem
      refine ⟨hb, (hocc_iff e.1).2 ho, ?_, hu⟩
      rw [F_pcb16 e.1 (mem_r16_iff.2 ⟨by omega, hb.2⟩) (hwrestne e he)]
      exact hst
    · rw [F_rcb4 k hk hkI] at he
      obtain ⟨hb, ho, hst, hu⟩ := hI.wl_entry k hk e he
      have hep : e.1 ≠ p := by
        intro hh
        refine allWait_disj hI.wl_nodup k hk rI hrI hkI e.1 ?_ ?_
        · exact List.mem_map_of_mem Prod.fst he
        · rw [hh]
          unfold wlPids
          rw [hwl]
          exact List.mem_cons_self _ _
      refine ⟨hb, (hocc_iff e.1).2 ho, ?_, hu⟩
      rw [F_pcb16 e.1 (mem_r16_iff.2 ⟨by omega, hb.2⟩) hep]
      exact hst
  · exact (allWaitPids_sublist (hwl_sub 0 (by decide)) (hwl_sub 1 (by decide))
      (hwl_sub 2 (by decide)) (hwl_sub 3 (by decide))).nodup hI.wl_nodup
  · intro k hk
    by_cases hkI : k = rI
    · subst hkI
      rw [hrcbI]
      simp only []
      omega
    · rw [F_rcb4 k hk hkI]
      exact hI.avail_nonneg k hk
  · obtain ⟨i0, i1, i2, i3⟩ := hI.inv_fixed
    exact ⟨by rw [F_inv 0 (by decide)]; exact i0, by rw [F_inv 1 (by decide)]; exact i1,
      by rw [F_inv 2 (by decide)]; exact i2, by rw [F_inv 3 (by decide)]; exact i3⟩
  -- rdy pointwise
  · intro i hi hr
    obtain ⟨hi0, hi15⟩ := mem_r16_iff.1 hi
    by_cases hip : i = p
    · subst hip
      intro ho hst
      have : (pcbGet t i).priority = (pcbGet s i).priority := (F_fields i).2.2
      rw [this, hTrl_self]
      exact List.mem_append_right _ (List.mem_singleton_self _)
    · intro ho hst
      have hos : occupied s i := (hocc_iff i).1 ho
      have hsts : (pcbGet s i).state = 1 := by
        rw [F_pcb16 i hi hip] at hst
        exact hst
      have hmem := hr hos hsts
      rw [(F_fields i).2.2]
      by_cases hqp : pyIdx 3 ((pcbGet s i).priority) = pyIdx 3 ((pcbGet s p).priority)
      · have heq : (pcbGet s i).priority = (pcbGet s p).priority :=
          (pyIdx_eq_iff hos hpprio0).1 hqp
        rw [heq, hTrl_self]
        rw [heq] at hmem
        exact List.mem_append_left _ hmem
      · rw [hTrl_ne _ hqp]
        exact hmem
  -- aph preserved
  · intro k hk
    by_cases hkI : k = rI
    · subst hkI
      rw [hrcbI, F_heldSum, if_pos rfl]
      simp only []
      ring
    · rw [F_rcb4 k hk hkI, F_heldSum, if_neg hkI]
      ring
  -- not-in-rlAll preservation
  · intro j hjs hjp hjt
    refine hjs ?_
    unfold rlAll at hjt ⊢
    simp only [List.mem_append] at hjt ⊢
    have key : ∀ q : Int, q = 0 ∨ q = 1 ∨ q = 2 → j ∈ rlGet t q → j ∈ rlGet s q := by
      intro q hqv hmem
      have hq0 : 0 ≤ q := by rcases hqv with rfl | rfl | rfl <;> omega
      by_cases hqp : pyIdx 3 q = pyIdx 3 ((pcbGet s p).priority)
      · have heq : q = (pcbGet s p).priority := (pyIdx_eq_iff hq0 hpprio0).1 hqp
        rw [heq, hTrl_self] at hmem
        rw [heq]
        rcases List.mem_append.1 hmem with hmem | hmem
        · exact hmem
        · simp only [List.mem_singleton] at hmem
          exact absurd hmem hjp
      · rw [hTrl_ne q hqp] at hmem
        exact hmem
    rcases hjt with (hjt | hjt) | hjt
    · exact Or.inl (Or.inl (key 0 (by omega) hjt))
    · exact Or.inl (Or.inr (key 1 (by omega) hjt))
    · exact Or.inr (key 2 (by omega) hjt)


/-! ### The wait-grant scan: full specification -/

theorem grantAux_spec {rI : Int} (hrI : rI ∈ r4) :
    ∀ (fuel : Nat) (s : OSManager), Inv0 s →
      Inv0 (grantAux rI fuel s) ∧
      (∀ i ∈ r16, rdy s i → rdy (grantAux rI fuel s) i) ∧
      (∀ k ∈ r4, (rcbGet (grantAux rI fuel s) k).state + heldSum (grantAux rI fuel s) k
        = (rcbGet s k).state + heldSum s k) ∧
      (∀ k ∈ r4, (rcbGet (grantAux rI fuel s) k).inventory = (rcbGet s k).inventory) ∧
      (∃ n, (rcbGet (grantAux rI fuel s) rI).waitlist = (rcbGet s rI).waitlist.drop n) ∧
      (∀ k ∈ r4, k ≠ rI → rcbGet (grantAux rI fuel s) k = rcbGet s k) ∧
      (∀ i ∈ r16, i ∉ wlPids s rI → pcbGet (grantAux rI fuel s) i = pcbGet s i) ∧
      (∀ i : Int, (pcbGet (grantAux rI fuel s) i).children = (pcbGet s i).children ∧
        (pcbGet (grantAux rI fuel s) i).parent = (pcbGet s i).parent ∧
        (pcbGet (grantAux rI fuel s) i).priority = (pcbGet s i).priority) ∧
      (∀ j : Int, j ∉ rlAll s → j ∉ wlPids s rI → j ∉ rlAll (grantAux rI fuel s)) ∧
      ((rcbGet s rI).waitlist.length ≤ fuel →
        (rcbGet (grantAux rI fuel s) rI).waitlist = [] ∨
        ∃ e rest, (rcbGet (grantAux rI fuel s) rI).waitlist = e :: rest ∧
          (rcbGet (grantAux rI fuel s) rI).state < e.2) := by
  intro fuel
  induction fuel with
  | zero =>
    intro s hI
    refine ⟨hI, fun i _ hr => hr, fun k _ => rfl, fun k _ => rfl, ⟨0, rfl⟩,
      fun k _ _ => rfl, fun i _ _ => rfl, fun i => ⟨rfl, rfl, rfl⟩, fun j hj _ => hj, ?_⟩
    intro hlen
    left
    have : (rcbGet s rI).waitlist.length = 0 := by omega
    exact List.length_eq_zero.1 this
  | succ fuel ih =>
    intro s hI
    rcases hwl0 : (rcbGet s rI).waitlist with _ | ⟨⟨p, u⟩, wrest⟩
    · have hfw : getFrontWaiting (rcbGet s rI) = (-1, -1) := by
        unfold getFrontWaiting
        rw [hwl0]
      have hred : grantAux rI (fuel + 1) s = s := by
        simp only [grantAux]
        rw [hfw, if_pos rfl]
      rw [hred]
      refine ⟨hI, fun i _ hr => hr, fun k _ => rfl, fun k _ => rfl, ⟨0, hwl0⟩,
        fun k _ _ => rfl, fun i _ _ => rfl, fun i => ⟨rfl, rfl, rfl⟩, fun j hj _ => hj, ?_⟩
      intro _
      left
      exact hwl0
    · have hhead : ((p, u) : Int × Int) ∈ (rcbGet s rI).waitlist := by
        rw [hwl0]; exact List.mem_cons_self _ _
      obtain ⟨⟨hp1, hp15⟩, hpocc, hpst, hu1⟩ := hI.wl_entry rI hrI _ hhead
      simp only [] at hp1 hp15 hpocc hpst hu1
      have hfw : getFrontWaiting (rcbGet s rI) = (p, u) := by
        unfold getFrontWaiting
        rw [hwl0]
      have hne : ((p, u) : Int × Int) ≠ (-1, -1) := by
        intro hh
        rw [Prod.mk.injEq] at hh
        omega
      by_cases hgr : u ≤ (rcbGet s rI).state
      · have havail : ¬ (rcbGet s rI).state ≤ 0 := by omega
        have hred : grantAux rI (fuel + 1) s = grantAux rI fuel
            (let A := rcbModify s rI (fun r => { r with state := r.state - u });
             let B := pcbModify A p (fun b => { b with resources := resAdd b.resources rI u });
             let C := pcbModify B p (fun b => { b with state := 1 });
             let D := rcbModify C rI (fun r => { r with waitlist := r.waitlist.tail });
             rlSet D ((pcbGet D p).priority) (rlGet D ((pcbGet D p).priority) ++ [p])) := by
          simp only [grantAux]
          rw [hfw]
          rw [if_neg hne, if_neg havail, if_pos hgr]
        obtain ⟨tInv, tRdy, tAph, tFix, tWl, tRcb, tPcb, tFlds, tRl⟩ :=
          grant_step_facts hI hrI hwl0 hgr (t :=
            (let A := rcbModify s rI (fun r => { r with state := r.state - u });
             let B := pcbModify A p (fun b => { b with resources := resAdd b.resources rI u });
             let C := pcbModify B p (fun b => { b with state := 1 });
             let D := rcbModify C rI (fun r => { r with waitlist := r.waitlist.tail });
             rlSet D ((pcbGet D p).priority) (rlGet D ((pcbGet D p).priority) ++ [p]))) rfl
        obtain ⟨sInv, sRdy, sAph, sFix, sWl, sRcb, sPcb, sFlds, sRl, sStop⟩ :=
          ih _ tInv
        rw [hred]
        have hwlT : ∀ i, i ∉ wlPids s rI → i ∉ wlPids
            (let A := rcbModify s rI (fun r => { r with state := r.state - u });
             let B := pcbModify A p (fun b => { b with resources := resAdd b.resources rI u });
             let C := pcbModify B p (fun b => { b with state := 1 });
             let D := rcbModify C rI (fun r => { r with waitlist := r.waitlist.tail });
             rlSet D ((pcbGet D p).priority) (rlGet D ((pcbGet D p).priority) ++ [p])) rI := by
          intro i hi
          unfold wlPids at hi ⊢
          rw [tWl]
          rw [hwl0] at hi
          simp only [List.map_cons, List.mem_cons] at hi
          push_neg at hi
          exact hi.2
        have hpwl : p ∈ wlPids s rI := by
          unfold wlPids
          rw [hwl0]
          exact List.mem_map_of_mem Prod.fst (List.mem_cons_self _ _)
        refine ⟨sInv, ?_, ?_, ?_, ?_, ?_, ?_, ?_, ?_, ?_⟩
        · intro i hi hr
          exact sRdy i hi (tRdy i hi hr)
        · intro k hk
          rw [sAph k hk, tAph k hk]
        · intro k hk
          rw [sFix k hk, tFix k hk]
        · obtain ⟨n, hn⟩ := sWl
          refine ⟨n + 1, ?_⟩
          rw [hn, tWl, List.drop_succ_cons]
        · intro k hk hkne
          rw [sRcb k hk hkne, tRcb k hk hkne]
        · intro i hi hiw
          have hip : i ≠ p := fun hh => hiw (hh ▸ hpwl)
          rw [sPcb i hi (hwlT i hiw), tPcb i hi hip]
        · intro i
          obtain ⟨c1, p1, q1⟩ := sFlds i
          obtain ⟨c2, p2, q2⟩ := tFlds i
          exact ⟨c1.trans c2, p1.trans p2, q1.trans q2⟩
        · intro j hj hjw
          have hjp : j ≠ p := fun hh => hjw (hh ▸ hpwl)
          exact sRl j (tRl j hj hjp) (hwlT j hjw)
        · intro hlen
          refine sStop ?_
          rw [tWl]
          simp only [List.length_cons] at hlen
          omega
      · have hred : grantAux rI (fuel + 1) s = s := by
          simp only [grantAux]
          rw [hfw, if_neg hne]
          by_cases hA : (rcbGet s rI).state ≤ 0
          · rw [if_pos hA]
          · rw [if_neg hA, if_neg hgr]
        rw [hred]
        refine ⟨hI, fun i _ hr => hr, fun k _ => rfl, fun k _ => rfl,
          ⟨0, hwl0⟩, fun k _ _ => rfl, fun i _ _ => rfl,
          fun i => ⟨rfl, rfl, rfl⟩, fun j hj _ => hj, ?_⟩
        intro _
        right
        exact ⟨(p, u), wrest, hwl0, by omega⟩


theorem grantScan_spec {s : OSManager} (hI : Inv0 s) {rI : Int} (hrI : rI ∈ r4) :
    Inv0 (grantPossibleWaitingRequests s rI) ∧
    (∀ i ∈ r16, rdy s i → rdy (grantPossibleWaitingRequests s rI) i) ∧
    (∀ k ∈ r4, (rcbGet (grantPossibleWaitingRequests s rI) k).state +
        heldSum (grantPossibleWaitingRequests s rI) k
      = (rcbGet s k).state + heldSum s k) ∧
    (∀ k ∈ r4, (rcbGet (grantPossibleWaitingRequests s rI) k).inventory
      = (rcbGet s k).inventory) ∧
    (∃ n, (rcbGet (grantPossibleWaitingRequests s rI) rI).waitlist
      = (rcbGet s rI).waitlist.drop n) ∧
    (∀ k ∈ r4, k ≠ rI → rcbGet (grantPossibleWaitingRequests s rI) k = rcbGet s k) ∧
    (∀ i ∈ r16, i ∉ wlPids s rI →
      pcbGet (grantPossibleWaitingRequests s rI) i = pcbGet s i) ∧
    (∀ i : Int, (pcbGet (grantPossibleWaitingRequests s rI) i).children
        = (pcbGet s i).children ∧
      (pcbGet (grantPossibleWaitingRequests s rI) i).parent = (pcbGet s i).parent ∧
      (pcbGet (grantPossibleWaitingRequests s rI) i).priority = (pcbGet s i).priority) ∧
    (∀ j : Int, j ∉ rlAll s → j ∉ wlPids s rI →
      j ∉ rlAll (grantPossibleWaitingRequests s rI)) ∧
    ((rcbGet (grantPossibleWaitingRequests s rI) rI).waitlist = [] ∨
      ∃ e rest, (rcbGet (grantPossibleWaitingRequests s rI) rI).waitlist = e :: rest ∧
        (rcbGet (grantPossibleWaitingRequests s rI) rI).state < e.2) := by
  obtain ⟨a, b, c, d, e, f, g, h, i, j⟩ :=
    grantAux_spec hrI ((rcbGet s rI).waitlist.length) s hI
  exact ⟨a, b, c, d, e, f, g, h, i, j le_rfl⟩

theorem allWaitPids_perm_insert {s t : OSManager} {rI x : Int} (hrI : rI ∈ r4)
    (hself : wlPids t rI = wlPids s rI ++ [x])
    (hother : ∀ k ∈ r4, k ≠ rI → wlPids t k = wlPids s k) :
    (allWaitPids t).Perm (x :: allWaitPids s) := by
  refine List.perm_iff_count.2 (fun a => ?_)
  unfold allWaitPids
  rcases (by simp [r4] at hrI; exact hrI : rI = 0 ∨ rI = 1 ∨ rI = 2 ∨ rI = 3)
    with rfl | rfl | rfl | rfl
  · rw [hself, hother 1 (by decide) (by decide), hother 2 (by decide) (by decide),
      hother 3 (by decide) (by decide)]
    simp only [List.count_append, List.count_cons]
    by_cases hax : a = x <;> simp [hax] <;> omega
  · rw [hself, hother 0 (by decide) (by decide), hother 2 (by decide) (by decide),
      hother 3 (by decide) (by decide)]
    simp only [List.count_append, List.count_cons]
    by_cases hax : a = x <;> simp [hax] <;> omega
  · rw [hself, hother 0 (by decide) (by decide), hother 1 (by decide) (by decide),
      hother 3 (by decide) (by decide)]
    simp only [List.count_append, List.count_cons]
    by_cases hax : a = x <;> simp [hax] <;> omega
  · rw [hself, hother 0 (by decide) (by decide), hother 1 (by decide) (by decide),
      hother 2 (by decide) (by decide)]
    simp only [List.count_append, List.count_cons]
    by_cases hax : a = x <;> simp [hax] <;> omega


/-! ### `request`: case analysis and invariant preservation -/

theorem request_cases {s : OSManager} {rI u : Int} {s' : OSManager} (hI : Inv0 s)
    (h : request s rI u = some s') :
    (rI = 0 ∨ rI = 1 ∨ rI = 2 ∨ rI = 3) ∧ 0 < u ∧
    u + heldOf s (currentlyRunning s) rI ≤ (rcbGet s rI).inventory ∧
    currentlyRunning s ≠ 0 ∧
    s'.PCB.length = 16 ∧ s'.RCB.length = 4 ∧ s'.RL.length = 3 ∧
    ((u ≤ (rcbGet s rI).state ∧
      pcbGet s' (currentlyRunning s) = { pcbGet s (currentlyRunning s) with
        resources := resAdd (pcbGet s (currentlyRunning s)).resources rI u } ∧
      (∀ j : Int, 0 ≤ j → j ≠ currentlyRunning s → pcbGet s' j = pcbGet s j) ∧
      rcbGet s' rI = { rcbGet s rI with state := (rcbGet s rI).state - u } ∧
      (∀ k ∈ r4, k ≠ rI → rcbGet s' k = rcbGet s k) ∧
      (∀ q : Int, rlGet s' q = rlGet s q) ∧
      (∀ k : Int, heldSum s' k = heldSum s k + (if k = rI then u else 0))) ∨
     ((rcbGet s rI).state < u ∧
      pcbGet s' (currentlyRunning s) = { pcbGet s (currentlyRunning s) with state := 0 } ∧
      (∀ j : Int, 0 ≤ j → j ≠ currentlyRunning s → pcbGet s' j = pcbGet s j) ∧
      rlGet s' ((pcbGet s (currentlyRunning s)).priority)
        = (rlGet s ((pcbGet s (currentlyRunning s)).priority)).erase (currentlyRunning s) ∧
      (∀ q : Int, pyIdx 3 q ≠ pyIdx 3 ((pcbGet s (currentlyRunning s)).priority) →
        rlGet s' q = rlGet s q) ∧
      rcbGet s' rI = { rcbGet s rI with
        waitlist := (rcbGet s rI).waitlist ++ [(currentlyRunning s, u)] } ∧
      (∀ k ∈ r4, k ≠ rI → rcbGet s' k = rcbGet s k) ∧
      (∀ k : Int, heldSum s' k = heldSum s k))) := by
  obtain ⟨⟨hcr0, hcr15⟩, hcrocc, hcrst, hcrprio, tcr, hcrrl⟩ := cr_props hI
  have hrh := runningAndHeld_eq hI rI
  unfold request at h
  rw [hrh] at h
  split at h
  · simp at h
  next hc1 =>
  push_neg at hc1
  split at h
  · simp at h
  next hc2 =>
  push_neg at hc2
  simp only [] at h
  split at h
  · simp at h
  next hc3 =>
  push_neg at hc3
  split at h
  · simp at h
  next hc4 =>
  split at h
  · simp at h
  next hc5 =>
  have hrImem : rI = 0 ∨ rI = 1 ∨ rI = 2 ∨ rI = 3 := by tauto
  have hr0 : (0 : Int) ≤ rI := by omega
  have hr3 : rI ≤ 3 := by omega
  have hprio0 : 0 ≤ (pcbGet s (currentlyRunning s)).priority := hcrocc
  have hprio2 : (pcbGet s (currentlyRunning s)).priority ≤ 2 := by
    obtain ⟨hp0, hp2⟩ := mem_r3_iff.1 hcrprio
    omega
  split at h
  · -- immediate grant
    next hgr =>
    simp only [Option.some.injEq] at h
    subst h
    refine ⟨hrImem, by omega, by omega, hc4, by simp [hI.lenPCB], by simp [hI.lenRCB],
      by simp [hI.lenRL], Or.inl ⟨hgr, ?_, ?_, ?_, ?_, fun q => rfl, ?_⟩⟩
    · rw [pcbGet_pcbModify_self (by simp [hI.lenPCB]) hcr0 (by omega)]
      rfl
    · intro j hj0 hjcr
      rw [pcbGet_pcbModify_ne (pyIdx_ne hcr0 hj0 (fun hh => hjcr hh.symm))]
      rfl
    · rw [rcbGet_pcbModify, rcbGet_rcbModify_self hI.lenRCB hr0 (by omega)]
    · intro k hk hkne
      obtain ⟨hk0, hk3⟩ := mem_r4_iff.1 hk
      rw [rcbGet_pcbModify, rcbGet_rcbModify_ne (pyIdx_ne hr0 hk0 (fun hh => hkne hh.symm))]
    · intro k
      have := heldSum_pcbModify_resAdd
        (s := rcbModify s rI (fun r => { r with state := r.state - u }))
        (by simp [hI.lenPCB]) hcr0 hcr15 rI u k
      rw [this, heldSum_rcbModify]
  · -- block
    next hgr =>
    push_neg at hgr
    simp only [Option.some.injEq] at h
    subst h
    have hpm : (pcbGet (pcbModify s (currentlyRunning s)
        (fun b => { b with state := 0 })) (currentlyRunning s))
        = { pcbGet s (currentlyRunning s) with state := 0 } :=
      pcbGet_pcbModify_self hI.lenPCB hcr0 (by omega) _
    have hprioeq : (pcbGet (pcbModify s (currentlyRunning s)
        (fun b => { b with state := 0 })) (currentlyRunning s)).priority
        = (pcbGet s (currentlyRunning s)).priority := by
      rw [hpm]
    refine ⟨hrImem, by omega, by omega, hc4, by simp [hI.lenPCB], by simp [hI.lenRCB],
      by simp [hI.lenRL], Or.inr ⟨by omega, ?_, ?_, ?_, ?_, ?_, ?_, ?_⟩⟩
    · rw [pcbGet_rcbModify, pcbGet_rlSet]
      exact hpm
    · intro j hj0 hjcr
      rw [pcbGet_rcbModify, pcbGet_rlSet,
        pcbGet_pcbModify_ne (pyIdx_ne hcr0 hj0 (fun hh => hjcr hh.symm))]
    · rw [rlGet_rcbModify, hprioeq, rlGet_rlSet_self (by simp [hI.lenRL]) hprio0 (by omega)]
      rfl
    · intro q hq
      rw [rlGet_rcbModify, hprioeq, rlGet_rlSet_ne (fun hh => hq hh.symm)]
      rfl
    · rw [rcbGet_rcbModify_self (by simp [hI.lenRCB]) hr0 (by omega)]
      rfl
    · intro k hk hkne
      obtain ⟨hk0, hk3⟩ := mem_r4_iff.1 hk
      rw [rcbGet_rcbModify_ne (pyIdx_ne hr0 hk0 (fun hh => hkne hh.symm))]
      rfl
    · intro k
      exact heldSum_pcbModify_keep (f := fun b => { b with state := (0 : Int) })
        hI.lenPCB hcr0 hcr15 (fun b => rfl) k


theorem request_inv {s : OSManager} {rI u : Int} {s' : OSManager}
    (hI : Inv s) (h : request s rI u = some s') : Inv s' := by
  obtain ⟨hr, hu, hcap, hcrne, L1, L2, L3, hbr⟩ := request_cases hI.toInv0 h
  obtain ⟨⟨hcr0, hcr15⟩, hcrocc, hcrst, hcrprio, tcr, hcrrl⟩ := cr_props hI.toInv0
  have hrmem : rI ∈ r4 := by rcases hr with rfl | rfl | rfl | rfl <;> decide
  obtain ⟨hr0, hr3⟩ := mem_r4_iff.1 hrmem
  have hwl_ne_cr : ∀ k ∈ r4, ∀ e ∈ (rcbGet s k).waitlist,
      e.1 ≠ currentlyRunning s := by
    intro k hk e he hh
    have hst0 := (hI.wl_entry k hk e he).2.2.1
    rw [hh, hcrst] at hst0
    exact absurd hst0 (by decide)
  have hcrnw : currentlyRunning s ∉ allWaitPids s := by
    intro hm
    unfold allWaitPids wlPids at hm
    simp only [List.mem_append, List.mem_map] at hm
    rcases hm with ((⟨e, he, hh⟩ | ⟨e, he, hh⟩) | ⟨e, he, hh⟩) | ⟨e, he, hh⟩
    · exact hwl_ne_cr 0 (by decide) e he hh
    · exact hwl_ne_cr 1 (by decide) e he hh
    · exact hwl_ne_cr 2 (by decide) e he hh
    · exact hwl_ne_cr 3 (by decide) e he hh
  rcases hbr with ⟨hGle, G1, G2, G3, G4, G5, G6⟩ |
    ⟨hBlt, B1, B2, B3, B4, B5, B6, B7⟩
  · -- grant branch
    have hF : ∀ j : Int, 0 ≤ j →
        (pcbGet s' j).priority = (pcbGet s j).priority ∧
        (pcbGet s' j).state = (pcbGet s j).state ∧
        (pcbGet s' j).parent = (pcbGet s j).parent ∧
        (pcbGet s' j).children = (pcbGet s j).children := by
      intro j hj0
      by_cases hjcr : j = currentlyRunning s
      · subst hjcr; rw [G1]; exact ⟨rfl, rfl, rfl, rfl⟩
      · rw [G2 j hj0 hjcr]; exact ⟨rfl, rfl, rfl, rfl⟩
    have hocc_iff : ∀ j : Int, 0 ≤ j → (occupied s' j ↔ occupied s j) := by
      intro j hj0
      unfold occupied
      rw [(hF j hj0).1]
    have hRes : ∀ j : Int, 0 ≤ j → j ≠ currentlyRunning s →
        (pcbGet s' j).resources = (pcbGet s j).resources := by
      intro j hj0 hjcr
      rw [G2 j hj0 hjcr]
    have hRcbW : ∀ k ∈ r4, (rcbGet s' k).waitlist = (rcbGet s k).waitlist := by
      intro k hk
      by_cases hkr : k = rI
      · simp only [hkr, G3]
      · rw [G4 k hk hkr]
    have hRcbI : ∀ k ∈ r4, (rcbGet s' k).inventory = (rcbGet s k).inventory := by
      intro k hk
      by_cases hkr : k = rI
      · simp only [hkr, G3]
      · rw [G4 k hk hkr]
    constructor
    constructor
    · exact L1
    · exact L2
    · exact L3
    · rw [(hF 0 le_rfl).1]; exact hI.root_prio
    · rw [(hF 0 le_rfl).2.1]; exact hI.root_state
    · rw [hRes 0 le_rfl (fun hh => hcrne hh.symm)]; exact hI.root_res
    · rw [G5]; exact hI.root_rl
    · intro i hi hfree
      obtain ⟨hi0, hi15⟩ := mem_r16_iff.1 hi
      by_cases hicr : i = currentlyRunning s
      · subst hicr
        rw [(hF _ hi0).1] at hfree
        unfold occupied at hcrocc
        omega
      · rw [G2 i hi0 hicr] at hfree ⊢
        exact hI.free_default i hi hfree
    · intro i hi ho
      obtain ⟨hi0, _⟩ := mem_r16_iff.1 hi
      rw [(hF i hi0).1]
      exact hI.occ_prio i hi ((hocc_iff i hi0).1 ho)
    · intro i hi ho
      obtain ⟨hi0, _⟩ := mem_r16_iff.1 hi
      rw [(hF i hi0).2.1]
      exact hI.occ_state i hi ((hocc_iff i hi0).1 ho)
    · intro i hi e he
      obtain ⟨hi0, _⟩ := mem_r16_iff.1 hi
      by_cases hicr : i = currentlyRunning s
      · subst hicr
        simp only [G1] at he
        have hnn : 0 ≤ heldOf s (currentlyRunning s) rI :=
          heldOf_nonneg hI.toInv0 hi rI
        unfold heldOf at hnn
        refine resAdd_entries (fun x hx => hI.res_entry _ hi x hx) ?_ e he
        refine ⟨hrmem, ?_⟩
        show 0 ≤ resLookup (pcbGet s (currentlyRunning s)).resources rI + u
        omega
      · rw [hRes i hi0 hicr] at he
        exact hI.res_entry i hi e he
    · intro i hi
      obtain ⟨hi0, _⟩ := mem_r16_iff.1 hi
      by_cases hicr : i = currentlyRunning s
      · subst hicr
        simp only [G1]
        exact resAdd_keys_nodup u (hI.res_nodup _ hi)
      · rw [hRes i hi0 hicr]
        exact hI.res_nodup i hi
    · intro i hi j hj
      obtain ⟨hi0, _⟩ := mem_r16_iff.1 hi
      rw [(hF i hi0).2.2.2] at hj
      obtain ⟨hb, ho, hpar⟩ := hI.child_mem i hi j hj
      refine ⟨hb, (hocc_iff j (by omega)).2 ho, ?_⟩
      rw [(hF j (by omega)).2.2.1]
      exact hpar
    · intro i hi
      obtain ⟨hi0, _⟩ := mem_r16_iff.1 hi
      rw [(hF i hi0).2.2.2]
      exact hI.child_nodup i hi
    · intro q hq j hj
      rw [G5] at hj
      obtain ⟨hb, ho, hst, hpr⟩ := hI.rl_mem q hq j hj
      refine ⟨hb, (hocc_iff j (by omega)).2 ho, ?_, ?_⟩
      · rw [(hF j (by omega)).2.1]; exact hst
      · rw [(hF j (by omega)).1]; exact hpr
    · intro q hq
      rw [G5]
      exact hI.rl_nodup q hq
    · intro k hk e he
      rw [hRcbW k hk] at he
      obtain ⟨hb, ho, hst, hu1⟩ := hI.wl_entry k hk e he
      refine ⟨hb, (hocc_iff e.1 (by omega)).2 ho, ?_, hu1⟩
      rw [(hF e.1 (by omega)).2.1]
      exact hst
    · have hall : allWaitPids s' = allWaitPids s := by
        unfold allWaitPids wlPids
        rw [hRcbW 0 (by decide), hRcbW 1 (by decide), hRcbW 2 (by decide),
          hRcbW 3 (by decide)]
      rw [hall]
      exact hI.wl_nodup
    · intro k hk
      by_cases hkr : k = rI
      · rw [hkr, G3]
        show 0 ≤ (rcbGet s rI).state - u
        omega
      · rw [G4 k hk hkr]
        exact hI.avail_nonneg k hk
    · rw [hRcbI 0 (by decide), hRcbI 1 (by decide), hRcbI 2 (by decide),
        hRcbI 3 (by decide)]
      exact hI.inv_fixed
    · intro i hi ho hst
      obtain ⟨hi0, _⟩ := mem_r16_iff.1 hi
      rw [(hF i hi0).2.1] at hst
      rw [(hF i hi0).1, G5]
      exact hI.ready_in_rl i hi ((hocc_iff i hi0).1 ho) hst
    · intro k hk
      rw [G6 k, hRcbI k hk]
      by_cases hkr : k = rI
      · have hst' : (rcbGet s' k).state = (rcbGet s k).state - u := by
          simp only [hkr, G3]
        rw [hst', if_pos hkr]
        have := hI.conserve k hk
        omega
      · have hst' : (rcbGet s' k).state = (rcbGet s k).state := by
          rw [G4 k hk hkr]
        rw [hst', if_neg hkr]
        have := hI.conserve k hk
        omega
  · -- block branch
    have hF : ∀ j : Int, 0 ≤ j →
        (pcbGet s' j).priority = (pcbGet s j).priority ∧
        (pcbGet s' j).parent = (pcbGet s j).parent ∧
        (pcbGet s' j).children = (pcbGet s j).children ∧
        (pcbGet s' j).resources = (pcbGet s j).resources := by
      intro j hj0
      by_cases hjcr : j = currentlyRunning s
      · subst hjcr; rw [B1]; exact ⟨rfl, rfl, rfl, rfl⟩
      · rw [B2 j hj0 hjcr]; exact ⟨rfl, rfl, rfl, rfl⟩
    have hStP : ∀ j : Int, 0 ≤ j → j ≠ currentlyRunning s →
        (pcbGet s' j).state = (pcbGet s j).state := by
      intro j hj0 hjcr
      rw [B2 j hj0 hjcr]
    have hStCr : (pcbGet s' (currentlyRunning s)).state = 0 := by
      simp only [B1]
    have hocc_iff : ∀ j : Int, 0 ≤ j → (occupied s' j ↔ occupied s j) := by
      intro j hj0
      unfold occupied
      rw [(hF j hj0).1]
    have hRcbW : (rcbGet s' rI).waitlist
        = (rcbGet s rI).waitlist ++ [(currentlyRunning s, u)] := by
      simp only [B5]
    have hRcbSt : ∀ k ∈ r4, (rcbGet s' k).state = (rcbGet s k).state := by
      intro k hk
      by_cases hkr : k = rI
      · simp only [hkr, B5]
      · rw [B6 k hk hkr]
    have hRcbI : ∀ k ∈ r4, (rcbGet s' k).inventory = (rcbGet s k).inventory := by
      intro k hk
      by_cases hkr : k = rI
      · simp only [hkr, B5]
      · rw [B6 k hk hkr]
    constructor
    constructor
    · exact L1
    · exact L2
    · exact L3
    · rw [(hF 0 le_rfl).1]; exact hI.root_prio
    · rw [hStP 0 le_rfl (fun hh => hcrne hh.symm)]; exact hI.root_state
    · rw [(hF 0 le_rfl).2.2.2]; exact hI.root_res
    · by_cases h0p : (0 : Int) = (pcbGet s (currentlyRunning s)).priority
      · have hmem0 : (0 : Int) ∈ rlGet s' ((pcbGet s (currentlyRunning s)).priority) := by
          rw [B3]
          refine (List.mem_erase_of_ne (fun hh => hcrne hh.symm)).2 ?_
          rw [← h0p]
          exact hI.root_rl
        rw [← h0p] at hmem0
        exact hmem0
      · rw [B4 0 (pyIdx_ne le_rfl hcrocc h0p)]
        exact hI.root_rl
    · intro i hi hfree
      obtain ⟨hi0, hi15⟩ := mem_r16_iff.1 hi
      by_cases hicr : i = currentlyRunning s
      · subst hicr
        rw [(hF _ hi0).1] at hfree
        unfold occupied at hcrocc
        omega
      · rw [B2 i hi0 hicr] at hfree ⊢
        exact hI.free_default i hi hfree
    · intro i hi ho
      obtain ⟨hi0, _⟩ := mem_r16_iff.1 hi
      rw [(hF i hi0).1]
      exact hI.occ_prio i hi ((hocc_iff i hi0).1 ho)
    · intro i hi ho
      obtain ⟨hi0, _⟩ := mem_r16_iff.1 hi
      by_cases hicr : i = currentlyRunning s
      · rw [hicr, hStCr]
        exact Or.inl rfl
      · rw [hStP i hi0 hicr]
        exact hI.occ_state i hi ((hocc_iff i hi0).1 ho)
    · intro i hi e he
      obtain ⟨hi0, _⟩ := mem_r16_iff.1 hi
      rw [(hF i hi0).2.2.2] at he
      exact hI.res_entry i hi e he
    · intro i hi
      obtain ⟨hi0, _⟩ := mem_r16_iff.1 hi
      rw [(hF i hi0).2.2.2]
      exact hI.res_nodup i hi
    · intro i hi j hj
      obtain ⟨hi0, _⟩ := mem_r16_iff.1 hi
      rw [(hF i hi0).2.2.1] at hj
      obtain ⟨hb, ho, hpar⟩ := hI.child_mem i hi j hj
      refine ⟨hb, (hocc_iff j (by omega)).2 ho, ?_⟩
      rw [(hF j (by omega)).2.1]
      exact hpar
    · intro i hi
      obtain ⟨hi0, _⟩ := mem_r16_iff.1 hi
      rw [(hF i hi0).2.2.1]
      exact hI.child_nodup i hi
    · intro q hq j hj
      obtain ⟨hq0, hq2⟩ := mem_r3_iff.1 hq
      by_cases hqp : q = (pcbGet s (currentlyRunning s)).priority
      · rw [hqp, B3] at hj
        have hnd := hI.rl_nodup _ (hqp ▸ hq)
        obtain ⟨hjcr, hj'⟩ := (List.Nodup.mem_erase_iff hnd).1 hj
        obtain ⟨hb, ho, hst, hpr⟩ := hI.rl_mem _ (hqp ▸ hq) j hj'
        refine ⟨hb, (hocc_iff j (by omega)).2 ho, ?_, ?_⟩
        · rw [hStP j (by omega) hjcr]; exact hst
        · rw [(hF j (by omega)).1, hqp]; exact hpr
      · rw [B4 q (pyIdx_ne hq0 hcrocc hqp)] at hj
        obtain ⟨hb, ho, hst, hpr⟩ := hI.rl_mem q hq j hj
        have hjcr : j ≠ currentlyRunning s := by
          intro hh
          rw [hh] at hpr
          exact hqp hpr.symm
        refine ⟨hb, (hocc_iff j (by omega)).2 ho, ?_, ?_⟩
        · rw [hStP j (by omega) hjcr]; exact hst
        · rw [(hF j (by omega)).1]; exact hpr
    · intro q hq
      obtain ⟨hq0, _⟩ := mem_r3_iff.1 hq
      by_cases hqp : q = (pcbGet s (currentlyRunning s)).priority
      · rw [hqp, B3]
        exact (hI.rl_nodup _ (hqp ▸ hq)).erase _
      · rw [B4 q (pyIdx_ne hq0 hcrocc hqp)]
        exact hI.rl_nodup q hq
    · intro k hk e he
      by_cases hkr : k = rI
      · rw [hkr, hRcbW, List.mem_append] at he
        rcases he with he | he
        · obtain ⟨hb, ho, hst, hu1⟩ := hI.wl_entry rI hrmem e he
          have hecr : e.1 ≠ currentlyRunning s := hwl_ne_cr rI hrmem e he
          refine ⟨hb, (hocc_iff e.1 (by omega)).2 ho, ?_, hu1⟩
          rw [hStP e.1 (by omega) hecr]
          exact hst
        · simp only [List.mem_singleton] at he
          subst he
          refine ⟨⟨?_, ?_⟩, ?_, ?_, ?_⟩
          · show (1 : Int) ≤ currentlyRunning s
            omega
          · show currentlyRunning s ≤ (15 : Int)
            exact hcr15
          · show occupied s' (currentlyRunning s)
            exact (hocc_iff _ hcr0).2 hcrocc
          · show (pcbGet s' (currentlyRunning s)).state = 0
            exact hStCr
          · show (1 : Int) ≤ u
            omega
      · rw [B6 k hk hkr] at he
        obtain ⟨hb, ho, hst, hu1⟩ := hI.wl_entry k hk e he
        have hecr : e.1 ≠ currentlyRunning s := hwl_ne_cr k hk e he
        refine ⟨hb, (hocc_iff e.1 (by omega)).2 ho, ?_, hu1⟩
        rw [hStP e.1 (by omega) hecr]
        exact hst
    · have hperm : (allWaitPids s').Perm (currentlyRunning s :: allWaitPids s) := by
        refine allWaitPids_perm_insert hrmem ?_ ?_
        · unfold wlPids
          rw [hRcbW, List.map_append]
          rfl
        · intro k hk hkr
          unfold wlPids
          rw [B6 k hk hkr]
      exact hperm.nodup_iff.2 (List.nodup_cons.2 ⟨hcrnw, hI.wl_nodup⟩)
    · intro k hk
      rw [hRcbSt k hk]
      exact hI.avail_nonneg k hk
    · rw [hRcbI 0 (by decide), hRcbI 1 (by decide), hRcbI 2 (by decide),
        hRcbI 3 (by decide)]
      exact hI.inv_fixed
    · intro i hi ho hst
      obtain ⟨hi0, _⟩ := mem_r16_iff.1 hi
      by_cases hicr : i = currentlyRunning s
      · rw [hicr, hStCr] at hst
        exact absurd hst (by decide)
      · rw [hStP i hi0 hicr] at hst
        have hmem := hI.ready_in_rl i hi ((hocc_iff i hi0).1 ho) hst
        rw [(hF i hi0).1]
        by_cases hqp : (pcbGet s i).priority = (pcbGet s (currentlyRunning s)).priority
        · rw [hqp, B3]
          refine (List.mem_erase_of_ne hicr).2 ?_
          rw [← hqp]
          exact hmem
        · rw [B4 _ (pyIdx_ne ((hocc_iff i hi0).1 ho) hcrocc hqp)]
          exact hmem
    · intro k hk
      rw [hRcbSt k hk, hRcbI k hk, B7 k]
      exact hI.conserve k hk


/-! ### `release`: validation and the pre-scan intermediate state -/

theorem release_cases {s : OSManager} {rI u : Int} {s' : OSManager} (hI : Inv0 s)
    (h : release s rI u = some s') :
    (rI = 0 ∨ rI = 1 ∨ rI = 2 ∨ rI = 3) ∧ 0 < u ∧
    u ≤ heldOf s (currentlyRunning s) rI ∧
    s' = grantPossibleWaitingRequests
      (rcbModify (pcbModify s (currentlyRunning s)
          (fun b => { b with resources := resAdd b.resources rI (-u) })) rI
        (fun r => { r with state := r.state + u })) rI := by
  have hrh := runningAndHeld_eq hI rI
  unfold release at h
  rw [hrh] at h
  split at h
  · simp at h
  next hc1 =>
  push_neg at hc1
  split at h
  · simp at h
  next hc2 =>
  push_neg at hc2
  simp only [] at h
  split at h
  · simp at h
  next hc3 =>
  push_neg at hc3
  split at h
  · simp at h
  next hc4 =>
  simp only [Option.some.injEq] at h
  subst h
  exact ⟨by tauto, by omega, by omega, rfl⟩

theorem release_mid_facts {s t : OSManager} (hI : Inv0 s) {rI u : Int}
    (hrI : rI ∈ r4)
    (ht : t = rcbModify (pcbModify s (currentlyRunning s)
        (fun b => { b with resources := resAdd b.resources rI (-u) })) rI
      (fun r => { r with state := r.state + u })) :
    pcbGet t (currentlyRunning s) = { pcbGet s (currentlyRunning s) with
      resources := resAdd (pcbGet s (currentlyRunning s)).resources rI (-u) } ∧
    (∀ j : Int, 0 ≤ j → j ≠ currentlyRunning s → pcbGet t j = pcbGet s j) ∧
    rcbGet t rI = { rcbGet s rI with state := (rcbGet s rI).state + u } ∧
    (∀ k ∈ r4, k ≠ rI → rcbGet t k = rcbGet s k) ∧
    (∀ q : Int, rlGet t q = rlGet s q) ∧
    (∀ k : Int, heldSum t k = heldSum s k + (if k = rI then -u else 0)) ∧
    t.PCB.length = 16 ∧ t.RCB.length = 4 ∧ t.RL.length = 3 := by
  obtain ⟨⟨hcr0, hcr15⟩, hcrocc, hcrst, hcrprio, tcr, hcrrl⟩ := cr_props hI
  obtain ⟨hr0, hr3⟩ := mem_r4_iff.1 hrI
  subst ht
  refine ⟨?_, ?_, ?_, ?_, fun q => by simp, ?_, by simp [hI.lenPCB],
    by simp [hI.lenRCB], by simp [hI.lenRL]⟩
  · rw [pcbGet_rcbModify, pcbGet_pcbModify_self hI.lenPCB hcr0 (by omega)]
  · intro j hj0 hjcr
    rw [pcbGet_rcbModify,
      pcbGet_pcbModify_ne (pyIdx_ne hcr0 hj0 (fun hh => hjcr hh.symm))]
  · rw [rcbGet_rcbModify_self (by simp [hI.lenRCB]) hr0 (by omega), rcbGet_pcbModify]
  · intro k hk hkne
    obtain ⟨hk0, hk3⟩ := mem_r4_iff.1 hk
    rw [rcbGet_rcbModify_ne (pyIdx_ne hr0 hk0 (fun hh => hkne hh.symm)),
      rcbGet_pcbModify]
  · intro k
    have := heldSum_pcbModify_resAdd (s := s) hI.lenPCB hcr0 hcr15 rI (-u) k
    rw [heldSum_rcbModify, this]


theorem release_mid_inv {s : OSManager} (hI : Inv s) {rI u : Int} (hrI : rI ∈ r4)
    (hu : 0 < u) (hle : u ≤ heldOf s (currentlyRunning s) rI) :
    Inv (rcbModify (pcbModify s (currentlyRunning s)
        (fun b => { b with resources := resAdd b.resources rI (-u) })) rI
      (fun r => { r with state := r.state + u })) := by
  obtain ⟨G1, G2, G3, G4, G5, G6, L1, L2, L3⟩ :=
    release_mid_facts hI.toInv0 hrI rfl
  obtain ⟨⟨hcr0, hcr15⟩, hcrocc, hcrst, hcrprio, tcr, hcrrl⟩ := cr_props hI.toInv0
  obtain ⟨hr0, hr3⟩ := mem_r4_iff.1 hrI
  have hcrne : currentlyRunning s ≠ 0 := by
    intro hh
    have hres0 := hI.root_res
    rw [hh] at hle
    unfold heldOf at hle
    rw [hres0] at hle
    simp [resLookup] at hle
    omega
  have hF : ∀ j : Int, 0 ≤ j →
      (pcbGet (rcbModify (pcbModify s (currentlyRunning s)
          (fun b => { b with resources := resAdd b.resources rI (-u) })) rI
        (fun r => { r with state := r.state + u })) j).priority
          = (pcbGet s j).priority ∧
      (pcbGet (rcbModify (pcbModify s (currentlyRunning s)
          (fun b => { b with resources := resAdd b.resources rI (-u) })) rI
        (fun r => { r with state := r.state + u })) j).state = (pcbGet s j).state ∧
      (pcbGet (rcbModify (pcbModify s (currentlyRunning s)
          (fun b => { b with resources := resAdd b.resources rI (-u) })) rI
        (fun r => { r with state := r.state + u })) j).parent = (pcbGet s j).parent ∧
      (pcbGet (rcbModify (pcbModify s (currentlyRunning s)
          (fun b => { b with resources := resAdd b.resources rI (-u) })) rI
        (fun r => { r with state := r.state + u })) j).children
          = (pcbGet s j).children := by
    intro j hj0
    by_cases hjcr : j = currentlyRunning s
    · subst hjcr; rw [G1]; exact ⟨rfl, rfl, rfl, rfl⟩
    · rw [G2 j hj0 hjcr]; exact ⟨rfl, rfl, rfl, rfl⟩
  have hocc_iff : ∀ j : Int, 0 ≤ j →
      (occupied (rcbModify (pcbModify s (currentlyRunning s)
          (fun b => { b with resources := resAdd b.resources rI (-u) })) rI
        (fun r => { r with state := r.state + u })) j ↔ occupied s j) := by
    intro j hj0
    unfold occupied
    rw [(hF j hj0).1]
  have hRes : ∀ j : Int, 0 ≤ j → j ≠ currentlyRunning s →
      (pcbGet (rcbModify (pcbModify s (currentlyRunning s)
          (fun b => { b with resources := resAdd b.resources rI (-u) })) rI
        (fun r => { r with state := r.state + u })) j).resources
          = (pcbGet s j).resources := by
    intro j hj0 hjcr
    rw [G2 j hj0 hjcr]
  have hRcbW : ∀ k ∈ r4,
      (rcbGet (rcbModify (pcbModify s (currentlyRunning s)
          (fun b => { b with resources := resAdd b.resources rI (-u) })) rI
        (fun r => { r with state := r.state + u })) k).waitlist
          = (rcbGet s k).waitlist := by
    intro k hk
    by_cases hkr : k = rI
    · simp only [hkr, G3]
    · rw [G4 k hk hkr]
  have hRcbI : ∀ k ∈ r4,
      (rcbGet (rcbModify (pcbModify s (currentlyRunning s)
          (fun b => { b with resources := resAdd b.resources rI (-u) })) rI
        (fun r => { r with state := r.state + u })) k).inventory
          = (rcbGet s k).inventory := by
    intro k hk
    by_cases hkr : k = rI
    · simp only [hkr, G3]
    · rw [G4 k hk hkr]
  constructor
  constructor
  · exact L1
  · exact L2
  · exact L3
  · rw [(hF 0 le_rfl).1]; exact hI.root_prio
  · rw [(hF 0 le_rfl).2.1]; exact hI.root_state
  · rw [hRes 0 le_rfl (fun hh => hcrne hh.symm)]; exact hI.root_res
  · rw [G5]; exact hI.root_rl
  · intro i hi hfree
    obtain ⟨hi0, hi15⟩ := mem_r16_iff.1 hi
    by_cases hicr : i = currentlyRunning s
    · subst hicr
      rw [(hF _ hi0).1] at hfree
      unfold occupied at hcrocc
      omega
    · rw [G2 i hi0 hicr] at hfree ⊢
      exact hI.free_default i hi hfree
  · intro i hi ho
    obtain ⟨hi0, _⟩ := mem_r16_iff.1 hi
    rw [(hF i hi0).1]
    exact hI.occ_prio i hi ((hocc_iff i hi0).1 ho)
  · intro i hi ho
    obtain ⟨hi0, _⟩ := mem_r16_iff.1 hi
    rw [(hF i hi0).2.1]
    exact hI.occ_state i hi ((hocc_iff i hi0).1 ho)
  · intro i hi e he
    obtain ⟨hi0, _⟩ := mem_r16_iff.1 hi
    by_cases hicr : i = currentlyRunning s
    · subst hicr
      simp only [G1] at he
      unfold heldOf at hle
      refine resAdd_entries (fun x hx => hI.res_entry _ hi x hx) ?_ e he
      refine ⟨hrI, ?_⟩
      show 0 ≤ resLookup (pcbGet s (currentlyRunning s)).resources rI + -u
      omega
    · rw [hRes i hi0 hicr] at he
      exact hI.res_entry i hi e he
  · intro i hi
    obtain ⟨hi0, _⟩ := mem_r16_iff.1 hi
    by_cases hicr : i = currentlyRunning s
    · subst hicr
      simp only [G1]
      exact resAdd_keys_nodup (-u) (hI.res_nodup _ hi)
    · rw [hRes i hi0 hicr]
      exact hI.res_nodup i hi
  · intro i hi j hj
    obtain ⟨hi0, _⟩ := mem_r16_iff.1 hi
    rw [(hF i hi0).2.2.2] at hj
    obtain ⟨hb, ho, hpar⟩ := hI.child_mem i hi j hj
    refine ⟨hb, (hocc_iff j (by omega)).2 ho, ?_⟩
    rw [(hF j (by omega)).2.2.1]
    exact hpar
  · intro i hi
    obtain ⟨hi0, _⟩ := mem_r16_iff.1 hi
    rw [(hF i hi0).2.2.2]
    exact hI.child_nodup i hi
  · intro q hq j hj
    rw [G5] at hj
    obtain ⟨hb, ho, hst, hpr⟩ := hI.rl_mem q hq j hj
    refine ⟨hb, (hocc_iff j (by omega)).2 ho, ?_, ?_⟩
    · rw [(hF j (by omega)).2.1]; exact hst
    · rw [(hF j (by omega)).1]; exact hpr
  · intro q hq
    rw [G5]
    exact hI.rl_nodup q hq
  · intro k hk e he
    rw [hRcbW k hk] at he
    obtain ⟨hb, ho, hst, hu1⟩ := hI.wl_entry k hk e he
    refine ⟨hb, (hocc_iff e.1 (by omega)).2 ho, ?_, hu1⟩
    rw [(hF e.1 (by omega)).2.1]
    exact hst
  · have hall : allWaitPids (rcbModify (pcbModify s (currentlyRunning s)
        (fun b => { b with resources := resAdd b.resources rI (-u) })) rI
      (fun r => { r with state := r.state + u })) = allWaitPids s := by
      unfold allWaitPids wlPids
      rw [hRcbW 0 (by decide), hRcbW 1 (by decide), hRcbW 2 (by decide),
        hRcbW 3 (by decide)]
    rw [hall]
    exact hI.wl_nodup
  · intro k hk
    by_cases hkr : k = rI
    · rw [hkr, G3]
      show 0 ≤ (rcbGet s rI).state + u
      have := hI.avail_nonneg rI hrI
      omega
    · rw [G4 k hk hkr]
      exact hI.avail_nonneg k hk
  · rw [hRcbI 0 (by decide), hRcbI 1 (by decide), hRcbI 2 (by decide),
      hRcbI 3 (by decide)]
    exact hI.inv_fixed
  · intro i hi ho hst
    obtain ⟨hi0, _⟩ := mem_r16_iff.1 hi
    rw [(hF i hi0).2.1] at hst
    rw [(hF i hi0).1, G5]
    exact hI.ready_in_rl i hi ((hocc_iff i hi0).1 ho) hst
  · intro k hk
    rw [G6 k, hRcbI k hk]
    by_cases hkr : k = rI
    · have hst' : (rcbGet (rcbModify (pcbModify s (currentlyRunning s)
          (fun b => { b with resources := resAdd b.resources rI (-u) })) rI
        (fun r => { r with state := r.state + u })) k).state
            = (rcbGet s k).state + u := by
        simp only [hkr, G3]
      rw [hst', if_pos hkr]
      have := hI.conserve k hk
      omega
    · have hst' : (rcbGet (rcbModify (pcbModify s (currentlyRunning s)
          (fun b => { b with resources := resAdd b.resources rI (-u) })) rI
        (fun r => { r with state := r.state + u })) k).state
            = (rcbGet s k).state := by
        rw [G4 k hk hkr]
      rw [hst', if_neg hkr]
      have := hI.conserve k hk
      omega

theorem release_inv {s : OSManager} {rI u : Int} {s' : OSManager}
    (hI : Inv s) (h : release s rI u = some s') : Inv s' := by
  obtain ⟨hr, hu, hle, heq⟩ := release_cases hI.toInv0 h
  have hrmem : rI ∈ r4 := by rcases hr with rfl | rfl | rfl | rfl <;> decide
  have hmid := release_mid_inv hI hrmem hu hle
  subst heq
  obtain ⟨hI0g, hrdyg, hconsg, hinvg, _, _, _, _, _, _⟩ :=
    grantScan_spec hmid.toInv0 hrmem
  refine ⟨hI0g, ?_, ?_⟩
  · intro i hi
    exact hrdyg i hi (hmid.ready_in_rl i hi)
  · intro k hk
    have h1 := hconsg k hk
    have h2 := hinvg k hk
    have h3 := hmid.conserve k hk
    omega


/-! ### Indexing case lemmas for `destroy` -/

theorem set_of_length_le {α} : ∀ (l : List α) (n : Nat) (a : α),
    l.length ≤ n → l.set n a = l
  | [], _, _, _ => rfl
  | x :: xs, n, a, h => by
    cases n with
    | zero => simp at h
    | succ m =>
      simp only [List.set]
      rw [set_of_length_le xs m a (by simpa using h)]

theorem getD_of_length_le {α} {l : List α} {n : Nat} (d : α)
    (h : l.length ≤ n) : l.getD n d = d := by
  unfold List.getD
  rw [List.get?_eq_none.2 h]
  rfl

theorem pcbGet_pcbModify_cases (s : OSManager)
    (f : ProcessControlBlock → ProcessControlBlock) (i j : Int) :
    pcbGet (pcbModify s i f) j = pcbGet s j ∨
    (pcbGet s j = pcbGet s i ∧ pcbGet (pcbModify s i f) j = f (pcbGet s i)) := by
  by_cases hij : pyIdx 16 j = pyIdx 16 i
  · by_cases hlt : pyIdx 16 i < s.PCB.length
    · right
      refine ⟨pcbGet_congr hij, ?_⟩
      show (s.PCB.set (pyIdx 16 i) (f (pcbGet s i))).getD (pyIdx 16 j) freePCB
        = f (pcbGet s i)
      rw [hij]
      exact getD_set_self _ _ hlt
    · left
      show (s.PCB.set (pyIdx 16 i) (f (pcbGet s i))).getD (pyIdx 16 j) freePCB
        = pcbGet s j
      rw [set_of_length_le _ _ _ (by omega)]
      rfl
  · left
    show (s.PCB.set (pyIdx 16 i) (f (pcbGet s i))).getD (pyIdx 16 j) freePCB
      = pcbGet s j
    exact getD_set_ne _ _ (fun hh => hij hh.symm)

theorem pcbGet_pcbModify_self_or {s : OSManager} (h16 : s.PCB.length = 16)
    (i : Int) (f : ProcessControlBlock → ProcessControlBlock) :
    pcbGet (pcbModify s i f) i = f (pcbGet s i) ∨
    (pcbGet s i = freePCB ∧ pcbGet (pcbModify s i f) i = freePCB) := by
  by_cases hlt : pyIdx 16 i < 16
  · left
    show (s.PCB.set (pyIdx 16 i) (f (pcbGet s i))).getD (pyIdx 16 i) freePCB
      = f (pcbGet s i)
    exact getD_set_self _ _ (by omega)
  · right
    have hdef : pcbGet s i = freePCB := by
      unfold pcbGet
      exact getD_of_length_le _ (by omega)
    refine ⟨hdef, ?_⟩
    show (s.PCB.set (pyIdx 16 i) (f (pcbGet s i))).getD (pyIdx 16 i) freePCB = freePCB
    rw [set_of_length_le _ _ _ (by omega)]
    exact getD_of_length_le _ (by omega)

theorem rcbGet_rcbModify_cases (s : OSManager)
    (f : ResourceControlBlock → ResourceControlBlock) (i j : Int) :
    rcbGet (rcbModify s i f) j = rcbGet s j ∨
    (rcbGet s j = rcbGet s i ∧ rcbGet (rcbModify s i f) j = f (rcbGet s i)) := by
  by_cases hij : pyIdx 4 j = pyIdx 4 i
  · by_cases hlt : pyIdx 4 i < s.RCB.length
    · right
      constructor
      · show s.RCB.getD (pyIdx 4 j) emptyRCB = s.RCB.getD (pyIdx 4 i) emptyRCB
        rw [hij]
      · show (s.RCB.set (pyIdx 4 i) (f (rcbGet s i))).getD (pyIdx 4 j) emptyRCB
          = f (rcbGet s i)
        rw [hij]
        exact getD_set_self _ _ hlt
    · left
      show (s.RCB.set (pyIdx 4 i) (f (rcbGet s i))).getD (pyIdx 4 j) emptyRCB
        = rcbGet s j
      rw [set_of_length_le _ _ _ (by omega)]
      rfl
  · left
    show (s.RCB.set (pyIdx 4 i) (f (rcbGet s i))).getD (pyIdx 4 j) emptyRCB
      = rcbGet s j
    exact getD_set_ne _ _ (fun hh => hij hh.symm)


/-! ### `removeFromWaitlists` facts -/

theorem heldSum_congr {s t : OSManager}
    (h : ∀ i : Int, (pcbGet t i).resources = (pcbGet s i).resources) (k : Int) :
    heldSum t k = heldSum s k := by
  unfold heldSum
  have he : (fun i => heldOf t i k) = (fun i => heldOf s i k) :=
    funext (fun i => by unfold heldOf; rw [h i])
  rw [he]

theorem removeFirstPid_mem {wl : List (Int × Int)} {p : Int} {wl' : List (Int × Int)}
    (h : removeFirstPid wl p = some wl') : p ∈ wl.map Prod.fst := by
  by_contra hp
  have hnone : removeFirstPid wl p = none :=
    removeFirstPid_of_not_mem
      (fun e he hh => hp (by rw [← hh]; exact List.mem_map_of_mem _ he))
  rw [hnone] at h
  simp at h

theorem removeFirstPid_map_erase {wl wl' : List (Int × Int)} {p : Int}
    (h : removeFirstPid wl p = some wl') :
    wl'.map Prod.fst = (wl.map Prod.fst).erase p := by
  induction wl generalizing wl' with
  | nil => simp [removeFirstPid] at h
  | cons a rest ih =>
    rw [removeFirstPid] at h
    split at h
    next heq =>
      simp only [Option.some.injEq] at h
      subst h
      rw [List.map_cons, heq, List.erase_cons_head]
    next hne =>
      rcases hr : removeFirstPid rest p with _ | rest'
      · rw [hr] at h; simp at h
      · rw [hr] at h
        simp at h
        subst h
        rw [List.map_cons, List.map_cons, ih hr, List.erase_cons,
          if_neg (by simpa using hne)]

theorem removeFromWaitlistsGo_facts (p : Int) :
    ∀ (L : List Int) (s : OSManager),
      (∀ i : Int, pcbGet (removeFromWaitlistsGo p L s) i = pcbGet s i) ∧
      (∀ q : Int, rlGet (removeFromWaitlistsGo p L s) q = rlGet s q) ∧
      (∀ k : Int, (rcbGet (removeFromWaitlistsGo p L s) k).state
        = (rcbGet s k).state) ∧
      (∀ k : Int, (rcbGet (removeFromWaitlistsGo p L s) k).inventory
        = (rcbGet s k).inventory) ∧
      (∀ k : Int, ((rcbGet (removeFromWaitlistsGo p L s) k).waitlist).Sublist
        (rcbGet s k).waitlist) ∧
      (∀ k : Int, heldSum (removeFromWaitlistsGo p L s) k = heldSum s k) := by
  intro L
  induction L with
  | nil =>
    exact fun s => ⟨fun i => rfl, fun q => rfl, fun k => rfl, fun k => rfl,
      fun k => List.Sublist.refl _, fun k => rfl⟩
  | cons i rest ih =>
    intro s
    rcases hm : removeFirstPid (rcbGet s i).waitlist p with _ | wl
    · have hred : removeFromWaitlistsGo p (i :: rest) s
          = removeFromWaitlistsGo p rest s := by
        conv_lhs => rw [removeFromWaitlistsGo]
        rw [hm]
      rw [hred]
      exact ih s
    · have hred : removeFromWaitlistsGo p (i :: rest) s
          = rcbModify s i (fun r => { r with waitlist := wl }) := by
        conv_lhs => rw [removeFromWaitlistsGo]
        rw [hm]
      rw [hred]
      refine ⟨fun j => by simp, fun q => by simp, ?_, ?_, ?_,
        fun k => by rw [heldSum_rcbModify]⟩
      · intro k
        rcases rcbGet_rcbModify_cases s (fun r => { r with waitlist := wl }) i k
          with h | ⟨he, h⟩
        · rw [h]
        · simp only [h, he]
      · intro k
        rcases rcbGet_rcbModify_cases s (fun r => { r with waitlist := wl }) i k
          with h | ⟨he, h⟩
        · rw [h]
        · simp only [h, he]
      · intro k
        rcases rcbGet_rcbModify_cases s (fun r => { r with waitlist := wl }) i k
          with h | ⟨he, h⟩
        · rw [h]
        · simp only [h, he]
          exact removeFirstPid_sublist hm


theorem removeFromWaitlistsGo_wlPids {p : Int} :
    ∀ (L : List Int) (s : OSManager), s.RCB.length = 4 →
      (∀ i ∈ L, i ∈ r4) → (allWaitPids s).Nodup →
      (∀ k ∈ r4, k ∉ L → p ∉ wlPids s k) →
      ∀ k ∈ r4, wlPids (removeFromWaitlistsGo p L s) k = (wlPids s k).erase p := by
  intro L
  induction L with
  | nil =>
    intro s h4 _ hnd hout k hk
    exact (List.erase_of_not_mem (hout k hk (by simp))).symm
  | cons i rest ih =>
    intro s h4 hL hnd hout k hk
    have hi4 : i ∈ r4 := hL i (List.mem_cons_self _ _)
    obtain ⟨hi0, hi3⟩ := mem_r4_iff.1 hi4
    obtain ⟨hk0, hk3⟩ := mem_r4_iff.1 hk
    rcases hm : removeFirstPid (rcbGet s i).waitlist p with _ | wl
    · have hred : removeFromWaitlistsGo p (i :: rest) s
          = removeFromWaitlistsGo p rest s := by
        conv_lhs => rw [removeFromWaitlistsGo]
        rw [hm]
      rw [hred]
      refine ih s h4 (fun j hj => hL j (List.mem_cons_of_mem _ hj)) hnd ?_ k hk
      intro k' hk' hk'r
      by_cases hk'i : k' = i
      · subst hk'i
        intro hmem
        unfold wlPids at hmem
        rcases List.mem_map.1 hmem with ⟨e, he, hh⟩
        exact removeFirstPid_none hm e he hh
      · refine hout k' hk' ?_
        intro hmem
        rcases List.mem_cons.1 hmem with hh | hh
        · exact hk'i hh
        · exact hk'r hh
    · have hred : removeFromWaitlistsGo p (i :: rest) s
          = rcbModify s i (fun r => { r with waitlist := wl }) := by
        conv_lhs => rw [removeFromWaitlistsGo]
        rw [hm]
      rw [hred]
      have hpmem : p ∈ wlPids s i := by
        unfold wlPids
        exact removeFirstPid_mem hm
      by_cases hki : k = i
      · subst hki
        unfold wlPids
        rw [rcbGet_rcbModify_self h4 hk0 (by omega)]
        exact removeFirstPid_map_erase hm
      · unfold wlPids
        rw [rcbGet_rcbModify_ne (pyIdx_ne hi0 hk0 (fun hh => hki hh.symm))]
        exact (List.erase_of_not_mem
          (allWait_disj hnd i hi4 k hk (fun hh => hki hh.symm) p hpmem)).symm

theorem removeFromWaitlists_wlPids {s : OSManager} (h4 : s.RCB.length = 4)
    (hnd : (allWaitPids s).Nodup) (p : Int) :
    ∀ k ∈ r4, wlPids (removeFromWaitlists s p) k = (wlPids s k).erase p := by
  refine removeFromWaitlistsGo_wlPids [0, 1, 2, 3] s h4 (fun i hi => hi) hnd ?_
  intro k hk hknot
  exact absurd hk hknot


/-! ### `finalizeDestroy` on an already-free slot is the identity -/

theorem pcbModify_id {s : OSManager} {i : Int}
    {f : ProcessControlBlock → ProcessControlBlock}
    (h : f (pcbGet s i) = pcbGet s i) : pcbModify s i f = s := by
  unfold pcbModify pcbSet
  rw [h]
  show { s with PCB := s.PCB.set (pyIdx 16 i) (s.PCB.getD (pyIdx 16 i) freePCB) } = s
  rw [set_getD_self]

theorem pcbGet_repr {s : OSManager} (h16 : s.PCB.length = 16) (i : Int) :
    pcbGet s i = freePCB ∨ ∃ i' : Int, i' ∈ r16 ∧ pcbGet s i = pcbGet s i' := by
  by_cases h : pyIdx 16 i < 16
  · right
    refine ⟨(pyIdx 16 i : Int), mem_r16_iff.2 ⟨Int.natCast_nonneg _, by omega⟩, ?_⟩
    refine pcbGet_congr ?_
    rw [pyIdx_of_nonneg (Int.natCast_nonneg _)]
    simp
  · left
    unfold pcbGet
    exact getD_of_length_le _ (by omega)

theorem not_mem_children_of_free {s : OSManager} (hI : Inv0 s) {c : Int}
    (hfree : pcbGet s c = freePCB) : ∀ i : Int, c ∉ (pcbGet s i).children := by
  intro i hmem
  rcases pcbGet_repr hI.lenPCB i with hf | ⟨i', hi', he⟩
  · rw [hf] at hmem
    simp [freePCB] at hmem
  · rw [he] at hmem
    have hocc := (hI.child_mem i' hi' c hmem).2.1
    unfold occupied at hocc
    rw [hfree] at hocc
    exact absurd hocc (by decide)

theorem removeFromWaitlistsGo_id {p : Int} : ∀ (L : List Int) (s : OSManager),
    (∀ i ∈ L, removeFirstPid (rcbGet s i).waitlist p = none) →
    removeFromWaitlistsGo p L s = s := by
  intro L
  induction L with
  | nil => exact fun s _ => rfl
  | cons i rest ih =>
    intro s hL
    conv_lhs => rw [removeFromWaitlistsGo]
    rw [hL i (List.mem_cons_self _ _)]
    exact ih s (fun j hj => hL j (List.mem_cons_of_mem _ hj))

theorem removeFromWaitlists_not_waiting {s : OSManager} (hI : Inv0 s) {p : Int}
    (hfree : pcbGet s p = freePCB) : removeFromWaitlists s p = s := by
  refine removeFromWaitlistsGo_id [0, 1, 2, 3] s ?_
  intro i hi
  refine removeFirstPid_of_not_mem ?_
  intro e he hh
  have hocc := (hI.wl_entry i hi e he).2.1
  rw [hh] at hocc
  unfold occupied at hocc
  rw [hfree] at hocc
  exact absurd hocc (by decide)

theorem finalizeDestroy_free {s : OSManager} (hI : Inv0 s) {c : Int}
    (hfree : pcbGet s c = freePCB) : finalizeDestroy s c = s := by
  have h2 : pcbModify s (pcbGet s c).parent
      (fun b => { b with children := b.children.erase c }) = s := by
    refine pcbModify_id ?_
    show { pcbGet s (pcbGet s c).parent with
      children := (pcbGet s (pcbGet s c).parent).children.erase c }
        = pcbGet s (pcbGet s c).parent
    rw [List.erase_of_not_mem (not_mem_children_of_free hI hfree _)]
  unfold finalizeDestroy
  simp only []
  rw [h2, hfree]
  rw [if_neg (by decide)]
  rw [removeFromWaitlists_not_waiting hI hfree, hfree]
  show pcbSet (List.foldl _ s freePCB.resources) c freePCB = s
  rw [show freePCB.resources = [] from rfl, List.foldl_nil]
  unfold pcbSet
  rw [← hfree]
  show { s with PCB := s.PCB.set (pyIdx 16 c) (s.PCB.getD (pyIdx 16 c) freePCB) } = s
  rw [set_getD_self]


/-! ### Invariant transfer along PCB/RL-preserving RCB edits -/

theorem Inv0_congr {s t : OSManager} (hI : Inv0 s)
    (hP : t.PCB = s.PCB) (hRL : t.RL = s.RL) (hlen : t.RCB.length = 4)
    (hst : ∀ k ∈ r4, 0 ≤ (rcbGet t k).state)
    (hinv : ∀ k ∈ r4, (rcbGet t k).inventory = (rcbGet s k).inventory)
    (hwl : ∀ k ∈ r4, (rcbGet t k).waitlist.Sublist (rcbGet s k).waitlist) :
    Inv0 t := by
  have hpcb : ∀ i : Int, pcbGet t i = pcbGet s i := by
    intro i; unfold pcbGet; rw [hP]
  have hrl : ∀ q : Int, rlGet t q = rlGet s q := by
    intro q; unfold rlGet; rw [hRL]
  have hocc : ∀ i : Int, occupied t i ↔ occupied s i := by
    intro i; unfold occupied; rw [hpcb]
  constructor
  · rw [hP]; exact hI.lenPCB
  · exact hlen
  · rw [hRL]; exact hI.lenRL
  · rw [hpcb]; exact hI.root_prio
  · rw [hpcb]; exact hI.root_state
  · rw [hpcb]; exact hI.root_res
  · rw [hrl]; exact hI.root_rl
  · intro i hi hf
    rw [hpcb] at hf ⊢
    exact hI.free_default i hi hf
  · intro i hi ho
    rw [hpcb]
    exact hI.occ_prio i hi ((hocc i).1 ho)
  · intro i hi ho
    rw [hpcb]
    exact hI.occ_state i hi ((hocc i).1 ho)
  · intro i hi e he
    rw [hpcb] at he
    exact hI.res_entry i hi e he
  · intro i hi
    rw [hpcb]
    exact hI.res_nodup i hi
  · intro i hi j hj
    rw [hpcb] at hj
    obtain ⟨hb, ho, hpar⟩ := hI.child_mem i hi j hj
    exact ⟨hb, (hocc j).2 ho, by rw [hpcb]; exact hpar⟩
  · intro i hi
    rw [hpcb]
    exact hI.child_nodup i hi
  · intro q hq j hj
    rw [hrl] at hj
    obtain ⟨hb, ho, hs1, hpr⟩ := hI.rl_mem q hq j hj
    exact ⟨hb, (hocc j).2 ho, by rw [hpcb]; exact hs1, by rw [hpcb]; exact hpr⟩
  · intro q hq
    rw [hrl]
    exact hI.rl_nodup q hq
  · intro k hk e he
    have he' := (hwl k hk).mem he
    obtain ⟨hb, ho, hs0, hu⟩ := hI.wl_entry k hk e he'
    exact ⟨hb, (hocc e.1).2 ho, by rw [hpcb]; exact hs0, hu⟩
  · exact (allWaitPids_sublist (hwl 0 (by decide)) (hwl 1 (by decide))
      (hwl 2 (by decide)) (hwl 3 (by decide))).nodup hI.wl_nodup
  · exact hst
  · rw [hinv 0 (by decide), hinv 1 (by decide), hinv 2 (by decide),
      hinv 3 (by decide)]
    exact hI.inv_fixed

theorem rdy_congr {s t : OSManager} (hP : t.PCB = s.PCB) (hRL : t.RL = s.RL)
    {i : Int} (h : rdy s i) : rdy t i := by
  have hpcb : ∀ j : Int, pcbGet t j = pcbGet s j := by
    intro j; unfold pcbGet; rw [hP]
  have hrl : ∀ q : Int, rlGet t q = rlGet s q := by
    intro q; unfold rlGet; rw [hRL]
  intro ho hs
  rw [hpcb] at hs
  rw [hpcb, hrl]
  unfold occupied at ho
  rw [hpcb] at ho
  exact h ho hs

theorem rlAll_congr {s t : OSManager} (hRL : t.RL = s.RL) :
    rlAll t = rlAll s := by
  unfold rlAll rlGet
  rw [hRL]


/-! ### The resource-return fold of `finalizeDestroy` -/

theorem returnFold_facts (c : Int) :
    ∀ (es : List (Int × Int)) (acc : OSManager), Inv0 acc →
      (∀ e ∈ es, e.1 ∈ r4 ∧ 0 ≤ e.2) →
      (∀ k ∈ r4, c ∉ wlPids acc k) → c ∉ rlAll acc →
      Inv0 (es.foldl (fun acc e => grantPossibleWaitingRequests
          (rcbModify acc e.1 (fun r => { r with state := r.state + e.2 })) e.1) acc) ∧
      (∀ i ∈ r16, rdy acc i → rdy (es.foldl (fun acc e => grantPossibleWaitingRequests
          (rcbModify acc e.1 (fun r => { r with state := r.state + e.2 })) e.1) acc) i) ∧
      (∀ k ∈ r4, (rcbGet (es.foldl (fun acc e => grantPossibleWaitingRequests
            (rcbModify acc e.1 (fun r => { r with state := r.state + e.2 })) e.1) acc) k).state
          + heldSum (es.foldl (fun acc e => grantPossibleWaitingRequests
            (rcbModify acc e.1 (fun r => { r with state := r.state + e.2 })) e.1) acc) k
        = (rcbGet acc k).state + heldSum acc k
          + (es.map (fun e => if e.1 = k then e.2 else 0)).sum) ∧
      (∀ k ∈ r4, (rcbGet (es.foldl (fun acc e => grantPossibleWaitingRequests
            (rcbModify acc e.1 (fun r => { r with state := r.state + e.2 })) e.1) acc) k).inventory
        = (rcbGet acc k).inventory) ∧
      (∀ j ∈ r16, (∀ k ∈ r4, j ∉ wlPids acc k) →
        pcbGet (es.foldl (fun acc e => grantPossibleWaitingRequests
          (rcbModify acc e.1 (fun r => { r with state := r.state + e.2 })) e.1) acc) j
        = pcbGet acc j) ∧
      (∀ k ∈ r4, ∀ j : Int, j ∉ wlPids acc k →
        j ∉ wlPids (es.foldl (fun acc e => grantPossibleWaitingRequests
          (rcbModify acc e.1 (fun r => { r with state := r.state + e.2 })) e.1) acc) k) ∧
      (∀ i : Int,
        (pcbGet (es.foldl (fun acc e => grantPossibleWaitingRequests
          (rcbModify acc e.1 (fun r => { r with state := r.state + e.2 })) e.1) acc) i).children
          = (pcbGet acc i).children ∧
        (pcbGet (es.foldl (fun acc e => grantPossibleWaitingRequests
          (rcbModify acc e.1 (fun r => { r with state := r.state + e.2 })) e.1) acc) i).parent
          = (pcbGet acc i).parent ∧
        (pcbGet (es.foldl (fun acc e => grantPossibleWaitingRequests
          (rcbModify acc e.1 (fun r => { r with state := r.state + e.2 })) e.1) acc) i).priority
          = (pcbGet acc i).priority) ∧
      c ∉ rlAll (es.foldl (fun acc e => grantPossibleWaitingRequests
        (rcbModify acc e.1 (fun r => { r with state := r.state + e.2 })) e.1) acc) := by
  intro es
  induction es with
  | nil =>
    intro acc hI _ hcw hcr
    exact ⟨hI, fun i _ h => h, fun k _ => by simp, fun k _ => rfl,
      fun j _ _ => rfl, fun k hk j h => h, fun i => ⟨rfl, rfl, rfl⟩, hcr⟩
  | cons e rest ih =>
    intro acc hI hes hcw hcr
    have he4 : e.1 ∈ r4 := (hes e (List.mem_cons_self _ _)).1
    have he2 : 0 ≤ e.2 := (hes e (List.mem_cons_self _ _)).2
    obtain ⟨he0, he3⟩ := mem_r4_iff.1 he4
    have hrcbm : ∀ k ∈ r4,
        rcbGet (rcbModify acc e.1 (fun r => { r with state := r.state + e.2 })) k
          = if k = e.1 then { rcbGet acc e.1 with state := (rcbGet acc e.1).state + e.2 }
            else rcbGet acc k := by
      intro k hk
      obtain ⟨hk0, hk3⟩ := mem_r4_iff.1 hk
      by_cases hke : k = e.1
      · rw [if_pos hke, hke, rcbGet_rcbModify_self hI.lenRCB he0 (by omega)]
      · rw [if_neg hke,
          rcbGet_rcbModify_ne (pyIdx_ne he0 hk0 (fun hh => hke hh.symm))]
    have hIm : Inv0 (rcbModify acc e.1 (fun r => { r with state := r.state + e.2 })) := by
      refine Inv0_congr hI rfl rfl (by simp [hI.lenRCB]) ?_ ?_ ?_
      · intro k hk
        rw [hrcbm k hk]
        by_cases hke : k = e.1
        · rw [if_pos hke]
          have := hI.avail_nonneg e.1 he4
          show 0 ≤ (rcbGet acc e.1).state + e.2
          omega
        · rw [if_neg hke]
          exact hI.avail_nonneg k hk
      · intro k hk
        rw [hrcbm k hk]
        by_cases hke : k = e.1
        · rw [if_pos hke, hke]
        · rw [if_neg hke]
      · intro k hk
        rw [hrcbm k hk]
        by_cases hke : k = e.1
        · rw [if_pos hke, hke]
        · rw [if_neg hke]
    have hwlm : ∀ k ∈ r4,
        wlPids (rcbModify acc e.1 (fun r => { r with state := r.state + e.2 })) k
          = wlPids acc k := by
      intro k hk
      unfold wlPids
      rw [hrcbm k hk]
      by_cases hke : k = e.1
      · rw [if_pos hke, hke]
      · rw [if_neg hke]
    obtain ⟨g1, g2, g3, g4, g5, g6, g7, g8, g9, g10⟩ := grantScan_spec hIm he4
    have hwlg : ∀ k ∈ r4, ∀ j : Int, j ∉ wlPids acc k →
        j ∉ wlPids (grantPossibleWaitingRequests
          (rcbModify acc e.1 (fun r => { r with state := r.state + e.2 })) e.1) k := by
      intro k hk j hj hmem
      rw [← hwlm k hk] at hj
      by_cases hke : k = e.1
      · subst hke
        obtain ⟨n, hn⟩ := g5
        unfold wlPids at hmem
        rw [hn] at hmem
        rcases List.mem_map.1 hmem with ⟨x, hx, hh⟩
        refine hj ?_
        unfold wlPids
        rw [← hh]
        exact List.mem_map_of_mem _ (List.mem_of_mem_drop hx)
      · unfold wlPids at hmem
        rw [g6 k hk hke] at hmem
        exact hj hmem
    have hpcbg : ∀ j ∈ r16, (∀ k ∈ r4, j ∉ wlPids acc k) →
        pcbGet (grantPossibleWaitingRequests
          (rcbModify acc e.1 (fun r => { r with state := r.state + e.2 })) e.1) j
        = pcbGet acc j := by
      intro j hj hjw
      rw [g7 j hj (by rw [hwlm e.1 he4]; exact hjw e.1 he4)]
      rfl
    have hcrg : c ∉ rlAll (grantPossibleWaitingRequests
        (rcbModify acc e.1 (fun r => { r with state := r.state + e.2 })) e.1) := by
      refine g9 c ?_ ?_
      · rw [rlAll_congr
          (t := rcbModify acc e.1 (fun r => { r with state := r.state + e.2 }))
          (s := acc) rfl]
        exact hcr
      · rw [hwlm e.1 he4]
        exact hcw e.1 he4
    rw [List.foldl_cons]
    obtain ⟨i1, i2, i3, i4, i5, i6, i7, i8⟩ := ih
      (grantPossibleWaitingRequests
        (rcbModify acc e.1 (fun r => { r with state := r.state + e.2 })) e.1)
      g1 (fun x hx => hes x (List.mem_cons_of_mem _ hx))
      (fun k hk => hwlg k hk c (hcw k hk)) hcrg
    refine ⟨i1, ?_, ?_, ?_, ?_, ?_, ?_, i8⟩
    · intro i hi hr
      exact i2 i hi (g2 i hi (rdy_congr rfl rfl hr))
    · intro k hk
      have h3 := i3 k hk
      have hg3 := g3 k hk
      have hm3 : (rcbGet (rcbModify acc e.1
            (fun r => { r with state := r.state + e.2 })) k).state
          = (rcbGet acc k).state + (if e.1 = k then e.2 else 0) := by
        rw [hrcbm k hk]
        by_cases hke : k = e.1
        · rw [if_pos hke, if_pos hke.symm, hke]
        · rw [if_neg hke, if_neg (fun hh => hke hh.symm)]
          omega
      have hmh : heldSum (rcbModify acc e.1
            (fun r => { r with state := r.state + e.2 })) k = heldSum acc k := by
        rw [heldSum_rcbModify]
      rw [List.map_cons, List.sum_cons]
      rw [hm3, hmh] at hg3
      omega
    · intro k hk
      rw [i4 k hk, g4 k hk, hrcbm k hk]
      by_cases hke : k = e.1
      · rw [if_pos hke, hke]
      · rw [if_neg hke]
    · intro j hj hjw
      rw [i5 j hj (fun k hk => hwlg k hk j (hjw k hk)), hpcbg j hj hjw]
    · intro k hk j hj
      exact i6 k hk j (hwlg k hk j hj)
    · intro i
      obtain ⟨ic, ip, ipr⟩ := i7 i
      obtain ⟨gc, gp, gpr⟩ := g8 i
      rw [ic, gc, ip, gp, ipr, gpr]
      exact ⟨rfl, rfl, rfl⟩


/-! ### `finalizeDestroy` stage 1: unlink from the parent -/

theorem not_mem_erase_self {l : List Int} (h : l.Nodup) (a : Int) : a ∉ l.erase a :=
  fun hm => ((List.Nodup.mem_erase_iff h).1 hm).1 rfl

theorem unlink_facts {s A : OSManager} (hI : Inv s) {c : Int}
    (hc1 : 1 ≤ c) (hc15 : c ≤ 15) (hocc : occupied s c)
    (hA : A = pcbModify s (pcbGet s c).parent
      (fun b => { b with children := b.children.erase c })) :
    Inv A ∧
    (∀ j : Int, (pcbGet A j).priority = (pcbGet s j).priority ∧
      (pcbGet A j).state = (pcbGet s j).state ∧
      (pcbGet A j).parent = (pcbGet s j).parent ∧
      (pcbGet A j).resources = (pcbGet s j).resources) ∧
    (∀ j : Int, (pcbGet A j).children = (pcbGet s j).children ∨
      (pcbGet A j).children = ((pcbGet s j).children).erase c) ∧
    A.RCB = s.RCB ∧ A.RL = s.RL ∧
    (∀ i ∈ r16, c ∉ (pcbGet A i).children) := by
  subst hA
  have hcases := fun j => pcbGet_pcbModify_cases s
    (fun b => { b with children := b.children.erase c }) (pcbGet s c).parent j
  have hF : ∀ j : Int,
      (pcbGet (pcbModify s (pcbGet s c).parent
        (fun b => { b with children := b.children.erase c })) j).priority
        = (pcbGet s j).priority ∧
      (pcbGet (pcbModify s (pcbGet s c).parent
        (fun b => { b with children := b.children.erase c })) j).state
        = (pcbGet s j).state ∧
      (pcbGet (pcbModify s (pcbGet s c).parent
        (fun b => { b with children := b.children.erase c })) j).parent
        = (pcbGet s j).parent ∧
      (pcbGet (pcbModify s (pcbGet s c).parent
        (fun b => { b with children := b.children.erase c })) j).resources
        = (pcbGet s j).resources := by
    intro j
    rcases hcases j with h | ⟨he, h⟩
    · rw [h]; exact ⟨rfl, rfl, rfl, rfl⟩
    · rw [h, he]; exact ⟨rfl, rfl, rfl, rfl⟩
  have hCh : ∀ j : Int,
      (pcbGet (pcbModify s (pcbGet s c).parent
        (fun b => { b with children := b.children.erase c })) j).children
        = (pcbGet s j).children ∨
      (pcbGet (pcbModify s (pcbGet s c).parent
        (fun b => { b with children := b.children.erase c })) j).children
        = ((pcbGet s j).children).erase c := by
    intro j
    rcases hcases j with h | ⟨he, h⟩
    · rw [h]; left; rfl
    · rw [h, he]; right; rfl
  have hocc_iff : ∀ j : Int,
      (occupied (pcbModify s (pcbGet s c).parent
        (fun b => { b with children := b.children.erase c })) j ↔ occupied s j) := by
    intro j
    unfold occupied
    rw [(hF j).1]
  have hchsub : ∀ j : Int, ((pcbGet (pcbModify s (pcbGet s c).parent
      (fun b => { b with children := b.children.erase c })) j).children).Sublist
      (pcbGet s j).children := by
    intro j
    rcases hCh j with h | h
    · rw [h]
    · rw [h]; exact List.erase_sublist _ _
  have hNC : ∀ i ∈ r16, c ∉ (pcbGet (pcbModify s (pcbGet s c).parent
      (fun b => { b with children := b.children.erase c })) i).children := by
    intro i hi hmem
    have hmem' : c ∈ (pcbGet s i).children := (hchsub i).mem hmem
    have hpar : (pcbGet s c).parent = i := (hI.child_mem i hi c hmem').2.2
    rcases pcbGet_pcbModify_self_or hI.lenPCB (pcbGet s c).parent
      (fun b => { b with children := b.children.erase c }) with hhit | ⟨hfr, _⟩
    · rw [hpar] at hhit hmem
      simp only [hhit] at hmem
      exact not_mem_erase_self (hI.child_nodup i hi) c hmem
    · rw [hpar] at hfr
      rw [hfr] at hmem'
      simp [freePCB] at hmem'
  have hrcb : ∀ k : Int, rcbGet (pcbModify s (pcbGet s c).parent
      (fun b => { b with children := b.children.erase c })) k = rcbGet s k :=
    fun k => by simp
  have hrl : ∀ q : Int, rlGet (pcbModify s (pcbGet s c).parent
      (fun b => { b with children := b.children.erase c })) q = rlGet s q :=
    fun q => by simp
  have hhs : ∀ k : Int, heldSum (pcbModify s (pcbGet s c).parent
      (fun b => { b with children := b.children.erase c })) k = heldSum s k :=
    fun k => heldSum_congr (fun i => (hF i).2.2.2) k
  refine ⟨⟨⟨?_, ?_, ?_, ?_, ?_, ?_, ?_, ?_, ?_, ?_, ?_, ?_, ?_, ?_, ?_, ?_, ?_,
    ?_, ?_, ?_⟩, ?_, ?_⟩, hF, hCh, rfl, rfl, hNC⟩
  · simp [hI.lenPCB]
  · simp [hI.lenRCB]
  · simp [hI.lenRL]
  · rw [(hF 0).1]; exact hI.root_prio
  · rw [(hF 0).2.1]; exact hI.root_state
  · rw [(hF 0).2.2.2]; exact hI.root_res
  · rw [hrl]; exact hI.root_rl
  · intro i hi hfree
    rw [(hF i).1] at hfree
    have hfr := hI.free_default i hi hfree
    rcases hcases i with h | ⟨he, h⟩
    · rw [h]; exact hfr
    · rw [h, ← he, hfr]
      rfl
  · intro i hi ho
    rw [(hF i).1]
    exact hI.occ_prio i hi ((hocc_iff i).1 ho)
  · intro i hi ho
    rw [(hF i).2.1]
    exact hI.occ_state i hi ((hocc_iff i).1 ho)
  · intro i hi e he
    rw [(hF i).2.2.2] at he
    exact hI.res_entry i hi e he
  · intro i hi
    rw [(hF i).2.2.2]
    exact hI.res_nodup i hi
  · intro i hi j hj
    have hj' : j ∈ (pcbGet s i).children := (hchsub i).mem hj
    obtain ⟨hb, ho, hpar⟩ := hI.child_mem i hi j hj'
    exact ⟨hb, (hocc_iff j).2 ho, by rw [(hF j).2.2.1]; exact hpar⟩
  · intro i hi
    rcases hCh i with h | h
    · rw [h]; exact hI.child_nodup i hi
    · rw [h]; exact (hI.child_nodup i hi).erase _
  · intro q hq j hj
    rw [hrl] at hj
    obtain ⟨hb, ho, hs1, hpr⟩ := hI.rl_mem q hq j hj
    exact ⟨hb, (hocc_iff j).2 ho, by rw [(hF j).2.1]; exact hs1,
      by rw [(hF j).1]; exact hpr⟩
  · intro q hq
    rw [hrl]
    exact hI.rl_nodup q hq
  · intro k hk e he
    rw [hrcb] at he
    obtain ⟨hb, ho, hs0, hu⟩ := hI.wl_entry k hk e he
    exact ⟨hb, (hocc_iff e.1).2 ho, by rw [(hF e.1).2.1]; exact hs0, hu⟩
  · have : allWaitPids (pcbModify s (pcbGet s c).parent
        (fun b => { b with children := b.children.erase c })) = allWaitPids s := by
      unfold allWaitPids wlPids
      rw [hrcb, hrcb, hrcb, hrcb]
    rw [this]
    exact hI.wl_nodup
  · intro k hk
    rw [hrcb]
    exact hI.avail_nonneg k hk
  · rw [hrcb, hrcb, hrcb, hrcb]
    exact hI.inv_fixed
  · intro i hi ho hs1
    rw [(hF i).2.1] at hs1
    rw [(hF i).1, hrl]
    exact hI.ready_in_rl i hi ((hocc_iff i).1 ho) hs1
  · intro k hk
    rw [hrcb, hhs]
    exact hI.conserve k hk


/-! ### `finalizeDestroy` stage 2: leave the ready list or the waitlist -/

theorem removeFromWaitlistsGo_struct (p : Int) : ∀ (L : List Int) (s : OSManager),
    (removeFromWaitlistsGo p L s).PCB = s.PCB ∧
    (removeFromWaitlistsGo p L s).RL = s.RL ∧
    (removeFromWaitlistsGo p L s).RCB.length = s.RCB.length := by
  intro L
  induction L with
  | nil => exact fun s => ⟨rfl, rfl, rfl⟩
  | cons i rest ih =>
    intro s
    rcases hm : removeFirstPid (rcbGet s i).waitlist p with _ | wl
    · have hred : removeFromWaitlistsGo p (i :: rest) s
          = removeFromWaitlistsGo p rest s := by
        conv_lhs => rw [removeFromWaitlistsGo]
        rw [hm]
      rw [hred]
      exact ih s
    · have hred : removeFromWaitlistsGo p (i :: rest) s
          = rcbModify s i (fun r => { r with waitlist := wl }) := by
        conv_lhs => rw [removeFromWaitlistsGo]
        rw [hm]
      rw [hred]
      exact ⟨rfl, rfl, by simp [rcbModify, rcbSet]⟩

theorem unlist_facts {A B : OSManager} (hIA : Inv A) {c : Int}
    (hc1 : 1 ≤ c) (hc15 : c ≤ 15) (hoccA : occupied A c)
    (hB : B = if (pcbGet A c).state = 1
      then rlSet A (pcbGet A c).priority ((rlGet A (pcbGet A c).priority).erase c)
      else removeFromWaitlists A c) :
    Inv0 B ∧
    (∀ j : Int, pcbGet B j = pcbGet A j) ∧
    (∀ k ∈ r4, (rcbGet B k).state = (rcbGet A k).state ∧
      (rcbGet B k).inventory = (rcbGet A k).inventory ∧
      ((rcbGet B k).waitlist).Sublist (rcbGet A k).waitlist) ∧
    (∀ k ∈ r4, c ∉ wlPids B k) ∧
    c ∉ rlAll B ∧
    (∀ i ∈ r16, i ≠ c → rdy A i → rdy B i) ∧
    (∀ k : Int, heldSum B k = heldSum A k) := by
  have hc16 : c ∈ r16 := mem_r16_iff.2 ⟨by omega, hc15⟩
  subst hB
  split
  next hst =>
    -- ready: remove from the ready list
    have hP3 : (pcbGet A c).priority ∈ r3 :=
      mem_r3_iff.2 ⟨hoccA, hIA.occ_prio c hc16 hoccA⟩
    obtain ⟨hP0, hP2⟩ := mem_r3_iff.1 hP3
    have hrlB : ∀ q : Int, 0 ≤ q → q ≤ 2 →
        rlGet (rlSet A (pcbGet A c).priority
          ((rlGet A (pcbGet A c).priority).erase c)) q
        = if q = (pcbGet A c).priority
          then (rlGet A (pcbGet A c).priority).erase c else rlGet A q := by
      intro q hq0 hq2
      by_cases hqP : q = (pcbGet A c).priority
      · rw [if_pos hqP, hqP,
          rlGet_rlSet_self (by simp [hIA.lenRL]) hP0 (by omega)]
      · rw [if_neg hqP, rlGet_rlSet_ne (pyIdx_ne hP0 hq0 (fun hh => hqP hh.symm))]
    have hnotrl : ∀ q : Int, 0 ≤ q → q ≤ 2 →
        c ∉ rlGet (rlSet A (pcbGet A c).priority
          ((rlGet A (pcbGet A c).priority).erase c)) q := by
      intro q hq0 hq2 hmem
      rw [hrlB q hq0 hq2] at hmem
      by_cases hqP : q = (pcbGet A c).priority
      · rw [if_pos hqP] at hmem
        exact not_mem_erase_self (hIA.rl_nodup _ hP3) c hmem
      · rw [if_neg hqP] at hmem
        exact hqP (hIA.rl_mem q (mem_r3_iff.2 ⟨hq0, hq2⟩) c hmem).2.2.2.symm
    have hnotwl : ∀ k ∈ r4, c ∉ wlPids A k := by
      intro k hk hmem
      unfold wlPids at hmem
      rcases List.mem_map.1 hmem with ⟨e, he, hh⟩
      have hs0 := (hIA.wl_entry k hk e he).2.2.1
      rw [hh, hst] at hs0
      exact absurd hs0 (by decide)
    refine ⟨?_, fun j => rfl, fun k hk => ⟨rfl, rfl, List.Sublist.refl _⟩,
      hnotwl, ?_, ?_, fun k => rfl⟩
    · constructor
      · exact hIA.lenPCB
      · exact hIA.lenRCB
      · simp [rlSet, hIA.lenRL]
      · exact hIA.root_prio
      · exact hIA.root_state
      · exact hIA.root_res
      · rw [hrlB 0 le_rfl (by omega)]
        by_cases h0P : (0 : Int) = (pcbGet A c).priority
        · rw [if_pos h0P]
          refine (List.mem_erase_of_ne (by omega)).2 ?_
          rw [← h0P]
          exact hIA.root_rl
        · rw [if_neg h0P]
          exact hIA.root_rl
      · exact hIA.free_default
      · exact hIA.occ_prio
      · exact hIA.occ_state
      · exact hIA.res_entry
      · exact hIA.res_nodup
      · exact hIA.child_mem
      · exact hIA.child_nodup
      · intro q hq j hj
        obtain ⟨hq0, hq2⟩ := mem_r3_iff.1 hq
        rw [hrlB q hq0 hq2] at hj
        by_cases hqP : q = (pcbGet A c).priority
        · rw [if_pos hqP] at hj
          have hj' := List.mem_of_mem_erase hj
          rw [← hqP] at hj'
          exact hIA.rl_mem q hq j hj'
        · rw [if_neg hqP] at hj
          exact hIA.rl_mem q hq j hj
      · intro q hq
        obtain ⟨hq0, hq2⟩ := mem_r3_iff.1 hq
        rw [hrlB q hq0 hq2]
        by_cases hqP : q = (pcbGet A c).priority
        · rw [if_pos hqP]
          exact ((hIA.rl_nodup _ hP3)).erase _
        · rw [if_neg hqP]
          exact hIA.rl_nodup q hq
      · exact hIA.wl_entry
      · exact hIA.wl_nodup
      · exact hIA.avail_nonneg
      · exact hIA.inv_fixed
    · intro hmem
      unfold rlAll at hmem
      rcases List.mem_append.1 hmem with hm | hm
      · rcases List.mem_append.1 hm with hm' | hm'
        · exact hnotrl 0 (by omega) (by omega) hm'
        · exact hnotrl 1 (by omega) (by omega) hm'
      · exact hnotrl 2 (by omega) (by omega) hm
    · intro i hi hic hr ho hs1
      simp only [pcbGet_rlSet] at ho hs1 ⊢
      have hmem := hr ho hs1
      have hip3 : (pcbGet A i).priority ∈ r3 :=
        mem_r3_iff.2 ⟨ho, hIA.occ_prio i hi ho⟩
      obtain ⟨hip0, hip2⟩ := mem_r3_iff.1 hip3
      rw [hrlB _ hip0 hip2]
      by_cases hqP : (pcbGet A i).priority = (pcbGet A c).priority
      · rw [if_pos hqP]
        refine (List.mem_erase_of_ne hic).2 ?_
        rw [← hqP]
        exact hmem
      · rw [if_neg hqP]
        exact hmem
  next hst =>
    -- blocked: remove from the waitlist holding the pid
    unfold removeFromWaitlists
    obtain ⟨goP, goR, goL⟩ := removeFromWaitlistsGo_struct c [0, 1, 2, 3] A
    obtain ⟨gopcb, gorl, gost, goinv, gowl, gohs⟩ :=
      removeFromWaitlistsGo_facts c [0, 1, 2, 3] A
    have hwlB : ∀ k ∈ r4, wlPids (removeFromWaitlistsGo c [0, 1, 2, 3] A) k
        = (wlPids A k).erase c :=
      removeFromWaitlists_wlPids hIA.lenRCB hIA.wl_nodup c
    refine ⟨?_, gopcb, fun k hk => ⟨gost k, goinv k, gowl k⟩, ?_, ?_, ?_, gohs⟩
    · refine Inv0_congr hIA.toInv0 goP goR (by rw [goL]; exact hIA.lenRCB)
        ?_ ?_ ?_
      · intro k hk
        rw [gost k]
        exact hIA.avail_nonneg k hk
      · intro k hk
        rw [goinv k]
      · intro k hk
        exact gowl k
    · intro k hk
      rw [hwlB k hk]
      exact not_mem_erase_self (wl_component_nodup hIA.wl_nodup hk) c
    · intro hmem
      rw [rlAll_congr goR] at hmem
      unfold rlAll at hmem
      have hstc : ∀ q : Int, 0 ≤ q → q ≤ 2 → c ∉ rlGet A q := by
        intro q hq0 hq2 hm
        have := (hIA.rl_mem q (mem_r3_iff.2 ⟨hq0, hq2⟩) c hm).2.2.1
        exact hst this
      rcases List.mem_append.1 hmem with hm | hm
      · rcases List.mem_append.1 hm with hm' | hm'
        · exact hstc 0 (by omega) (by omega) hm'
        · exact hstc 1 (by omega) (by omega) hm'
      · exact hstc 2 (by omega) (by omega) hm
    · intro i hi hic hr
      exact rdy_congr goP goR hr


/-! ### `finalizeDestroy`: the combined specification -/

theorem sum_ite_eq_sum_filter (l : List (Int × Int)) (k : Int) :
    (l.map (fun e => if e.1 = k then e.2 else 0)).sum
      = ((l.filter (fun e => e.1 == k)).map Prod.snd).sum := by
  induction l with
  | nil => rfl
  | cons e rest ih =>
    by_cases he : e.1 = k
    · rw [List.map_cons, List.sum_cons, if_pos he,
        List.filter_cons_of_pos (by simpa using he), List.map_cons, List.sum_cons, ih]
    · rw [List.map_cons, List.sum_cons, if_neg he,
        List.filter_cons_of_neg (by simpa using he), ih]
      ring

theorem finalizeSpec {s A B C t : OSManager} (hI : Inv s) {c : Int}
    (hc1 : 1 ≤ c) (hc15 : c ≤ 15) (hocc : occupied s c)
    (hA : A = pcbModify s (pcbGet s c).parent
      (fun b => { b with children := b.children.erase c }))
    (hB : B = if (pcbGet A c).state = 1
      then rlSet A (pcbGet A c).priority ((rlGet A (pcbGet A c).priority).erase c)
      else removeFromWaitlists A c)
    (hC : C = ((pcbGet B c).resources).foldl (fun acc e => grantPossibleWaitingRequests
      (rcbModify acc e.1 (fun r => { r with state := r.state + e.2 })) e.1) B)
    (ht : t = pcbSet C c freePCB) :
    Inv t ∧
    pcbGet t c = freePCB ∧
    (∀ i ∈ r16, i ≠ c → rdy s i → rdy t i) ∧
    (∀ k ∈ r4, (rcbGet t k).state + heldSum t k
      = (rcbGet s k).state + heldSum s k) ∧
    (∀ k ∈ r4, (rcbGet t k).inventory = (rcbGet s k).inventory) ∧
    (∀ j ∈ r16, pcbGet s j = freePCB → pcbGet t j = freePCB) ∧
    (∀ i : Int, ((pcbGet t i).children).Sublist (pcbGet s i).children) ∧
    (∀ j ∈ r16, pcbGet t j ≠ freePCB →
      (pcbGet t j).priority = (pcbGet s j).priority ∧
      (pcbGet t j).parent = (pcbGet s j).parent) ∧
    (∀ i j : Int, pcbGet t i ≠ freePCB → j ∈ (pcbGet s i).children →
      pcbGet t j ≠ freePCB → j ∈ (pcbGet t i).children) ∧
    (∀ i ∈ r16, c ∉ (pcbGet t i).children) ∧
    (∀ j : Int, 0 ≤ j → j ≠ c →
      (pcbGet t j).priority = (pcbGet s j).priority ∧
      (pcbGet t j).parent = (pcbGet s j).parent) := by
  have hc0 : (0 : Int) ≤ c := by omega
  have hc16 : c ∈ r16 := mem_r16_iff.2 ⟨hc0, hc15⟩
  obtain ⟨hIA, aF, aCh, aRCB, aRL, aNC⟩ := unlink_facts hI hc1 hc15 hocc hA
  have hrcbA : ∀ k : Int, rcbGet A k = rcbGet s k := by
    intro k; unfold rcbGet; rw [aRCB]
  have hrlA : ∀ q : Int, rlGet A q = rlGet s q := by
    intro q; unfold rlGet; rw [aRL]
  have hhsA : ∀ k : Int, heldSum A k = heldSum s k :=
    heldSum_congr (fun i => (aF i).2.2.2)
  have hoccA : occupied A c := by
    unfold occupied
    rw [(aF c).1]
    exact hocc
  obtain ⟨hIB, bP, bR, bW, bRL, bRdy, bH⟩ := unlist_facts hIA hc1 hc15 hoccA hB
  have hresBC : (pcbGet B c).resources = (pcbGet s c).resources := by
    rw [bP c, (aF c).2.2.2]
  have hes : ∀ e ∈ (pcbGet B c).resources, e.1 ∈ r4 ∧ 0 ≤ e.2 := by
    intro e he
    rw [hresBC] at he
    exact hI.res_entry c hc16 e he
  obtain ⟨q1, q2, q3, q4, q5, q6, q7, q8⟩ :=
    returnFold_facts c ((pcbGet B c).resources) B hIB hes bW bRL
  rw [← hC] at q1 q2 q3 q4 q5 q6 q7 q8
  have hcwC : ∀ k ∈ r4, c ∉ wlPids C k := fun k hk => q6 k hk c (bW k hk)
  have hpcbCc : pcbGet C c = pcbGet B c := q5 c hc16 bW
  have L16 : C.PCB.length = 16 := q1.lenPCB
  have htc : pcbGet t c = freePCB := by
    rw [ht]
    exact pcbGet_pcbSet_self L16 hc0 (by omega) _
  have htne : ∀ j : Int, 0 ≤ j → j ≠ c → pcbGet t j = pcbGet C j := by
    intro j hj0 hjc
    rw [ht]
    exact pcbGet_pcbSet_ne (pyIdx_ne hc0 hj0 (fun hh => hjc hh.symm)) _
  have htrcb : ∀ k : Int, rcbGet t k = rcbGet C k := by
    intro k; rw [ht]; rfl
  have htrl : ∀ q : Int, rlGet t q = rlGet C q := by
    intro q; rw [ht]; rfl
  have hth : ∀ k : Int, heldSum t k = heldSum C k - heldOf C c k := by
    intro k
    rw [ht, heldSum_pcbSet L16 hc0 hc15 _ k]
    rw [show resLookup freePCB.resources k = 0 from rfl]
    ring
  have hchC : ∀ i : Int, (pcbGet C i).children = (pcbGet A i).children := by
    intro i
    rw [(q7 i).1, bP i]
  have hprCs : ∀ j : Int, (pcbGet C j).priority = (pcbGet s j).priority := by
    intro j
    rw [(q7 j).2.2, bP j, (aF j).1]
  have hparCs : ∀ j : Int, (pcbGet C j).parent = (pcbGet s j).parent := by
    intro j
    rw [(q7 j).2.1, bP j, (aF j).2.2.1]
  have hcnotC : ∀ i ∈ r16, c ∉ (pcbGet C i).children := by
    intro i hi
    rw [hchC i]
    exact aNC i hi
  have hrl3C : ∀ q ∈ r3, c ∉ rlGet C q := by
    intro q hq hmem
    refine q8 ?_
    unfold rlAll
    rcases (by simp [r3] at hq; exact hq : q = 0 ∨ q = 1 ∨ q = 2)
      with rfl | rfl | rfl
    · exact List.mem_append_left _ (List.mem_append_left _ hmem)
    · exact List.mem_append_left _ (List.mem_append_right _ hmem)
    · exact List.mem_append_right _ hmem
  have hcases_t : ∀ i : Int, pcbGet t i = pcbGet C i ∨
      (pcbGet C i = pcbGet C c ∧ pcbGet t i = freePCB) := by
    intro i
    rw [ht]
    exact pcbGet_pcbModify_cases C (fun _ => freePCB) c i
  have hconsC : ∀ k ∈ r4, (rcbGet C k).state + (heldSum C k - heldOf C c k)
      = (rcbGet s k).state + heldSum s k := by
    intro k hk
    have e3 := q3 k hk
    have esum : ((pcbGet B c).resources.map
        (fun e => if e.1 = k then e.2 else 0)).sum = heldOf C c k := by
      rw [sum_ite_eq_sum_filter, sum_filter_eq_resLookup
        (by rw [hresBC]; exact hI.res_nodup c hc16)]
      unfold heldOf
      rw [hpcbCc]
    rw [esum] at e3
    have hstB := (bR k hk).1
    have hstA : (rcbGet A k).state = (rcbGet s k).state := by rw [hrcbA]
    have hhB := bH k
    have hsA := hhsA k
    omega
  have hinvC : ∀ k ∈ r4, (rcbGet C k).inventory = (rcbGet s k).inventory := by
    intro k hk
    rw [q4 k hk, (bR k hk).2.1, hrcbA]
  refine ⟨⟨⟨?_, ?_, ?_, ?_, ?_, ?_, ?_, ?_, ?_, ?_, ?_, ?_, ?_, ?_, ?_, ?_, ?_,
    ?_, ?_, ?_⟩, ?_, ?_⟩, htc, ?_, ?_, ?_, ?_, ?_, ?_, ?_, ?_, ?_⟩
  · rw [ht, lenPCB_pcbSet]
    exact q1.lenPCB
  · rw [ht]
    exact q1.lenRCB
  · rw [ht]
    exact q1.lenRL
  · rw [htne 0 le_rfl (by omega)]
    exact q1.root_prio
  · rw [htne 0 le_rfl (by omega)]
    exact q1.root_state
  · rw [htne 0 le_rfl (by omega)]
    exact q1.root_res
  · rw [htrl]
    exact q1.root_rl
  · intro i hi hfree
    obtain ⟨hi0, hi15⟩ := mem_r16_iff.1 hi
    by_cases hic : i = c
    · rw [hic]
      exact htc
    · rw [htne i hi0 hic] at hfree ⊢
      exact q1.free_default i hi hfree
  · intro i hi ho
    obtain ⟨hi0, hi15⟩ := mem_r16_iff.1 hi
    unfold occupied at ho
    by_cases hic : i = c
    · rw [hic, htc] at ho
      exact absurd ho (by decide)
    · rw [htne i hi0 hic] at ho
      rw [htne i hi0 hic]
      exact q1.occ_prio i hi ho
  · intro i hi ho
    obtain ⟨hi0, hi15⟩ := mem_r16_iff.1 hi
    unfold occupied at ho
    by_cases hic : i = c
    · rw [hic, htc] at ho
      exact absurd ho (by decide)
    · rw [htne i hi0 hic] at ho
      rw [htne i hi0 hic]
      exact q1.occ_state i hi ho
  · intro i hi e he
    obtain ⟨hi0, hi15⟩ := mem_r16_iff.1 hi
    by_cases hic : i = c
    · rw [hic, htc] at he
      simp [freePCB] at he
    · rw [htne i hi0 hic] at he
      exact q1.res_entry i hi e he
  · intro i hi
    obtain ⟨hi0, hi15⟩ := mem_r16_iff.1 hi
    by_cases hic : i = c
    · rw [hic, htc]
      simp [freePCB]
    · rw [htne i hi0 hic]
      exact q1.res_nodup i hi
  · intro i hi j hj
    obtain ⟨hi0, hi15⟩ := mem_r16_iff.1 hi
    by_cases hic : i = c
    · rw [hic, htc] at hj
      simp [freePCB] at hj
    · rw [htne i hi0 hic] at hj
      have hjc : j ≠ c := fun hh => (hcnotC i hi) (hh ▸ hj)
      obtain ⟨hb, ho, hpar⟩ := q1.child_mem i hi j hj
      refine ⟨hb, ?_, ?_⟩
      · unfold occupied
        rw [htne j (by omega) hjc]
        exact ho
      · rw [htne j (by omega) hjc]
        exact hpar
  · intro i hi
    obtain ⟨hi0, hi15⟩ := mem_r16_iff.1 hi
    by_cases hic : i = c
    · rw [hic, htc]
      simp [freePCB]
    · rw [htne i hi0 hic]
      exact q1.child_nodup i hi
  · intro q hq j hj
    rw [htrl] at hj
    obtain ⟨hb, ho, hs1, hpr⟩ := q1.rl_mem q hq j hj
    have hjc : j ≠ c := fun hh => hrl3C q hq (hh ▸ hj)
    refine ⟨hb, ?_, ?_, ?_⟩
    · unfold occupied
      rw [htne j (by omega) hjc]
      exact ho
    · rw [htne j (by omega) hjc]
      exact hs1
    · rw [htne j (by omega) hjc]
      exact hpr
  · intro q hq
    rw [htrl]
    exact q1.rl_nodup q hq
  · intro k hk e he
    rw [htrcb] at he
    obtain ⟨hb, ho, hs0, hu⟩ := q1.wl_entry k hk e he
    have hec : e.1 ≠ c := by
      intro hh
      refine hcwC k hk ?_
      rw [← hh]
      exact List.mem_map_of_mem _ he
    refine ⟨hb, ?_, ?_, hu⟩
    · unfold occupied
      rw [htne e.1 (by omega) hec]
      exact ho
    · rw [htne e.1 (by omega) hec]
      exact hs0
  · have : allWaitPids t = allWaitPids C := by
      unfold allWaitPids wlPids
      rw [htrcb, htrcb, htrcb, htrcb]
    rw [this]
    exact q1.wl_nodup
  · intro k hk
    rw [htrcb]
    exact q1.avail_nonneg k hk
  · rw [htrcb, htrcb, htrcb, htrcb]
    exact q1.inv_fixed
  · intro i hi ho hs1
    obtain ⟨hi0, hi15⟩ := mem_r16_iff.1 hi
    unfold occupied at ho
    by_cases hic : i = c
    · rw [hic, htc] at ho
      exact absurd ho (by decide)
    · rw [htne i hi0 hic] at ho hs1
      have hrdyC : rdy C i := q2 i hi (bRdy i hi hic (hIA.ready_in_rl i hi))
      rw [htne i hi0 hic, htrl]
      exact hrdyC ho hs1
  · intro k hk
    rw [htrcb k, hth k]
    have h1 := hconsC k hk
    have h2 := hinvC k hk
    have h3 := hI.conserve k hk
    omega
  · intro i hi hic hr
    have hrA : rdy A i := by
      intro ho hs1
      unfold occupied at ho
      rw [(aF i).1] at ho
      rw [(aF i).2.1] at hs1
      rw [(aF i).1, hrlA]
      exact hr ho hs1
    obtain ⟨hi0, hi15⟩ := mem_r16_iff.1 hi
    intro ho hs1
    unfold occupied at ho
    rw [htne i hi0 hic] at ho hs1
    have hrdyC : rdy C i := q2 i hi (bRdy i hi hic hrA)
    rw [htne i hi0 hic, htrl]
    exact hrdyC ho hs1
  · intro k hk
    rw [htrcb k, hth k]
    exact hconsC k hk
  · intro k hk
    rw [htrcb k]
    exact hinvC k hk
  · intro j hj hfree
    obtain ⟨hj0, hj15⟩ := mem_r16_iff.1 hj
    have hjc : j ≠ c := by
      intro hh
      rw [hh] at hfree
      unfold occupied at hocc
      rw [hfree] at hocc
      exact absurd hocc (by decide)
    have hfA : pcbGet A j = freePCB := by
      refine hIA.free_default j hj ?_
      rw [(aF j).1, hfree]
      decide
    have hfB : pcbGet B j = freePCB := by
      rw [bP j]
      exact hfA
    have hfC : pcbGet C j = pcbGet B j := by
      refine q5 j hj ?_
      intro k hk hmem
      unfold wlPids at hmem
      rcases List.mem_map.1 hmem with ⟨e, he, hh⟩
      have hoe := (hIB.wl_entry k hk e he).2.1
      unfold occupied at hoe
      rw [hh, hfB] at hoe
      exact absurd hoe (by decide)
    rw [htne j hj0 hjc, hfC]
    exact hfB
  · intro i
    rcases hcases_t i with h | ⟨_, h⟩
    · rw [h, hchC i]
      rcases aCh i with h2 | h2
      · rw [h2]
      · rw [h2]
        exact List.erase_sublist _ _
    · rw [h]
      exact List.nil_sublist _
  · intro j hj hne
    obtain ⟨hj0, hj15⟩ := mem_r16_iff.1 hj
    by_cases hjc : j = c
    · rw [hjc] at hne
      exact absurd htc hne
    · rw [htne j hj0 hjc]
      exact ⟨hprCs j, hparCs j⟩
  · intro i j hit hjs hjt
    have hjc : j ≠ c := by
      intro hh
      rw [hh] at hjt
      exact hjt htc
    rcases hcases_t i with h | ⟨_, h⟩
    · rw [h, hchC i]
      rcases aCh i with h2 | h2
      · rw [h2]
        exact hjs
      · rw [h2]
        exact (List.mem_erase_of_ne hjc).2 hjs
    · rw [h] at hit
      exact absurd rfl hit
  · intro i hi
    rcases hcases_t i with h | ⟨_, h⟩
    · rw [h, hchC i]
      exact aNC i hi
    · rw [h]
      simp [freePCB]
  · intro j hj0 hjc
    rw [htne j hj0 hjc]
    exact ⟨hprCs j, hparCs j⟩


theorem finalizeDestroy_facts {s : OSManager} (hI : Inv s) {c : Int}
    (hc1 : 1 ≤ c) (hc15 : c ≤ 15) (hocc : occupied s c) :
    Inv (finalizeDestroy s c) ∧
    pcbGet (finalizeDestroy s c) c = freePCB ∧
    (∀ i ∈ r16, i ≠ c → rdy s i → rdy (finalizeDestroy s c) i) ∧
    (∀ k ∈ r4, (rcbGet (finalizeDestroy s c) k).state + heldSum (finalizeDestroy s c) k
      = (rcbGet s k).state + heldSum s k) ∧
    (∀ k ∈ r4, (rcbGet (finalizeDestroy s c) k).inventory = (rcbGet s k).inventory) ∧
    (∀ j ∈ r16, pcbGet s j = freePCB → pcbGet (finalizeDestroy s c) j = freePCB) ∧
    (∀ i : Int, ((pcbGet (finalizeDestroy s c) i).children).Sublist
      (pcbGet s i).children) ∧
    (∀ j ∈ r16, pcbGet (finalizeDestroy s c) j ≠ freePCB →
      (pcbGet (finalizeDestroy s c) j).priority = (pcbGet s j).priority ∧
      (pcbGet (finalizeDestroy s c) j).parent = (pcbGet s j).parent) ∧
    (∀ i j : Int, pcbGet (finalizeDestroy s c) i ≠ freePCB →
      j ∈ (pcbGet s i).children → pcbGet (finalizeDestroy s c) j ≠ freePCB →
      j ∈ (pcbGet (finalizeDestroy s c) i).children) ∧
    (∀ i ∈ r16, c ∉ (pcbGet (finalizeDestroy s c) i).children) ∧
    (∀ j : Int, 0 ≤ j → j ≠ c →
      (pcbGet (finalizeDestroy s c) j).priority = (pcbGet s j).priority ∧
      (pcbGet (finalizeDestroy s c) j).parent = (pcbGet s j).parent) :=
  finalizeSpec hI hc1 hc15 hocc rfl rfl rfl rfl

theorem free_preserve_all {x y : OSManager} (hy : y.PCB.length = 16)
    (h : ∀ j ∈ r16, pcbGet x j = freePCB → pcbGet y j = freePCB) :
    ∀ j : Int, pcbGet x j = freePCB → pcbGet y j = freePCB := by
  intro j hf
  by_cases hlt : pyIdx 16 j < 16
  · have hj' : ((pyIdx 16 j : Nat) : Int) ∈ r16 :=
      mem_r16_iff.2 ⟨Int.natCast_nonneg _, by omega⟩
    have hcongr : pyIdx 16 ((pyIdx 16 j : Nat) : Int) = pyIdx 16 j := by
      rw [pyIdx_of_nonneg (Int.natCast_nonneg _)]
      simp
    have h1 : pcbGet x ((pyIdx 16 j : Nat) : Int) = freePCB := by
      rw [pcbGet_congr hcongr]
      exact hf
    have h2 := h _ hj' h1
    rw [← pcbGet_congr (s := y) hcongr]
    exact h2
  · unfold pcbGet
    exact getD_of_length_le _ (by omega)


/-! ### `destroyRec`: fueled recursion preserves the invariant -/

theorem destroyRec_facts : ∀ (fuel : Nat) (s : OSManager) (c : Int),
    Inv s → 1 ≤ c → c ≤ 15 →
    Inv (destroyRec fuel s c) ∧
    (∀ k ∈ r4, (rcbGet (destroyRec fuel s c) k).state + heldSum (destroyRec fuel s c) k
      = (rcbGet s k).state + heldSum s k) ∧
    (∀ k ∈ r4, (rcbGet (destroyRec fuel s c) k).inventory = (rcbGet s k).inventory) ∧
    (∀ j : Int, pcbGet s j = freePCB → pcbGet (destroyRec fuel s c) j = freePCB) ∧
    (∀ i : Int, ((pcbGet (destroyRec fuel s c) i).children).Sublist
      (pcbGet s i).children) ∧
    (∀ j ∈ r16, pcbGet (destroyRec fuel s c) j ≠ freePCB →
      (pcbGet (destroyRec fuel s c) j).priority = (pcbGet s j).priority ∧
      (pcbGet (destroyRec fuel s c) j).parent = (pcbGet s j).parent) ∧
    (∀ i j : Int, pcbGet (destroyRec fuel s c) i ≠ freePCB →
      j ∈ (pcbGet s i).children → pcbGet (destroyRec fuel s c) j ≠ freePCB →
      j ∈ (pcbGet (destroyRec fuel s c) i).children) ∧
    (1 ≤ fuel → pcbGet (destroyRec fuel s c) c = freePCB) := by
  intro fuel
  induction fuel with
  | zero =>
    intro s c hI hc1 hc15
    exact ⟨hI, fun k _ => rfl, fun k _ => rfl, fun j h => h,
      fun i => List.Sublist.refl _, fun j _ _ => ⟨rfl, rfl⟩,
      fun i j _ hj _ => hj, fun h => absurd h (by omega)⟩
  | succ fuel ih =>
    intro s c hI hc1 hc15
    have hc16 : c ∈ r16 := mem_r16_iff.2 ⟨by omega, hc15⟩
    have hfold := foldl_preserve
      (P := fun acc => Inv acc ∧
        (∀ k ∈ r4, (rcbGet acc k).state + heldSum acc k
          = (rcbGet s k).state + heldSum s k) ∧
        (∀ k ∈ r4, (rcbGet acc k).inventory = (rcbGet s k).inventory) ∧
        (∀ j : Int, pcbGet s j = freePCB → pcbGet acc j = freePCB) ∧
        (∀ i : Int, ((pcbGet acc i).children).Sublist (pcbGet s i).children) ∧
        (∀ j ∈ r16, pcbGet acc j ≠ freePCB →
          (pcbGet acc j).priority = (pcbGet s j).priority ∧
          (pcbGet acc j).parent = (pcbGet s j).parent) ∧
        (∀ i j : Int, pcbGet acc i ≠ freePCB → j ∈ (pcbGet s i).children →
          pcbGet acc j ≠ freePCB → j ∈ (pcbGet acc i).children))
      (f := fun acc k => destroyRec fuel acc k)
      (l := (pcbGet s c).children)
      ?_ s ⟨hI, fun k _ => rfl, fun k _ => rfl, fun j h => h,
        fun i => List.Sublist.refl _, fun j _ _ => ⟨rfl, rfl⟩,
        fun i j _ hj _ => hj⟩
    case succ.refine_1 =>
      intro acc k hkmem hPacc
      obtain ⟨pInv, pAph, pInvE, pFree, pSub, pPP, pPers⟩ := hPacc
      obtain ⟨⟨hk1, hk15⟩, _, _⟩ := hI.child_mem c hc16 k hkmem
      obtain ⟨rInv, rAph, rInvE, rFree, rSub, rPP, rPers, _⟩ :=
        ih acc k pInv hk1 hk15
      refine ⟨rInv, ?_, ?_, ?_, ?_, ?_, ?_⟩
      · intro q hq
        rw [rAph q hq]
        exact pAph q hq
      · intro q hq
        rw [rInvE q hq]
        exact pInvE q hq
      · intro j hf
        exact rFree j (pFree j hf)
      · intro i
        exact (rSub i).trans (pSub i)
      · intro j hj hne
        have hne' : pcbGet acc j ≠ freePCB := fun hf => hne (rFree j hf)
        obtain ⟨r1, r2⟩ := rPP j hj hne
        obtain ⟨p1, p2⟩ := pPP j hj hne'
        exact ⟨r1.trans p1, r2.trans p2⟩
      · intro i j hit hjs hjt
        have hit' : pcbGet acc i ≠ freePCB := fun hf => hit (rFree i hf)
        have hjt' : pcbGet acc j ≠ freePCB := fun hf => hjt (rFree j hf)
        exact rPers i j hit (pPers i j hit' hjs hjt') hjt
    obtain ⟨dInv, dAph, dInvE, dFree, dSub, dPP, dPers⟩ := hfold
    have hred : destroyRec (fuel + 1) s c
        = finalizeDestroy ((pcbGet s c).children.foldl
            (fun acc k => destroyRec fuel acc k) s) c := by
      simp only [destroyRec]
    rw [hred]
    by_cases hoccD : occupied ((pcbGet s c).children.foldl
        (fun acc k => destroyRec fuel acc k) s) c
    · obtain ⟨fInv, fFreeC, fRdy, fAph, fInvE, fFree', fSub, fPP, fPers, fNC, _⟩ :=
        finalizeDestroy_facts dInv hc1 hc15 hoccD
      have fFree : ∀ j : Int, pcbGet ((pcbGet s c).children.foldl
            (fun acc k => destroyRec fuel acc k) s) j = freePCB →
          pcbGet (finalizeDestroy ((pcbGet s c).children.foldl
            (fun acc k => destroyRec fuel acc k) s) c) j = freePCB :=
        free_preserve_all fInv.lenPCB fFree'
      refine ⟨fInv, ?_, ?_, ?_, ?_, ?_, ?_, fun _ => fFreeC⟩
      · intro q hq
        rw [fAph q hq]
        exact dAph q hq
      · intro q hq
        rw [fInvE q hq]
        exact dInvE q hq
      · intro j hf
        exact fFree j (dFree j hf)
      · intro i
        exact (fSub i).trans (dSub i)
      · intro j hj hne
        have hne' : pcbGet ((pcbGet s c).children.foldl
            (fun acc k => destroyRec fuel acc k) s) j ≠ freePCB :=
          fun hf => hne (fFree j hf)
        obtain ⟨r1, r2⟩ := fPP j hj hne
        obtain ⟨p1, p2⟩ := dPP j hj hne'
        exact ⟨r1.trans p1, r2.trans p2⟩
      · intro i j hit hjs hjt
        have hit' : pcbGet ((pcbGet s c).children.foldl
            (fun acc k => destroyRec fuel acc k) s) i ≠ freePCB :=
          fun hf => hit (fFree i hf)
        have hjt' : pcbGet ((pcbGet s c).children.foldl
            (fun acc k => destroyRec fuel acc k) s) j ≠ freePCB :=
          fun hf => hjt (fFree j hf)
        exact fPers i j hit (dPers i j hit' hjs hjt') hjt
    · have hfreeD : pcbGet ((pcbGet s c).children.foldl
          (fun acc k => destroyRec fuel acc k) s) c = freePCB := by
        refine dInv.free_default c hc16 ?_
        unfold occupied at hoccD
        omega
      rw [finalizeDestroy_free dInv.toInv0 hfreeD]
      exact ⟨dInv, dAph, dInvE, dFree, dSub, dPP, dPers, fun _ => hfreeD⟩


/-! ### `destroy` validation and invariant preservation -/

theorem destroy_cases {s : OSManager} {c : Int} {s' : OSManager}
    (h : destroy s c = some s') :
    (c = currentlyRunning s ∨ c ∈ (pcbGet s (currentlyRunning s)).children) ∧
    c ≠ 0 ∧ s' = destroyRec 16 s c := by
  unfold destroy at h
  simp only [] at h
  split at h
  · simp at h
  next hc1 =>
  split at h
  · simp at h
  next hc2 =>
  simp only [Option.some.injEq] at h
  push_neg at hc1
  refine ⟨?_, hc2, h.symm⟩
  by_cases hcr : c = currentlyRunning s
  · exact Or.inl hcr
  · exact Or.inr (hc1 hcr)

theorem destroy_target_bounds {s : OSManager} (hI : Inv0 s) {c : Int}
    (hor : c = currentlyRunning s ∨ c ∈ (pcbGet s (currentlyRunning s)).children)
    (hc0 : c ≠ 0) : 1 ≤ c ∧ c ≤ 15 := by
  obtain ⟨⟨hcr0, hcr15⟩, _, _, _, _, _⟩ := cr_props hI
  rcases hor with rfl | hmem
  · omega
  · have := (hI.child_mem (currentlyRunning s)
      (mem_r16_iff.2 ⟨hcr0, hcr15⟩) c hmem).1
    omega

theorem destroy_inv {s : OSManager} {c : Int} {s' : OSManager}
    (hI : Inv s) (h : destroy s c = some s') : Inv s' := by
  obtain ⟨hor, hc0, heq⟩ := destroy_cases h
  obtain ⟨hb1, hb15⟩ := destroy_target_bounds hI.toInv0 hor hc0
  subst heq
  exact (destroyRec_facts 16 s c hI hb1 hb15).1

/-- Every reachable state satisfies the full invariant. -/
theorem inv_of_reachable : ∀ {s : OSManager}, Reachable s → Inv s := by
  intro s h
  induction h with
  | init => exact inv_initState
  | step_timeout _ ih => exact timeout_inv ih
  | step_create _ hc ih => exact create_inv ih hc
  | step_request _ hc ih => exact request_inv ih hc
  | step_release _ hc ih => exact release_inv ih hc
  | step_destroy _ hc ih => exact destroy_inv ih hc


/-! ### Claim theorems -/

/-- **C1.** Resource-unit conservation: in every state reachable from
initialization by any sequence of operations, for every resource type,
`0 ≤ available ≤ inventory` and `available` plus the sum of units of that
type held across all process slots equals `inventory`. -/
theorem C1_conservation {s : OSManager} (hR : Reachable s) :
    ∀ k ∈ r4, 0 ≤ (rcbGet s k).state ∧
      (rcbGet s k).state ≤ (rcbGet s k).inventory ∧
      (rcbGet s k).state + heldSum s k = (rcbGet s k).inventory := by
  have hI := inv_of_reachable hR
  intro k hk
  have h1 := hI.avail_nonneg k hk
  have h2 := hI.conserve k hk
  have h3 := heldSum_nonneg hI.toInv0 k
  exact ⟨h1, by omega, h2⟩

/-- **C1** witness: the conservation equalities instantiated at the initial
state and resource 2. -/
theorem C1_conservation_witness : Reachable initState ∧
    (0 ≤ (rcbGet initState 2).state ∧
      (rcbGet initState 2).state ≤ (rcbGet initState 2).inventory ∧
      (rcbGet initState 2).state + heldSum initState 2
        = (rcbGet initState 2).inventory) :=
  ⟨Reachable.init, C1_conservation Reachable.init 2 (by decide)⟩

/-- **C5.** In every reachable state, process 0's slot is occupied with
status Ready, it sits in ready list 0, some ready list is non-empty, and
`currentlyRunning` is the head of the highest-priority non-empty ready
list (in particular it is a valid pid, not the `-1` dummy). -/
theorem C5_root_ready {s : OSManager} (hR : Reachable s) :
    occupied s 0 ∧ (pcbGet s 0).state = 1 ∧ (0 : Int) ∈ rlGet s 0 ∧
    (∃ p ∈ r3, (∃ t, rlGet s p = currentlyRunning s :: t) ∧
      ∀ q ∈ r3, p < q → rlGet s q = []) ∧
    0 ≤ currentlyRunning s := by
  have hI := inv_of_reachable hR
  have h0 : occupied s 0 := by
    unfold occupied
    rw [hI.root_prio]
  obtain ⟨p, hp, ⟨t, ht⟩, hemp⟩ := cr_spec hI.toInv0
  obtain ⟨⟨hcr0, _⟩, _, _, _, _⟩ := cr_props hI.toInv0
  exact ⟨h0, hI.root_state, hI.root_rl, ⟨p, hp, ⟨t, ht⟩, hemp⟩, hcr0⟩

/-- **C5** witness: the root-process facts at the initial state. -/
theorem C5_root_ready_witness : Reachable initState ∧
    (occupied initState 0 ∧ (pcbGet initState 0).state = 1 ∧
      (0 : Int) ∈ rlGet initState 0 ∧
      (∃ p ∈ r3, (∃ t, rlGet initState p = currentlyRunning initState :: t) ∧
        ∀ q ∈ r3, p < q → rlGet initState q = []) ∧
      0 ≤ currentlyRunning initState) :=
  ⟨Reachable.init, C5_root_ready Reachable.init⟩

/-- **C6.** `initialize()` produces the identical fixed starting
configuration from any state, hence it is idempotent: process 0 occupied at
priority 0, Ready, with empty children and held maps; the other fifteen
slots free; inventories 1, 1, 2, 3, fully available, all wait queues empty;
ready list 0 is `[0]` and the other two are empty. -/
theorem C6_initialize (s : OSManager) :
    init s = initState ∧
    init (init s) = init s ∧
    pcbGet initState 0 = ⟨0, 1, -1, [], []⟩ ∧
    (∀ i ∈ r16, i ≠ 0 → pcbGet initState i = freePCB) ∧
    (rcbGet initState 0).inventory = 1 ∧ (rcbGet initState 1).inventory = 1 ∧
    (rcbGet initState 2).inventory = 2 ∧ (rcbGet initState 3).inventory = 3 ∧
    (∀ k ∈ r4, (rcbGet initState k).state = (rcbGet initState k).inventory ∧
      (rcbGet initState k).waitlist = []) ∧
    rlGet initState 0 = [0] ∧ rlGet initState 1 = [] ∧ rlGet initState 2 = [] :=
  ⟨rfl, rfl, by decide, by decide, rfl, rfl, rfl, rfl, by decide, rfl, rfl, rfl⟩

/-- **C9.** Implicit wait-queue entry invariant: in every reachable state,
every `(pid, units)` pair in any resource's wait queue has `units ≥ 1` and
a non-root, occupied, Blocked pid. -/
theorem C9_waitlist_entry_invariant {s : OSManager} (hR : Reachable s) :
    ∀ k ∈ r4, ∀ e ∈ (rcbGet s k).waitlist,
      1 ≤ e.2 ∧ (1 ≤ e.1 ∧ e.1 ≤ 15) ∧ e.1 ≠ 0 ∧ occupied s e.1 ∧
      (pcbGet s e.1).state = 0 := by
  have hI := inv_of_reachable hR
  intro k hk e he
  obtain ⟨⟨h1, h15⟩, ho, hs0, hu⟩ := hI.wl_entry k hk e he
  exact ⟨hu, ⟨h1, h15⟩, by omega, ho, hs0⟩

/-- **C10.** Implicit edge case: whenever process 0 is the currently
running process in a reachable state, `release` fails for every input. -/
theorem C10_root_release_always_fails {s : OSManager} (hR : Reachable s)
    (hcr : currentlyRunning s = 0) (rI u : Int) :
    release s rI u = none := by
  have hI := inv_of_reachable hR
  cases hrel : release s rI u with
  | none => rfl
  | some s' =>
    exfalso
    obtain ⟨_, hu, hle, _⟩ := release_cases hI.toInv0 hrel
    rw [hcr] at hle
    unfold heldOf at hle
    rw [hI.root_res] at hle
    simp [resLookup] at hle
    omega

/-- **C10** witness: at the initial state (where process 0 runs), a release
of one unit of resource 0 fails. -/
theorem C10_root_release_always_fails_witness : Reachable initState ∧
    currentlyRunning initState = 0 ∧ release initState 0 1 = none :=
  ⟨Reachable.init, rfl,
    C10_root_release_always_fails Reachable.init rfl 0 1⟩


/-- **C2.** Strict FIFO of the wait-grant scan: the scan grants only a
prefix of the wait queue (the surviving queue is a `drop` of the original,
so nothing is granted out of order), it stops exactly when the queue is
empty or its head requests more units than are available, and consequently
an entry queued later is never granted while an earlier entry is still
waiting. -/
theorem C2_fifo {s : OSManager} (hR : Reachable s) {rI : Int} (hrI : rI ∈ r4) :
    ∃ n : Nat,
      (rcbGet (grantPossibleWaitingRequests s rI) rI).waitlist
        = ((rcbGet s rI).waitlist).drop n ∧
      ((rcbGet (grantPossibleWaitingRequests s rI) rI).waitlist = [] ∨
        ∃ e rest, (rcbGet (grantPossibleWaitingRequests s rI) rI).waitlist
            = e :: rest ∧
          (rcbGet (grantPossibleWaitingRequests s rI) rI).state < e.2) ∧
      (∀ i j : Nat, ∀ eA eB : Int × Int, i < j →
        ((rcbGet s rI).waitlist).get? i = some eA →
        ((rcbGet s rI).waitlist).get? j = some eB →
        eA ∈ (rcbGet (grantPossibleWaitingRequests s rI) rI).waitlist →
        eB ∈ (rcbGet (grantPossibleWaitingRequests s rI) rI).waitlist) := by
  have hI := inv_of_reachable hR
  obtain ⟨_, _, _, _, ⟨n, hdrop⟩, _, _, _, _, hstop⟩ :=
    grantScan_spec hI.toInv0 hrI
  have hnd : ((rcbGet s rI).waitlist).Nodup := by
    have := wl_component_nodup hI.wl_nodup hrI
    unfold wlPids at this
    exact this.of_map
  refine ⟨n, hdrop, hstop, ?_⟩
  intro i j eA eB hij hgi hgj hAmem
  rw [hdrop] at hAmem ⊢
  rw [List.mem_iff_get?] at hAmem
  obtain ⟨m, hm⟩ := hAmem
  rw [List.get?_drop] at hm
  have hin : i = n + m := by
    refine List.get?_inj ?_ hnd ?_
    · exact (List.get?_eq_some.1 hgi).1
    · rw [hgi, hm]
  have hjn : n ≤ j := by omega
  rw [List.mem_iff_get?]
  refine ⟨j - n, ?_⟩
  rw [List.get?_drop]
  rw [show n + (j - n) = j from by omega]
  exact hgj


/-- **C2** witness: the scan conclusions instantiated at the initial state
and resource 0. -/
theorem C2_fifo_witness : Reachable initState ∧
    (∃ n : Nat,
      (rcbGet (grantPossibleWaitingRequests initState 0) 0).waitlist
        = ((rcbGet initState 0).waitlist).drop n ∧
      ((rcbGet (grantPossibleWaitingRequests initState 0) 0).waitlist = [] ∨
        ∃ e rest, (rcbGet (grantPossibleWaitingRequests initState 0) 0).waitlist
            = e :: rest ∧
          (rcbGet (grantPossibleWaitingRequests initState 0) 0).state < e.2) ∧
      (∀ i j : Nat, ∀ eA eB : Int × Int, i < j →
        ((rcbGet initState 0).waitlist).get? i = some eA →
        ((rcbGet initState 0).waitlist).get? j = some eB →
        eA ∈ (rcbGet (grantPossibleWaitingRequests initState 0) 0).waitlist →
        eB ∈ (rcbGet (grantPossibleWaitingRequests initState 0) 0).waitlist)) :=
  ⟨Reachable.init, C2_fifo Reachable.init (by decide)⟩

/-- **C3.** Contract of `request resourceType units`: it fails, leaving the
state unchanged (a failing call returns `none` and no mutation occurs), iff
the resource index is invalid, the units are negative, the request would
exceed the inventory together with the units already held, the running
process is the root, or the units are zero.  On success, if enough units
are available the requester's held map gains the units, the available count
drops, and the ready lists are untouched; otherwise the requester is
blocked, removed from its ready list, and appended to the wait queue. -/
theorem C3_request_contract {s : OSManager} (hR : Reachable s) (rI u : Int) :
    (request s rI u = none ↔
      (¬(rI = 0 ∨ rI = 1 ∨ rI = 2 ∨ rI = 3) ∨ u < 0 ∨
        (rcbGet s rI).inventory < u + heldOf s (currentlyRunning s) rI ∨
        currentlyRunning s = 0 ∨ u = 0)) ∧
    (∀ s', request s rI u = some s' →
      ((u ≤ (rcbGet s rI).state ∧
        pcbGet s' (currentlyRunning s) = { pcbGet s (currentlyRunning s) with
          resources := resAdd (pcbGet s (currentlyRunning s)).resources rI u } ∧
        (pcbGet s' (currentlyRunning s)).state = 1 ∧
        rcbGet s' rI = { rcbGet s rI with state := (rcbGet s rI).state - u } ∧
        (∀ q : Int, rlGet s' q = rlGet s q) ∧
        (∀ j : Int, 0 ≤ j → j ≠ currentlyRunning s → pcbGet s' j = pcbGet s j) ∧
        (∀ k ∈ r4, k ≠ rI → rcbGet s' k = rcbGet s k)) ∨
       ((rcbGet s rI).state < u ∧
        pcbGet s' (currentlyRunning s)
          = { pcbGet s (currentlyRunning s) with state := 0 } ∧
        rlGet s' ((pcbGet s (currentlyRunning s)).priority)
          = (rlGet s ((pcbGet s (currentlyRunning s)).priority)).erase
              (currentlyRunning s) ∧
        rcbGet s' rI = { rcbGet s rI with
          waitlist := (rcbGet s rI).waitlist ++ [(currentlyRunning s, u)] } ∧
        (∀ j : Int, 0 ≤ j → j ≠ currentlyRunning s → pcbGet s' j = pcbGet s j) ∧
        (∀ q : Int, pyIdx 3 q ≠ pyIdx 3 ((pcbGet s (currentlyRunning s)).priority) →
          rlGet s' q = rlGet s q) ∧
        (∀ k ∈ r4, k ≠ rI → rcbGet s' k = rcbGet s k)))) := by
  have hI := inv_of_reachable hR
  obtain ⟨_, _, hcrst, _, _, _⟩ := cr_props hI.toInv0
  constructor
  · have hrh := runningAndHeld_eq hI.toInv0 rI
    unfold request
    rw [hrh]
    simp only []
    split_ifs with h1 h2 h3 h4 h5 h6
    · exact iff_of_true rfl (Or.inr (Or.inl h2))
    · exact iff_of_true rfl (Or.inr (Or.inr (Or.inl h3)))
    · exact iff_of_true rfl (Or.inr (Or.inr (Or.inr (Or.inl h4))))
    · exact iff_of_true rfl (Or.inr (Or.inr (Or.inr (Or.inr h5))))
    · refine iff_of_false (by simp) ?_
      intro hD
      rcases hD with h | h | h | h | h
      exacts [h h1, h2 h, h3 h, h4 h, h5 h]
    · refine iff_of_false (by simp) ?_
      intro hD
      rcases hD with h | h | h | h | h
      exacts [h h1, h2 h, h3 h, h4 h, h5 h]
    · exact iff_of_true rfl (Or.inl h1)
  · intro s' hs'
    obtain ⟨_, _, _, _, _, _, _, hbr⟩ := request_cases hI.toInv0 hs'
    rcases hbr with ⟨hGle, G1, G2, G3, G4, G5, _⟩ |
      ⟨hBlt, B1, B2, B3, B4, B5, B6, _⟩
    · refine Or.inl ⟨hGle, G1, ?_, G3, G5, G2, G4⟩
      rw [G1]
      exact hcrst
    · exact Or.inr ⟨hBlt, B1, B3, B5, B2, B4, B6⟩

/-- **C3** witness: the failure characterization instantiated at the
initial state with resource 0 and one unit (the root is running, so the
request fails). -/
theorem C3_request_contract_witness : Reachable initState ∧
    (request initState 0 1 = none ↔
      (¬((0:Int) = 0 ∨ (0:Int) = 1 ∨ (0:Int) = 2 ∨ (0:Int) = 3) ∨ (1:Int) < 0 ∨
        (rcbGet initState 0).inventory
          < 1 + heldOf initState (currentlyRunning initState) 0 ∨
        currentlyRunning initState = 0 ∨ (1:Int) = 0)) :=
  ⟨Reachable.init, (C3_request_contract Reachable.init 0 1).1⟩


/-- **C7.** Contract of `release resourceType units`: it fails, with no
mutation, iff the resource index is invalid, the units are negative, the
units exceed what the running process holds, or the units are zero;
otherwise the running process's held count drops by `units`, the available
count rises by `units`, and the wait-grant scan runs for that resource. -/
theorem C7_release_contract {s : OSManager} (hR : Reachable s) (rI u : Int) :
    (release s rI u = none ↔
      (¬(rI = 0 ∨ rI = 1 ∨ rI = 2 ∨ rI = 3) ∨ u < 0 ∨
        heldOf s (currentlyRunning s) rI < u ∨ u = 0)) ∧
    (∀ s', release s rI u = some s' →
      0 < u ∧ u ≤ heldOf s (currentlyRunning s) rI ∧
      heldOf (rcbModify (pcbModify s (currentlyRunning s)
          (fun b => { b with resources := resAdd b.resources rI (-u) })) rI
        (fun r => { r with state := r.state + u })) (currentlyRunning s) rI
        = heldOf s (currentlyRunning s) rI - u ∧
      (rcbGet (rcbModify (pcbModify s (currentlyRunning s)
          (fun b => { b with resources := resAdd b.resources rI (-u) })) rI
        (fun r => { r with state := r.state + u })) rI).state
        = (rcbGet s rI).state + u ∧
      s' = grantPossibleWaitingRequests
        (rcbModify (pcbModify s (currentlyRunning s)
            (fun b => { b with resources := resAdd b.resources rI (-u) })) rI
          (fun r => { r with state := r.state + u })) rI) := by
  have hI := inv_of_reachable hR
  constructor
  · have hrh := runningAndHeld_eq hI.toInv0 rI
    unfold release
    rw [hrh]
    simp only []
    split_ifs with h1 h2 h3 h4
    · exact iff_of_true rfl (Or.inr (Or.inl h2))
    · exact iff_of_true rfl (Or.inr (Or.inr (Or.inl h3)))
    · exact iff_of_true rfl (Or.inr (Or.inr (Or.inr h4)))
    · refine iff_of_false (by simp) ?_
      intro hD
      rcases hD with h | h | h | h
      exacts [h h1, h2 h, h3 h, h4 h]
    · exact iff_of_true rfl (Or.inl h1)
  · intro s' hs'
    obtain ⟨hr, hu, hle, heq⟩ := release_cases hI.toInv0 hs'
    have hrmem : rI ∈ r4 := by rcases hr with rfl | rfl | rfl | rfl <;> decide
    obtain ⟨G1, G2, G3, G4, G5, G6, L1, L2, L3⟩ :=
      release_mid_facts hI.toInv0 hrmem rfl
    refine ⟨hu, hle, ?_, ?_, heq⟩
    · unfold heldOf
      rw [G1]
      show resLookup (resAdd (pcbGet s (currentlyRunning s)).resources rI (-u)) rI
        = resLookup (pcbGet s (currentlyRunning s)).resources rI - u
      rw [resLookup_resAdd_self]
      ring
    · rw [G3]

/-- **C7** witness: the failure characterization at the initial state with
resource 0 and one unit (the root holds nothing, so the release fails). -/
theorem C7_release_contract_witness : Reachable initState ∧
    (release initState 0 1 = none ↔
      (¬((0:Int) = 0 ∨ (0:Int) = 1 ∨ (0:Int) = 2 ∨ (0:Int) = 3) ∨ (1:Int) < 0 ∨
        heldOf initState (currentlyRunning initState) 0 < 1 ∨ (1:Int) = 0)) :=
  ⟨Reachable.init, (C7_release_contract Reachable.init 0 1).1⟩

theorem getD_mem_of_lt {α} {l : List α} {n : Nat} (d : α) (h : n < l.length) :
    l.getD n d ∈ l := by
  unfold List.getD
  rw [List.get?_eq_get h]
  exact List.get_mem l n h

/-- **C8.** Contract of `create priority`: it fails, with no state change,
iff the priority is outside `{0, 1, 2}` or all sixteen slots are occupied;
otherwise the lowest-indexed free slot becomes a Ready process with the
given priority, parent `currentlyRunning`, and empty children and held
maps, registered in the parent's children list and appended to the tail of
the ready list of its priority, with everything else unchanged. -/
theorem C8_create_contract {s : OSManager} (hR : Reachable s) (p : Int) :
    (create s p = none ↔ (p < 0 ∨ 3 ≤ p ∨ ∀ i ∈ r16, occupied s i)) ∧
    (∀ s', create s p = some s' →
      (0 ≤ p ∧ p < 3) ∧
      ∃ i : Nat, i < 16 ∧ ¬ occupied s ((i : Int)) ∧
        (∀ j : Nat, j < i → occupied s ((j : Int))) ∧
        pcbGet s' ((i : Int)) = ⟨p, 1, currentlyRunning s, [], []⟩ ∧
        pcbGet s' (currentlyRunning s) = { pcbGet s (currentlyRunning s) with
          children := (pcbGet s (currentlyRunning s)).children ++ [(i : Int)] } ∧
        rlGet s' p = rlGet s p ++ [(i : Int)] ∧
        (∀ q : Int, pyIdx 3 q ≠ pyIdx 3 p → rlGet s' q = rlGet s q) ∧
        (∀ j : Int, 0 ≤ j → j ≠ (i : Int) → j ≠ currentlyRunning s →
          pcbGet s' j = pcbGet s j) ∧
        (∀ k : Int, rcbGet s' k = rcbGet s k)) := by
  have hI := inv_of_reachable hR
  have henc : ∀ i : Nat, pcbGet s ((i : Int)) = s.PCB.getD i freePCB := by
    intro i
    unfold pcbGet
    rw [pyIdx_of_nonneg (Int.natCast_nonneg _), Int.toNat_natCast]
  constructor
  · constructor
    · intro hn
      unfold create at hn
      split at hn
      · next h1 => tauto
      · next h1 =>
        split at hn
        · next hff =>
          right; right
          intro i hi
          obtain ⟨hi0, hi15⟩ := mem_r16_iff.1 hi
          unfold occupied
          have hpe : pcbGet s i = s.PCB.getD (i.toNat) freePCB := by
            unfold pcbGet
            rw [pyIdx_of_nonneg hi0]
          rw [hpe]
          exact findFree_none hff _ (getD_mem_of_lt _ (by rw [hI.lenPCB]; omega))
        · next i hff =>
          simp at hn
    · intro hD
      unfold create
      by_cases h1 : p < 0 ∨ 3 ≤ p
      · rw [if_pos h1]
      · rw [if_neg h1]
        cases hf : findFree s.PCB with
        | none => rfl
        | some i =>
          exfalso
          obtain ⟨hlen, hfree, _⟩ := findFree_some hf
          rcases hD with h | h | h
          · exact h1 (Or.inl h)
          · exact h1 (Or.inr h)
          · have ho := h ((i : Int)) (mem_r16_iff.2
              ⟨Int.natCast_nonneg _, by rw [hI.lenPCB] at hlen; omega⟩)
            unfold occupied at ho
            rw [henc i] at ho
            omega
  · intro s' hs'
    obtain ⟨⟨hp0, hp3⟩, i, hi16, hff, hfreei, hne0, hnecr,
      F1, F2, F3, F4, F5, F6, L1, L2, L3, F8⟩ := create_cases hI.toInv0 hs'
    obtain ⟨hlen, hfr, hmin⟩ := findFree_some hff
    refine ⟨⟨hp0, hp3⟩, i, hi16, ?_, ?_, F1, F2, F5, F6, F3, F4⟩
    · unfold occupied
      rw [henc i]
      omega
    · intro j hj
      unfold occupied
      rw [henc j]
      exact hmin j hj

/-- **C8** witness: the failure characterization at the initial state with
the invalid priority 5. -/
theorem C8_create_contract_witness : Reachable initState ∧
    (create initState 5 = none ↔
      ((5:Int) < 0 ∨ (3:Int) ≤ 5 ∨ ∀ i ∈ r16, occupied initState i)) :=
  ⟨Reachable.init, (C8_create_contract Reachable.init 5).1⟩


/-- **C9** witness: the wait-queue entry facts at a concrete reachable
state whose resource-2 wait queue holds the blocked process 2. -/
theorem C9_waitlist_entry_invariant_witness : Reachable blockedState ∧
    (1 ≤ (1 : Int) ∧ (1 ≤ (2 : Int) ∧ (2 : Int) ≤ 15) ∧ (2 : Int) ≠ 0 ∧
      occupied blockedState 2 ∧ (pcbGet blockedState 2).state = 0) := by
  have hreach : Reachable blockedState :=
    Reachable.step_request
      (Reachable.step_timeout (Reachable.step_create
        (Reachable.step_request
          (Reachable.step_create Reachable.init
            (rfl : create initState 1 = some s1w))
          (rfl : request s1w 2 2 = some s2w))
        (rfl : create s2w 1 = some s3w)))
      (rfl : request s4w 2 1 = some blockedState)
  exact ⟨hreach,
    C9_waitlist_entry_invariant hreach 2 (by decide) (2, 1) (by decide)⟩


/-! ### Parent chains and the process tree -/

theorem parentStep_zero (s : OSManager) : parentStep s 0 = 0 := by
  unfold parentStep
  rw [if_pos rfl]

theorem parentStep_ne {s : OSManager} {x : Int} (h : x ≠ 0) :
    parentStep s x = (pcbGet s x).parent := by
  unfold parentStep
  rw [if_neg h]

theorem iterate_zero_fix (s : OSManager) (n : Nat) :
    (parentStep s)^[n] 0 = 0 :=
  Function.iterate_fixed (parentStep_zero s) n

theorem iterate_absorb {s : OSManager} {x : Int} {m : Nat}
    (h : (parentStep s)^[m] x = 0) {n : Nat} (hmn : m ≤ n) :
    (parentStep s)^[n] x = 0 := by
  have he : n = (n - m) + m := by omega
  rw [he, Function.iterate_add_apply, h, iterate_zero_fix]

theorem no_period {s : OSManager} {c : Int} {T : Nat} (hT : 1 ≤ T)
    (hper : (parentStep s)^[T] c = c) (hroot : (parentStep s)^[15] c = 0)
    (hc : c ≠ 0) : False := by
  have h15T : (parentStep s)^[15 * T] c = c := by
    rw [Nat.mul_comm, Function.iterate_mul]
    exact Function.iterate_fixed hper 15
  have h0 : (parentStep s)^[15 * T] c = 0 :=
    iterate_absorb hroot (by omega)
  rw [h15T] at h0
  exact hc h0

theorem desc_occ {s : OSManager} (hI : Inv s) {c : Int} (hc : c ∈ r16)
    (hocc : occupied s c) : ∀ {j : Int}, Desc s c j → j ∈ r16 ∧ occupied s j := by
  intro j h
  induction h with
  | refl => exact ⟨hc, hocc⟩
  | step hd hmem ih =>
    obtain ⟨hx, hox⟩ := ih
    obtain ⟨⟨h1, h15⟩, ho, _⟩ := hI.child_mem _ hx _ hmem
    exact ⟨mem_r16_iff.2 ⟨by omega, h15⟩, ho⟩

theorem desc_chain {s : OSManager} (hI : Inv s) {c : Int} (hc : c ∈ r16)
    (hocc : occupied s c) : ∀ {j : Int}, Desc s c j →
    ∃ m : Nat, (parentStep s)^[m] j = c := by
  intro j h
  induction h with
  | @step x y hd hmem ih =>
    obtain ⟨m, hm⟩ := ih
    obtain ⟨hx16, hxocc⟩ := desc_occ hI hc hocc hd
    obtain ⟨⟨h1, h15⟩, _, hpar⟩ := hI.child_mem _ hx16 _ hmem
    refine ⟨m + 1, ?_⟩
    rw [Function.iterate_succ_apply]
    have hstep : parentStep s y = x := by
      unfold parentStep
      rw [if_neg (by omega), hpar]
    rw [hstep, hm]
  | refl => exact ⟨0, rfl⟩

theorem chain_desc {s : OSManager} (hI : Inv s) (hTI : TreeInv s) {c : Int}
    (hc0 : c ≠ 0) : ∀ (m : Nat) (j : Int), j ∈ r16 → occupied s j →
    (parentStep s)^[m] j = c → Desc s c j := by
  intro m
  induction m with
  | zero =>
    intro j _ _ h
    rw [Function.iterate_zero_apply] at h
    rw [← h]
    exact Desc.refl
  | succ m ih =>
    intro j hj hocc h
    rw [Function.iterate_succ_apply] at h
    by_cases hj0 : j = 0
    · rw [hj0, parentStep_zero, iterate_zero_fix] at h
      exact absurd h.symm hc0
    · obtain ⟨⟨hp0, hp15⟩, hpo, hpch⟩ := hTI.par_valid j hj hj0 hocc
      have hps : parentStep s j = (pcbGet s j).parent := by
        unfold parentStep
        rw [if_neg hj0]
      rw [hps] at h
      exact Desc.step (ih _ (mem_r16_iff.2 ⟨hp0, hp15⟩) hpo h) hpch

theorem Desc_trans {s : OSManager} {a b j : Int} (h1 : Desc s a b)
    (h2 : Desc s b j) : Desc s a j := by
  induction h2 with
  | refl => exact h1
  | step _ hmem ih => exact Desc.step ih hmem

theorem Desc_mono {s t : OSManager}
    (hsub : ∀ i : Int, ((pcbGet t i).children).Sublist (pcbGet s i).children)
    {c : Int} : ∀ {j : Int}, Desc t c j → Desc s c j := by
  intro j h
  induction h with
  | refl => exact Desc.refl
  | step _ hmem ih => exact Desc.step ih ((hsub _).mem hmem)

theorem chain_in {s : OSManager} (hI : Inv s) (hTI : TreeInv s) {i : Int}
    (hi : i ∈ r16) (hocc : occupied s i) :
    ∀ m : Nat, ((parentStep s)^[m] i) ∈ r16 ∧ occupied s ((parentStep s)^[m] i) := by
  intro m
  induction m with
  | zero => exact ⟨hi, hocc⟩
  | succ m ih =>
    obtain ⟨hx, hox⟩ := ih
    rw [Function.iterate_succ_apply']
    by_cases h0 : (parentStep s)^[m] i = 0
    · rw [h0, parentStep_zero]
      refine ⟨by decide, ?_⟩
      unfold occupied
      rw [hI.root_prio]
    · obtain ⟨⟨hp0, hp15⟩, hpo, _⟩ := hTI.par_valid _ hx h0 hox
      rw [parentStep_ne h0]
      exact ⟨mem_r16_iff.2 ⟨hp0, hp15⟩, hpo⟩

theorem iterate_congr {f g : Int → Int} {i : Int} :
    ∀ n : Nat, (∀ m : Nat, m < n → g (f^[m] i) = f (f^[m] i)) →
    g^[n] i = f^[n] i := by
  intro n
  induction n with
  | zero => intro _; rfl
  | succ n ih =>
    intro h
    rw [Function.iterate_succ_apply', Function.iterate_succ_apply',
      ih (fun m hm => h m (by omega)), h n (by omega)]

theorem disjoint_siblings {s : OSManager} (hI : Inv s) (hTI : TreeInv s)
    {c : Int} (hc : c ∈ r16) (hocc : occupied s c) (hcne : c ≠ 0)
    {k k' j : Int} (hne : k ≠ k') (hk : k ∈ (pcbGet s c).children)
    (hk' : k' ∈ (pcbGet s c).children)
    (hd : Desc s k j) (hd' : Desc s k' j) : False := by
  obtain ⟨⟨hk1, hk15⟩, hko, hkpar⟩ := hI.child_mem c hc k hk
  obtain ⟨⟨hk1', hk15'⟩, hko', hkpar'⟩ := hI.child_mem c hc k' hk'
  have hkstep : parentStep s k = c := by
    unfold parentStep
    rw [if_neg (by omega), hkpar]
  have hkstep' : parentStep s k' = c := by
    unfold parentStep
    rw [if_neg (by omega), hkpar']
  obtain ⟨a, ha⟩ := desc_chain hI (mem_r16_iff.2 ⟨by omega, hk15⟩) hko hd
  obtain ⟨b, hb⟩ := desc_chain hI (mem_r16_iff.2 ⟨by omega, hk15'⟩) hko' hd'
  have key : ∀ (x y : Int), parentStep s x = c → parentStep s y = c →
      ∀ (a b : Nat), a < b → (parentStep s)^[a] j = x →
      (parentStep s)^[b] j = y → False := by
    intro x y hx hy a b hab hfa hfb
    have he : (parentStep s)^[b - a] x = y := by
      have h1 : (parentStep s)^[(b - a) + a] j = y := by
        rw [show b - a + a = b from by omega]
        exact hfb
      rw [Function.iterate_add_apply, hfa] at h1
      exact h1
    have hper : (parentStep s)^[b - a] c = c := by
      have h1 : (parentStep s)^[(b - a) + 1] x = c := by
        rw [Function.iterate_succ_apply', he, hy]
      have h2 : (parentStep s)^[(b - a) + 1] x = (parentStep s)^[b - a] c := by
        rw [Function.iterate_add_apply, Function.iterate_one, hx]
      rw [h1] at h2
      exact h2.symm
    exact no_period (by omega) hper (hTI.rooted c hc hocc) hcne
  rcases Nat.lt_trichotomy a b with hab | hab | hab
  · exact key k k' hkstep hkstep' a b hab ha hb
  · subst hab
    rw [ha] at hb
    exact hne hb
  · exact key k' k hkstep' hkstep b a hab hb ha

theorem not_desc_of_parent {s : OSManager} (hI : Inv s) (hTI : TreeInv s)
    {c k : Int} (hc : c ∈ r16) (hocc : occupied s c) (hcne : c ≠ 0)
    (hstep : parentStep s k = c) (hk : k ∈ r16) (hko : occupied s k) :
    ¬ Desc s k c := by
  intro hd
  obtain ⟨e, he⟩ := desc_chain hI hk hko hd
  have hper : (parentStep s)^[e + 1] c = c := by
    rw [Function.iterate_succ_apply', he, hstep]
  exact no_period (by omega) hper (hTI.rooted c hc hocc) hcne

theorem anc_not_desc {s : OSManager} (hI : Inv s) (hTI : TreeInv s)
    {c : Int} (hc : c ∈ r16) (hocc : occupied s c) (hcne : c ≠ 0)
    {m : Nat} (hm : 1 ≤ m) (hz : (parentStep s)^[m] c ≠ 0) :
    ¬ Desc s c ((parentStep s)^[m] c) := by
  intro hd
  obtain ⟨e, he⟩ := desc_chain hI hc hocc hd
  have hper : (parentStep s)^[e + m] c = c := by
    rw [Function.iterate_add_apply, he]
  exact no_period (by omega) hper (hTI.rooted c hc hocc) hcne

theorem reach_root_le14 {s : OSManager} (hI : Inv s) (hTI : TreeInv s)
    {i ι : Int} (hi : i ∈ r16) (hocc : occupied s i) (hι : ι ∈ r16)
    (hfree : pcbGet s ι = freePCB) : (parentStep s)^[14] i = 0 := by
  have hroot := hTI.rooted i hi hocc
  by_cases hd : ∃ m : Nat, m ≤ 14 ∧ (parentStep s)^[m] i = 0
  · obtain ⟨m, hm, h0⟩ := hd
    exact iterate_absorb h0 hm
  · push_neg at hd
    exfalso
    have hι0 : ι ≠ 0 := by
      intro hh
      rw [hh] at hfree
      have := hI.root_prio
      rw [hfree] at this
      exact absurd this (by decide)
    have hinj : ∀ a b : Nat, a < b → b ≤ 14 →
        (parentStep s)^[a] i ≠ (parentStep s)^[b] i := by
      intro a b hab hb heq
      refine hd (15 - b + a) (by omega) ?_
      have h1 : (parentStep s)^[15 - b + b] i = 0 := by
        rw [show 15 - b + b = 15 from by omega]
        exact hroot
      rw [Function.iterate_add_apply] at h1 ⊢
      rw [← heq] at h1
      exact h1
    have hginj : Function.Injective
        (fun m : Fin 15 => (parentStep s)^[(m : Nat)] i) := by
      intro a b hab
      simp only [] at hab
      rcases Nat.lt_trichotomy (a : Nat) (b : Nat) with h | h | h
      · exact absurd hab (hinj _ _ h (by omega))
      · exact Fin.ext h
      · exact absurd hab.symm (hinj _ _ h (by omega))
    have hsub : Finset.image (fun m : Fin 15 => (parentStep s)^[(m : Nat)] i)
        Finset.univ ⊆ Finset.Icc (1 : Int) 15 := by
      intro x hx
      rcases Finset.mem_image.1 hx with ⟨m, _, hm⟩
      obtain ⟨hx16, _⟩ := chain_in hI hTI hi hocc (m : Nat)
      have hne0 := hd (m : Nat) (by omega)
      rw [hm] at hx16 hne0
      obtain ⟨h0', h15'⟩ := mem_r16_iff.1 hx16
      exact Finset.mem_Icc.2 ⟨by omega, h15'⟩
    have hcard : (Finset.image (fun m : Fin 15 => (parentStep s)^[(m : Nat)] i)
        Finset.univ).card = 15 := by
      rw [Finset.card_image_of_injective _ hginj, Finset.card_univ]
      simp
    have heq : Finset.image (fun m : Fin 15 => (parentStep s)^[(m : Nat)] i)
        Finset.univ = Finset.Icc (1 : Int) 15 := by
      refine Finset.eq_of_subset_of_card_le hsub ?_
      rw [hcard, Int.card_Icc]
      decide
    have hιmem : ι ∈ Finset.Icc (1 : Int) 15 := by
      obtain ⟨h0, h15⟩ := mem_r16_iff.1 hι
      exact Finset.mem_Icc.2 ⟨by omega, h15⟩
    rw [← heq] at hιmem
    rcases Finset.mem_image.1 hιmem with ⟨m, _, hm⟩
    obtain ⟨_, hoccι⟩ := chain_in hI hTI hi hocc (m : Nat)
    rw [hm] at hoccι
    unfold occupied at hoccι
    rw [hfree] at hoccι
    exact absurd hoccι (by decide)


/-! ### Tree-shape invariant: preservation by the non-destroy operations -/

theorem treeInv_transfer {s t : OSManager}
    (hpar : ∀ j : Int, (pcbGet t j).parent = (pcbGet s j).parent)
    (hprio : ∀ j : Int, (pcbGet t j).priority = (pcbGet s j).priority)
    (hch : ∀ j : Int, (pcbGet t j).children = (pcbGet s j).children)
    (hTI : TreeInv s) : TreeInv t := by
  have hps : parentStep t = parentStep s := by
    funext x
    unfold parentStep
    by_cases h : x = 0
    · rw [if_pos h, if_pos h]
    · rw [if_neg h, if_neg h, hpar]
  have hocc : ∀ j : Int, occupied t j ↔ occupied s j := fun j => by
    unfold occupied
    rw [hprio]
  constructor
  · intro i hi hi0 ho
    obtain ⟨hb, hpo, hm⟩ := hTI.par_valid i hi hi0 ((hocc i).1 ho)
    rw [hpar i, hch]
    exact ⟨hb, (hocc _).2 hpo, hm⟩
  · intro i hi ho
    rw [hps]
    exact hTI.rooted i hi ((hocc i).1 ho)

theorem pcbGet_timeout (s : OSManager) (j : Int) :
    pcbGet (timeout s) j = pcbGet s j := by
  unfold timeout
  split <;> rfl

theorem treeInv_timeout {s : OSManager} (hTI : TreeInv s) :
    TreeInv (timeout s) :=
  treeInv_transfer (fun j => by rw [pcbGet_timeout])
    (fun j => by rw [pcbGet_timeout]) (fun j => by rw [pcbGet_timeout]) hTI

theorem request_pcb_shape {s : OSManager} {rI u : Int} {s' : OSManager}
    (h : request s rI u = some s') : ∀ j : Int,
    (pcbGet s' j).parent = (pcbGet s j).parent ∧
    (pcbGet s' j).priority = (pcbGet s j).priority ∧
    (pcbGet s' j).children = (pcbGet s j).children := by
  unfold request at h
  split at h
  · simp at h
  split at h
  · simp at h
  simp only [] at h
  split at h
  · simp at h
  split at h
  · simp at h
  split at h
  · simp at h
  split at h
  · simp only [Option.some.injEq] at h
    subst h
    intro j
    rcases pcbGet_pcbModify_cases
      (rcbModify s rI (fun r => { r with state := r.state - u }))
      (fun b => { b with resources := resAdd b.resources rI u })
      (runningAndHeld s rI).1 j with hc | ⟨he, hc⟩
    · rw [hc]
      exact ⟨rfl, rfl, rfl⟩
    · rw [hc, ← he]
      exact ⟨rfl, rfl, rfl⟩
  · simp only [Option.some.injEq] at h
    subst h
    intro j
    simp only [pcbGet_rcbModify, pcbGet_rlSet]
    rcases pcbGet_pcbModify_cases s (fun b => { b with state := 0 })
      (runningAndHeld s rI).1 j with hc | ⟨he, hc⟩
    · rw [hc]
      exact ⟨rfl, rfl, rfl⟩
    · rw [hc, he]
      exact ⟨rfl, rfl, rfl⟩

theorem treeInv_request {s : OSManager} {rI u : Int} {s' : OSManager}
    (hTI : TreeInv s) (h : request s rI u = some s') : TreeInv s' :=
  treeInv_transfer (fun j => (request_pcb_shape h j).1)
    (fun j => (request_pcb_shape h j).2.1)
    (fun j => (request_pcb_shape h j).2.2) hTI

theorem release_pcb_shape {s : OSManager} {rI u : Int} {s' : OSManager}
    (hI : Inv s) (h : release s rI u = some s') : ∀ j : Int,
    (pcbGet s' j).parent = (pcbGet s j).parent ∧
    (pcbGet s' j).priority = (pcbGet s j).priority ∧
    (pcbGet s' j).children = (pcbGet s j).children := by
  obtain ⟨hr, hu, hle, heq⟩ := release_cases hI.toInv0 h
  have hrmem : rI ∈ r4 := by rcases hr with rfl | rfl | rfl | rfl <;> decide
  have hmid := release_mid_inv hI hrmem hu hle
  obtain ⟨_, _, _, _, _, _, _, g8, _, _⟩ := grantScan_spec hmid.toInv0 hrmem
  subst heq
  intro j
  obtain ⟨gc, gp, gpr⟩ := g8 j
  rw [gp, gpr, gc]
  simp only [pcbGet_rcbModify]
  rcases pcbGet_pcbModify_cases s
    (fun b => { b with resources := resAdd b.resources rI (-u) })
    (currentlyRunning s) j with hc | ⟨he, hc⟩
  · rw [hc]
    exact ⟨rfl, rfl, rfl⟩
  · rw [hc, he]
    exact ⟨rfl, rfl, rfl⟩

theorem treeInv_release {s : OSManager} {rI u : Int} {s' : OSManager}
    (hI : Inv s) (hTI : TreeInv s) (h : release s rI u = some s') : TreeInv s' :=
  treeInv_transfer (fun j => (release_pcb_shape hI h j).1)
    (fun j => (release_pcb_shape hI h j).2.1)
    (fun j => (release_pcb_shape hI h j).2.2) hTI

theorem treeInv_create {s : OSManager} {p : Int} {s' : OSManager}
    (hI : Inv s) (hTI : TreeInv s) (h : create s p = some s') : TreeInv s' := by
  obtain ⟨⟨hp0, hp3⟩, i, hilen, hff, hιfree, hι0ne, hιcr, F1, F2, F3, F4, F5, F6,
    L1, L2, L3, F8⟩ := create_cases hI.toInv0 h
  obtain ⟨⟨hcr0, hcr15⟩, hcrocc, hcrst, hcrprio, tcr, hcrrl⟩ := cr_props hI.toInv0
  have hι0 : (0 : Int) ≤ (i : Int) := Int.natCast_nonneg _
  have hι15 : (i : Int) ≤ 15 := by omega
  have hι16 : ((i : Int)) ∈ r16 := mem_r16_iff.2 ⟨hι0, hι15⟩
  have hcr16 : currentlyRunning s ∈ r16 := mem_r16_iff.2 ⟨hcr0, hcr15⟩
  have hF : ∀ j : Int, 0 ≤ j → j ≠ (i : Int) →
      (pcbGet s' j).parent = (pcbGet s j).parent ∧
      (pcbGet s' j).priority = (pcbGet s j).priority := by
    intro j hj0 hjι
    by_cases hjcr : j = currentlyRunning s
    · subst hjcr
      rw [F2]
      exact ⟨rfl, rfl⟩
    · rw [F3 j hj0 hjι hjcr]
      exact ⟨rfl, rfl⟩
  have hCh : ∀ j : Int, 0 ≤ j → j ≠ (i : Int) → j ≠ currentlyRunning s →
      (pcbGet s' j).children = (pcbGet s j).children := by
    intro j hj0 hjι hjcr
    rw [F3 j hj0 hjι hjcr]
  have hocc_of : ∀ j : Int, 0 ≤ j → j ≠ (i : Int) →
      (occupied s' j ↔ occupied s j) := by
    intro j hj0 hjι
    unfold occupied
    rw [(hF j hj0 hjι).2]
  have hnotι : ∀ j : Int, occupied s j → j ≠ (i : Int) := by
    intro j ho hh
    rw [hh] at ho
    unfold occupied at ho
    rw [hιfree] at ho
    exact absurd ho (by decide)
  have hstep_agree : ∀ x : Int, x ∈ r16 → occupied s x →
      parentStep s' x = parentStep s x := by
    intro x hx hox
    by_cases hx0 : x = 0
    · rw [hx0, parentStep_zero, parentStep_zero]
    · obtain ⟨hx0', hx15⟩ := mem_r16_iff.1 hx
      rw [parentStep_ne hx0, parentStep_ne hx0,
        (hF x hx0' (hnotι x hox)).1]
  have hchain_agree : ∀ x : Int, x ∈ r16 → occupied s x → ∀ n : Nat,
      (parentStep s')^[n] x = (parentStep s)^[n] x := by
    intro x hx hox n
    refine iterate_congr n ?_
    intro m hm
    obtain ⟨hm16, hmocc⟩ := chain_in hI hTI hx hox m
    exact hstep_agree _ hm16 hmocc
  constructor
  · intro j hj hj0 ho
    by_cases hjι : j = (i : Int)
    · subst hjι
      refine ⟨?_, ?_, ?_⟩
      · rw [F1]
        show 0 ≤ currentlyRunning s ∧ currentlyRunning s ≤ 15
        exact ⟨hcr0, hcr15⟩
      · have hpi : (pcbGet s' ((i : Int))).parent = currentlyRunning s := by
          rw [F1]
        rw [hpi]
        unfold occupied
        rw [(hF _ hcr0 (hnotι _ hcrocc)).2]
        exact hcrocc
      · have hpi : (pcbGet s' ((i : Int))).parent = currentlyRunning s := by
          rw [F1]
        rw [hpi, F2]
        show (i : Int) ∈ (pcbGet s (currentlyRunning s)).children ++ [(i : Int)]
        exact List.mem_append_right _ (List.mem_singleton_self _)
    · obtain ⟨hj0', hj15⟩ := mem_r16_iff.1 hj
      have hos : occupied s j := (hocc_of j hj0' hjι).1 ho
      obtain ⟨⟨hpb0, hpb15⟩, hpo, hpm⟩ := hTI.par_valid j hj hj0 hos
      rw [(hF j hj0' hjι).1]
      refine ⟨⟨hpb0, hpb15⟩, ?_, ?_⟩
      · unfold occupied
        rw [(hF _ hpb0 (hnotι _ hpo)).2]
        exact hpo
      · by_cases hpcr : (pcbGet s j).parent = currentlyRunning s
        · rw [hpcr, F2]
          rw [hpcr] at hpm
          exact List.mem_append_left _ hpm
        · rw [hCh _ hpb0 (hnotι _ hpo) hpcr]
          exact hpm
  · intro j hj ho
    by_cases hjι : j = (i : Int)
    · subst hjι
      have hstepι : parentStep s' ((i : Int)) = currentlyRunning s := by
        rw [parentStep_ne hι0ne, F1]
      have h14 : (parentStep s)^[14] (currentlyRunning s) = 0 :=
        reach_root_le14 hI hTI hcr16 hcrocc hι16 hιfree
      have h14' : (parentStep s')^[14] (currentlyRunning s) = 0 := by
        rw [hchain_agree _ hcr16 hcrocc 14]
        exact h14
      show (parentStep s')^[15] ((i : Int)) = 0
      rw [show (15 : Nat) = 14 + 1 from rfl, Function.iterate_add_apply,
        Function.iterate_one, hstepι]
      exact h14'
    · obtain ⟨hj0', hj15⟩ := mem_r16_iff.1 hj
      have hos : occupied s j := (hocc_of j hj0' hjι).1 ho
      rw [hchain_agree _ hj hos 15]
      exact hTI.rooted j hj hos


/-! ### Occupied slots versus the free sentinel -/

theorem occ_ne_free {s : OSManager} {j : Int} (h : occupied s j) :
    pcbGet s j ≠ freePCB := by
  intro hf
  unfold occupied at h
  rw [hf] at h
  exact absurd h (by decide)

theorem ne_free_occ {s : OSManager} (hI : Inv0 s) {j : Int} (hj : j ∈ r16)
    (h : pcbGet s j ≠ freePCB) : occupied s j := by
  by_contra hno
  unfold occupied at hno
  push_neg at hno
  exact h (hI.free_default j hj hno)

/-- A descendant of `c` is `c` itself or a descendant of one of `c`'s direct
children (the first step of the children chain). -/
theorem Desc_first_step {s : OSManager} {c j : Int} (h : Desc s c j) :
    j = c ∨ ∃ k ∈ (pcbGet s c).children, Desc s k j := by
  induction h with
  | refl => exact Or.inl rfl
  | @step x y hd hmem ih =>
    rcases ih with rfl | ⟨k, hk, hdk⟩
    · exact Or.inr ⟨y, hmem, Desc.refl⟩
    · exact Or.inr ⟨k, hk, Desc.step hdk hmem⟩

/-- Descendant chains transfer from `s` to a later state `t` when `t` keeps
the children links of slots whose whole chain stays unfreed. -/
theorem Desc_persist {s t : OSManager}
    (hPers : ∀ i j : Int, pcbGet t i ≠ freePCB → j ∈ (pcbGet s i).children →
      pcbGet t j ≠ freePCB → j ∈ (pcbGet t i).children)
    {k : Int} (hun : ∀ j : Int, Desc s k j → pcbGet t j ≠ freePCB) :
    ∀ {j : Int}, Desc s k j → Desc t k j := by
  intro j h
  induction h with
  | refl => exact Desc.refl
  | @step x y hd hmem ih =>
    exact Desc.step ih (hPers x y (hun x hd) hmem (hun y (Desc.step hd hmem)))


/-- Master lemma of the destroy recursion: with sufficient fuel, measured by
the remaining depth budget of the target's ancestor chain, `destroyRec`
preserves the tree-shape invariant, frees exactly the descendants of the
target (soundness and completeness of subtree destruction). -/
theorem destroyRec_tree : ∀ (fuel : Nat) (s : OSManager) (c : Int),
    Inv s → TreeInv s → 1 ≤ c → c ≤ 15 → occupied s c →
    (∀ m : Nat, m + fuel < 16 → (parentStep s)^[m] c ≠ 0) →
    TreeInv (destroyRec fuel s c) ∧
    (∀ j ∈ r16, Desc s c j → pcbGet (destroyRec fuel s c) j = freePCB) ∧
    (∀ j ∈ r16, pcbGet (destroyRec fuel s c) j = freePCB →
      pcbGet s j = freePCB ∨ Desc s c j) := by
  intro fuel
  induction fuel with
  | zero =>
    intro s c hI hTI hc1 hc15 hocc hbud
    have hc16 : c ∈ r16 := mem_r16_iff.2 ⟨by omega, hc15⟩
    exact absurd (hTI.rooted c hc16 hocc) (hbud 15 (by omega))
  | succ fuel ih =>
    intro s c hI hTI hc1 hc15 hocc hbud
    have hc16 : c ∈ r16 := mem_r16_iff.2 ⟨by omega, hc15⟩
    have hc0 : c ≠ 0 := by omega
    have AUX : ∀ (ks : List Int), (∀ x ∈ ks, x ∈ (pcbGet s c).children) →
        ks.Nodup → ∀ (acc : OSManager), Inv acc → TreeInv acc →
        (∀ j ∈ r16, pcbGet acc j = freePCB →
          pcbGet s j = freePCB ∨ Desc s c j) →
        (∀ i : Int, ((pcbGet acc i).children).Sublist (pcbGet s i).children) →
        (∀ j ∈ r16, pcbGet acc j ≠ freePCB →
          (pcbGet acc j).priority = (pcbGet s j).priority ∧
          (pcbGet acc j).parent = (pcbGet s j).parent) →
        (∀ i j : Int, pcbGet acc i ≠ freePCB → j ∈ (pcbGet s i).children →
          pcbGet acc j ≠ freePCB → j ∈ (pcbGet acc i).children) →
        (∀ x ∈ ks, ∀ j ∈ r16, Desc s x j → pcbGet acc j ≠ freePCB) →
        occupied acc c →
        Inv (List.foldl (fun acc k => destroyRec fuel acc k) acc ks) ∧
        TreeInv (List.foldl (fun acc k => destroyRec fuel acc k) acc ks) ∧
        (∀ j : Int, pcbGet acc j = freePCB →
          pcbGet (List.foldl (fun acc k => destroyRec fuel acc k) acc ks) j
            = freePCB) ∧
        (∀ j ∈ r16,
          pcbGet (List.foldl (fun acc k => destroyRec fuel acc k) acc ks) j
            = freePCB → pcbGet s j = freePCB ∨ Desc s c j) ∧
        (∀ i : Int,
          ((pcbGet (List.foldl (fun acc k => destroyRec fuel acc k) acc ks)
            i).children).Sublist (pcbGet s i).children) ∧
        (∀ j ∈ r16,
          pcbGet (List.foldl (fun acc k => destroyRec fuel acc k) acc ks) j
            ≠ freePCB →
          (pcbGet (List.foldl (fun acc k => destroyRec fuel acc k) acc ks)
            j).priority = (pcbGet s j).priority ∧
          (pcbGet (List.foldl (fun acc k => destroyRec fuel acc k) acc ks)
            j).parent = (pcbGet s j).parent) ∧
        (∀ i j : Int,
          pcbGet (List.foldl (fun acc k => destroyRec fuel acc k) acc ks) i
            ≠ freePCB → j ∈ (pcbGet s i).children →
          pcbGet (List.foldl (fun acc k => destroyRec fuel acc k) acc ks) j
            ≠ freePCB →
          j ∈ (pcbGet (List.foldl (fun acc k => destroyRec fuel acc k) acc ks)
            i).children) ∧
        (∀ x ∈ ks, ∀ j ∈ r16, Desc s x j →
          pcbGet (List.foldl (fun acc k => destroyRec fuel acc k) acc ks) j
            = freePCB) ∧
        occupied (List.foldl (fun acc k => destroyRec fuel acc k) acc ks) c := by
      intro ks
      induction ks with
      | nil =>
        intro _ _ acc hIa hTIa hR2 hR3 hR4 hR5 hR6 hR7
        simp only [List.foldl_nil]
        exact ⟨hIa, hTIa, fun j h => h, hR2, hR3, hR4, hR5,
          fun x hx => absurd hx (List.not_mem_nil x), hR7⟩
      | cons k ks ihl =>
        intro hmem hnd acc hIa hTIa hR2 hR3 hR4 hR5 hR6 hR7
        simp only [List.foldl_cons]
        have hkch : k ∈ (pcbGet s c).children := hmem k (List.mem_cons_self k ks)
        obtain ⟨⟨hk1, hk15⟩, hkocc, hkpar⟩ := hI.child_mem c hc16 k hkch
        have hk16 : k ∈ r16 := mem_r16_iff.2 ⟨by omega, hk15⟩
        have hk0 : k ≠ 0 := by omega
        have hkAne : pcbGet acc k ≠ freePCB :=
          hR6 k (List.mem_cons_self k ks) k hk16 Desc.refl
        have hkAocc : occupied acc k := ne_free_occ hIa.toInv0 hk16 hkAne
        have hstepk : parentStep s k = c := by
          rw [parentStep_ne hk0]
          exact hkpar
        have hchain : ∀ m : Nat,
            (parentStep acc)^[m] k = (parentStep s)^[m] k := by
          intro m
          refine iterate_congr m ?_
          intro mq _
          rcases mq with _ | e
          · rw [Function.iterate_zero_apply, parentStep_ne hk0,
              parentStep_ne hk0]
            exact (hR4 k hk16 hkAne).2
          · have hrw : (parentStep s)^[e + 1] k = (parentStep s)^[e] c := by
              rw [Function.iterate_succ_apply, hstepk]
            rw [hrw]
            by_cases hy0 : (parentStep s)^[e] c = 0
            · rw [hy0, parentStep_zero, parentStep_zero]
            · obtain ⟨hy16, hyocc⟩ := chain_in hI hTI hc16 hocc e
              have hya : pcbGet acc ((parentStep s)^[e] c) ≠ freePCB := by
                rcases e with _ | d
                · rw [Function.iterate_zero_apply]
                  exact occ_ne_free hR7
                · intro hf
                  rcases hR2 _ hy16 hf with hsf | hdesc
                  · exact occ_ne_free hyocc hsf
                  · exact anc_not_desc hI hTI hc16 hocc hc0 (by omega) hy0 hdesc
              rw [parentStep_ne hy0, parentStep_ne hy0]
              exact (hR4 _ hy16 hya).2
        have hbudk : ∀ m : Nat, m + fuel < 16 → (parentStep acc)^[m] k ≠ 0 := by
          intro m hm
          rw [hchain m]
          rcases m with _ | mq
          · rw [Function.iterate_zero_apply]
            exact hk0
          · rw [Function.iterate_succ_apply, hstepk]
            exact hbud mq (by omega)
        obtain ⟨tTI, tCompl, tSound⟩ := ih acc k hIa hTIa hk1 hk15 hkAocc hbudk
        obtain ⟨aInv, _, _, aFree, aSub, aPP, aPers, _⟩ :=
          destroyRec_facts fuel acc k hIa hk1 hk15
        have hR2A : ∀ j ∈ r16, pcbGet (destroyRec fuel acc k) j = freePCB →
            pcbGet s j = freePCB ∨ Desc s c j := by
          intro j hj hf
          rcases tSound j hj hf with haccf | hdesc
          · exact hR2 j hj haccf
          · exact Or.inr (Desc_trans (Desc.step Desc.refl hkch)
              (Desc_mono hR3 hdesc))
        have hR3A : ∀ i : Int, ((pcbGet (destroyRec fuel acc k) i).children).Sublist
            (pcbGet s i).children := fun i => (aSub i).trans (hR3 i)
        have hR4A : ∀ j ∈ r16, pcbGet (destroyRec fuel acc k) j ≠ freePCB →
            (pcbGet (destroyRec fuel acc k) j).priority = (pcbGet s j).priority ∧
            (pcbGet (destroyRec fuel acc k) j).parent = (pcbGet s j).parent := by
          intro j hj hne
          have hne' : pcbGet acc j ≠ freePCB := fun hf => hne (aFree j hf)
          obtain ⟨r1, r2⟩ := aPP j hj hne
          obtain ⟨p1, p2⟩ := hR4 j hj hne'
          exact ⟨r1.trans p1, r2.trans p2⟩
        have hR5A : ∀ i j : Int, pcbGet (destroyRec fuel acc k) i ≠ freePCB →
            j ∈ (pcbGet s i).children →
            pcbGet (destroyRec fuel acc k) j ≠ freePCB →
            j ∈ (pcbGet (destroyRec fuel acc k) i).children := by
          intro i j hit hjs hjt
          have hit' : pcbGet acc i ≠ freePCB := fun hf => hit (aFree i hf)
          have hjt' : pcbGet acc j ≠ freePCB := fun hf => hjt (aFree j hf)
          exact aPers i j hit (hR5 i j hit' hjs hjt') hjt
        have hR6A : ∀ x ∈ ks, ∀ j ∈ r16, Desc s x j →
            pcbGet (destroyRec fuel acc k) j ≠ freePCB := by
          intro x hx j hj hd hf
          rcases tSound j hj hf with haccf | hdesc
          · exact hR6 x (List.mem_cons_of_mem k hx) j hj hd haccf
          · have hxch : x ∈ (pcbGet s c).children :=
              hmem x (List.mem_cons_of_mem k hx)
            have hkx : k ≠ x := by
              intro he
              apply (List.nodup_cons.1 hnd).1
              rw [he]
              exact hx
            exact disjoint_siblings hI hTI hc16 hocc hc0 hkx hkch hxch
              (Desc_mono hR3 hdesc) hd
        have hAcne : pcbGet (destroyRec fuel acc k) c ≠ freePCB := by
          intro hf
          rcases tSound c hc16 hf with haccf | hdesc
          · exact occ_ne_free hR7 haccf
          · exact not_desc_of_parent hI hTI hc16 hocc hc0 hstepk hk16 hkocc
              (Desc_mono hR3 hdesc)
        have hR7A : occupied (destroyRec fuel acc k) c :=
          ne_free_occ aInv.toInv0 hc16 hAcne
        obtain ⟨cInv, cTI, cFreeP, cSound, cSub, cPP, cPers, cCompl, cOcc⟩ :=
          ihl (fun x hx => hmem x (List.mem_cons_of_mem k hx))
            (List.nodup_cons.1 hnd).2 (destroyRec fuel acc k) aInv tTI
            hR2A hR3A hR4A hR5A hR6A hR7A
        refine ⟨cInv, cTI, ?_, cSound, cSub, cPP, cPers, ?_, cOcc⟩
        · intro j hf
          exact cFreeP j (aFree j hf)
        · intro x hx j hj hd
          rcases List.mem_cons.1 hx with hxk | hxm
          · subst hxk
            have hun : ∀ q : Int, Desc s x q → pcbGet acc q ≠ freePCB :=
              fun q hdq =>
                hR6 x (List.mem_cons_self x ks) q
                  (desc_occ hI hk16 hkocc hdq).1 hdq
            have hdacc : Desc acc x j := Desc_persist hR5 hun hd
            exact cFreeP j (tCompl j hj hdacc)
          · exact cCompl x hxm j hj hd
    have hR6s : ∀ x ∈ (pcbGet s c).children, ∀ j ∈ r16, Desc s x j →
        pcbGet s j ≠ freePCB := by
      intro x hx j hj hd
      obtain ⟨⟨hx1, hx15⟩, hxocc, _⟩ := hI.child_mem c hc16 x hx
      exact occ_ne_free (desc_occ hI (mem_r16_iff.2 ⟨by omega, hx15⟩) hxocc hd).2
    obtain ⟨rInv, rTI, rFreeP, rSound, rSub, rPP, rPers, rCompl, rOcc⟩ :=
      AUX (pcbGet s c).children (fun x hx => hx) (hI.child_nodup c hc16)
        s hI hTI (fun j _ h => Or.inl h) (fun i => List.Sublist.refl _)
        (fun j _ _ => ⟨rfl, rfl⟩) (fun i j _ hj _ => hj) hR6s hocc
    have hred : destroyRec (fuel + 1) s c
        = finalizeDestroy ((pcbGet s c).children.foldl
            (fun acc k => destroyRec fuel acc k) s) c := by
      simp only [destroyRec]
    rw [hred]
    obtain ⟨fInv, fFreeC, fRdy, fAph, fInvE, fFree', fSub, fPP, fPers, fNC, fPP2⟩ :=
      finalizeDestroy_facts rInv hc1 hc15 rOcc
    refine ⟨⟨?_, ?_⟩, ?_, ?_⟩
    · intro i hi hi0 hoccT
      have hTne : pcbGet (finalizeDestroy ((pcbGet s c).children.foldl
          (fun acc k => destroyRec fuel acc k) s) c) i ≠ freePCB :=
        occ_ne_free hoccT
      have hic : i ≠ c := by
        intro he
        rw [he] at hTne
        exact hTne fFreeC
      have hRne : pcbGet ((pcbGet s c).children.foldl
          (fun acc k => destroyRec fuel acc k) s) i ≠ freePCB :=
        fun hf => hTne (fFree' i hi hf)
      have hRocc : occupied ((pcbGet s c).children.foldl
          (fun acc k => destroyRec fuel acc k) s) i :=
        ne_free_occ rInv.toInv0 hi hRne
      obtain ⟨⟨hpb0, hpb15⟩, hpo, hpm⟩ := rTI.par_valid i hi hi0 hRocc
      obtain ⟨_, hparT⟩ := fPP i hi hTne
      rw [hparT]
      have hpc : (pcbGet ((pcbGet s c).children.foldl
          (fun acc k => destroyRec fuel acc k) s) i).parent ≠ c := by
        intro he
        rw [he] at hpm
        have hms : i ∈ (pcbGet s c).children := (rSub c).mem hpm
        exact hRne (rCompl i hms i hi Desc.refl)
      obtain ⟨hprioP, _⟩ := fPP2 _ hpb0 hpc
      have hpoT : occupied (finalizeDestroy ((pcbGet s c).children.foldl
          (fun acc k => destroyRec fuel acc k) s) c)
          (pcbGet ((pcbGet s c).children.foldl
            (fun acc k => destroyRec fuel acc k) s) i).parent := by
        unfold occupied at hpo ⊢
        rw [hprioP]
        exact hpo
      exact ⟨⟨hpb0, hpb15⟩, hpoT, fPers _ i (occ_ne_free hpoT) hpm hTne⟩
    · intro i hi hoccT
      have hTne : pcbGet (finalizeDestroy ((pcbGet s c).children.foldl
          (fun acc k => destroyRec fuel acc k) s) c) i ≠ freePCB :=
        occ_ne_free hoccT
      have hic : i ≠ c := by
        intro he
        rw [he] at hTne
        exact hTne fFreeC
      have hRne : pcbGet ((pcbGet s c).children.foldl
          (fun acc k => destroyRec fuel acc k) s) i ≠ freePCB :=
        fun hf => hTne (fFree' i hi hf)
      have hRocc : occupied ((pcbGet s c).children.foldl
          (fun acc k => destroyRec fuel acc k) s) i :=
        ne_free_occ rInv.toInv0 hi hRne
      have hroot := rTI.rooted i hi hRocc
      have hagree : (parentStep (finalizeDestroy ((pcbGet s c).children.foldl
            (fun acc k => destroyRec fuel acc k) s) c))^[15] i
          = (parentStep ((pcbGet s c).children.foldl
            (fun acc k => destroyRec fuel acc k) s))^[15] i := by
        refine iterate_congr 15 ?_
        intro m _
        by_cases hx0 : (parentStep ((pcbGet s c).children.foldl
            (fun acc k => destroyRec fuel acc k) s))^[m] i = 0
        · rw [hx0, parentStep_zero, parentStep_zero]
        · obtain ⟨hx16, hxocc⟩ := chain_in rInv rTI hi hRocc m
          have hxc : (parentStep ((pcbGet s c).children.foldl
              (fun acc k => destroyRec fuel acc k) s))^[m] i ≠ c := by
            intro he
            have hdi : Desc ((pcbGet s c).children.foldl
                (fun acc k => destroyRec fuel acc k) s) c i :=
              chain_desc rInv rTI hc0 m i hi hRocc he
            rcases Desc_first_step hdi with hec | ⟨kk, hkk, hdkk⟩
            · exact hic hec
            · have hkk' : kk ∈ (pcbGet s c).children := (rSub c).mem hkk
              exact hRne (rCompl kk hkk' i hi (Desc_mono rSub hdkk))
          obtain ⟨hx0', hx15'⟩ := mem_r16_iff.1 hx16
          obtain ⟨_, hparX⟩ := fPP2 _ hx0' hxc
          rw [parentStep_ne hx0, parentStep_ne hx0, hparX]
      rw [hagree]
      exact hroot
    · intro j hj hd
      rcases Desc_first_step hd with hec | ⟨k, hk, hdk⟩
      · rw [hec]
        exact fFreeC
      · exact fFree' j hj (rCompl k hk j hj hdk)
    · intro j hj hf
      by_cases hjc : j = c
      · subst hjc
        exact Or.inr Desc.refl
      · obtain ⟨hj0, hj15⟩ := mem_r16_iff.1 hj
        by_cases hRf : pcbGet ((pcbGet s c).children.foldl
            (fun acc k => destroyRec fuel acc k) s) j = freePCB
        · exact rSound j hj hRf
        · exfalso
          have hRocc : occupied ((pcbGet s c).children.foldl
              (fun acc k => destroyRec fuel acc k) s) j :=
            ne_free_occ rInv.toInv0 hj hRf
          obtain ⟨hprioj, _⟩ := fPP2 j hj0 hjc
          unfold occupied at hRocc
          rw [hf] at hprioj
          rw [← hprioj] at hRocc
          exact absurd hRocc (by decide)


theorem treeInv_destroy {s : OSManager} {c : Int} {s' : OSManager}
    (hI : Inv s) (hTI : TreeInv s) (h : destroy s c = some s') : TreeInv s' := by
  obtain ⟨hor, hc0, heq⟩ := destroy_cases h
  obtain ⟨hc1, hc15⟩ := destroy_target_bounds hI.toInv0 hor hc0
  have hocc : occupied s c := by
    obtain ⟨⟨hcr0, hcr15⟩, hcrocc, _, _, _⟩ := cr_props hI.toInv0
    rcases hor with rfl | hmem
    · exact hcrocc
    · exact (hI.child_mem _ (mem_r16_iff.2 ⟨hcr0, hcr15⟩) c hmem).2.1
  subst heq
  exact (destroyRec_tree 16 s c hI hTI hc1 hc15 hocc
    (fun m hm => absurd hm (by omega))).1

theorem treeInv_of_reachable : ∀ {s : OSManager}, Reachable s → TreeInv s := by
  intro s h
  induction h with
  | init => exact treeInv_initState
  | step_timeout _ ih => exact treeInv_timeout ih
  | step_create hr hc ih => exact treeInv_create (inv_of_reachable hr) ih hc
  | step_request _ hc ih => exact treeInv_request ih hc
  | step_release hr hc ih => exact treeInv_release (inv_of_reachable hr) ih hc
  | step_destroy hr hc ih =>
    exact treeInv_destroy (inv_of_reachable hr) ih hc


/-- A freed slot occurs in no ready list and in no wait queue. -/
theorem free_not_listed {s : OSManager} (hI : Inv0 s) {j : Int}
    (hf : pcbGet s j = freePCB) : j ∉ rlAll s ∧ j ∉ allWaitPids s := by
  have hocc : ¬ occupied s j := by
    unfold occupied
    rw [hf]
    decide
  constructor
  · intro hmem
    unfold rlAll at hmem
    rcases List.mem_append.1 hmem with hm | hm
    · rcases List.mem_append.1 hm with hm1 | hm1
      · exact hocc (hI.rl_mem 0 (by decide) j hm1).2.1
      · exact hocc (hI.rl_mem 1 (by decide) j hm1).2.1
    · exact hocc (hI.rl_mem 2 (by decide) j hm).2.1
  · intro hmem
    unfold allWaitPids at hmem
    have hwl : ∀ k ∈ r4, j ∈ wlPids s k → False := by
      intro k hk hm
      unfold wlPids at hm
      obtain ⟨e, he, hej⟩ := List.mem_map.1 hm
      have hoe := (hI.wl_entry k hk e he).2.1
      rw [hej] at hoe
      exact hocc hoe
    rcases List.mem_append.1 hmem with hm | hm
    · rcases List.mem_append.1 hm with hm1 | hm1
      · rcases List.mem_append.1 hm1 with hm2 | hm2
        · exact hwl 0 (by decide) hm2
        · exact hwl 1 (by decide) hm2
      · exact hwl 2 (by decide) hm1
    · exact hwl 3 (by decide) hm

/-- C4: `destroy(targetId)` fails, leaving the state unchanged, exactly when
the target is neither the currently running process nor one of its direct
children, or is process 0.  On success it removes the target together with
all of its descendants and nothing else: every destroyed slot is reset to
the free sentinel and appears in no ready list and no wait queue, the target
is unlinked from every children set, and for every resource type the
available units plus the units still held are conserved (the destroyed
holders' units are returned to the available pool) with inventories
unchanged. -/
theorem C4_destroy_contract {s : OSManager} (hr : Reachable s) (c : Int) :
    (destroy s c = none ↔
      ((c ≠ currentlyRunning s ∧
        c ∉ (pcbGet s (currentlyRunning s)).children) ∨ c = 0)) ∧
    (∀ s' : OSManager, destroy s c = some s' →
      (∀ j ∈ r16, Desc s c j → pcbGet s' j = freePCB ∧
        j ∉ rlAll s' ∧ j ∉ allWaitPids s') ∧
      (∀ j ∈ r16, pcbGet s' j = freePCB →
        pcbGet s j = freePCB ∨ Desc s c j) ∧
      (∀ i ∈ r16, c ∉ (pcbGet s' i).children) ∧
      (∀ k ∈ r4, (rcbGet s' k).state + heldSum s' k
        = (rcbGet s k).state + heldSum s k) ∧
      (∀ k ∈ r4, (rcbGet s' k).inventory = (rcbGet s k).inventory)) := by
  have hI := inv_of_reachable hr
  have hTI := treeInv_of_reachable hr
  constructor
  · unfold destroy
    simp only []
    split_ifs with h1 h2
    · exact iff_of_true rfl (Or.inl h1)
    · exact iff_of_true rfl (Or.inr h2)
    · refine iff_of_false (by simp) ?_
      rintro (h | h)
      · exact h1 h
      · exact h2 h
  · intro s' h
    obtain ⟨hor, hc0, heq⟩ := destroy_cases h
    obtain ⟨hc1, hc15⟩ := destroy_target_bounds hI.toInv0 hor hc0
    have hocc : occupied s c := by
      obtain ⟨⟨hcr0, hcr15⟩, hcrocc, _, _, _⟩ := cr_props hI.toInv0
      rcases hor with rfl | hmem
      · exact hcrocc
      · exact (hI.child_mem _ (mem_r16_iff.2 ⟨hcr0, hcr15⟩) c hmem).2.1
    have hI' : Inv s' := destroy_inv hI h
    subst heq
    obtain ⟨hTI', hCompl, hSound⟩ := destroyRec_tree 16 s c hI hTI hc1 hc15 hocc
      (fun m hm => absurd hm (by omega))
    obtain ⟨_, hAph, hInvE, _, _, _, _, _⟩ := destroyRec_facts 16 s c hI hc1 hc15
    have hc16 : c ∈ r16 := mem_r16_iff.2 ⟨by omega, hc15⟩
    have hcfree : pcbGet (destroyRec 16 s c) c = freePCB :=
      hCompl c hc16 Desc.refl
    refine ⟨?_, hSound, ?_, hAph, hInvE⟩
    · intro j hj hd
      have hf := hCompl j hj hd
      obtain ⟨h1, h2⟩ := free_not_listed hI'.toInv0 hf
      exact ⟨hf, h1, h2⟩
    · intro i hi hmem
      exact occ_ne_free (hI'.child_mem i hi c hmem).2.1 hcfree

theorem C4_destroy_contract_witness :
    destroy initState 5 = none ↔
      (((5 : Int) ≠ currentlyRunning initState ∧
        (5 : Int) ∉ (pcbGet initState (currentlyRunning initState)).children) ∨
        (5 : Int) = 0) :=
  (C4_destroy_contract Reachable.init 5).1

end PRM
